import Mathlib

/-!
Infix calculator: tokenizer and two-stack evaluator

A shallow embedding of `main.cpp` and `vector.h`.

* `int` is a 32-bit two's complement integer: every arithmetic result is
  reduced with `wrapInt`.
* `size_t` is a 64-bit unsigned integer: the counters of `Vector` are reduced
  modulo `2 ^ 64`.
* A C++ call either returns a value, throws an exception, or has no defined
  behaviour (integer division by zero or with a quotient that is no `int`, a
  read outside the live elements of a buffer, a write outside the buffer);
  `Res` records which.
* Standard input is a list of characters still to be read and standard output
  is the list of messages printed so far, one constructor of `Msg` per
  `printf` of the program.
-/

namespace Calc

/-! ## Machine integers -/

/-- The value of a mathematical integer stored in a 32-bit `int`. -/
@[irreducible]
def wrapInt (x : Int) : Int := (x + 2 ^ 31) % 2 ^ 32 - 2 ^ 31

/-- The largest `size_t`. -/
@[irreducible]
def SIZE_MAX : Nat := 2 ^ 64 - 1

/-- The value of a natural number stored in a `size_t`. -/
@[irreducible]
def wrapSize (n : Nat) : Nat := n % 2 ^ 64

/-- `INT_MIN`, the least `int`. -/
def INT_MIN : Int := -2147483648

/-! ## Exceptions and results -/

/-- The exception classes thrown by the program. -/
inductive Exn where
  | IllegalOperationOnCurrentState
  | out_of_range
  | invalid_argument
  deriving DecidableEq, Repr

/-- The result of a call: a value, a thrown exception, or undefined
behaviour. -/
inductive Res (α : Type) where
  | ok (a : α)
  | throw (e : Exn)
  | undefined
  deriving DecidableEq, Repr

/-! ## `vector.h` -/

/-- The class `Vector` of `vector.h`. `arr` lists the constructed elements of
the buffer in index order, `inUse` and `allocated` are the two `size_t`
counters. -/
structure Vector (T : Type) where
  arr : List T
  inUse : Nat
  allocated : Nat
  deriving DecidableEq, Repr

/-- The instantiation `#define T int`. -/
abbrev int_vector := Vector Int

/-- The instantiation `#define T char`. -/
abbrev char_vector := Vector Char

namespace Vector

variable {T : Type}

/-- `DEFAULT_CAPACITY`. -/
def DEFAULT_CAPACITY : Nat := 2

/-- `init(capacity)`: a buffer of `capacity` slots, none constructed. -/
def init (capacity : Nat) : Vector T :=
  { arr := [], inUse := 0, allocated := capacity }

/-- The constructor `Vector(size_t capacity)`. -/
def new (capacity : Nat) : Vector T := init capacity

/-- The constructor `Vector()` with the default argument `DEFAULT_CAPACITY`. -/
def newDefault : Vector T := new DEFAULT_CAPACITY

/-- The unchecked `operator[](idx)`: a read outside the constructed elements
has no defined behaviour. -/
def index (v : Vector T) (idx : Nat) : Res T :=
  match v.arr[idx]? with
  | some x => .ok x
  | none => .undefined

/-- The number of slots of the buffer after the growth step of `push_back`,
`if (inUse == allocated) arr = realloc(arr, sizeof(T) * (allocated += allocated))`. -/
def grown (v : Vector T) : Nat :=
  if v.inUse = v.allocated then wrapSize (v.allocated + v.allocated) else v.allocated

/-- `push_back(val)`: double `allocated` when the buffer is full, construct
`val` at index `inUse`, increment `inUse`. The construction
`new (arr + inUse) T(val)` at an index that is not below the number of slots
of the buffer is a write outside the buffer and has no defined behaviour; so
it is on a full buffer of no slot at all, which the doubling leaves without
a slot. `emplace_back` has the same body. -/
def push_back (v : Vector T) (val : T) : Res (Vector T) :=
  if v.inUse < v.grown then
    .ok { arr := v.arr ++ [val], inUse := wrapSize (v.inUse + 1), allocated := v.grown }
  else .undefined

/-- `back()`: the element at index `inUse - 1`, or the exception when
`inUse` is zero. -/
def back (v : Vector T) : Res T :=
  if v.inUse ≠ 0 then v.index (v.inUse - 1)
  else .throw .IllegalOperationOnCurrentState

/-- `front()`: the element at index `0`, or the exception when `inUse` is
zero. -/
def front (v : Vector T) : Res T :=
  if v.inUse ≠ 0 then v.index 0
  else .throw .IllegalOperationOnCurrentState

/-- `pop_back()`: `std::destroy_at(arr + --inUse)`. There is no test of
`inUse`: the decrement of the unsigned counter wraps from `0` to
`SIZE_MAX`. -/
def pop_back (v : Vector T) : Vector T :=
  { arr := v.arr.dropLast
    inUse := if v.inUse = 0 then SIZE_MAX else v.inUse - 1
    allocated := v.allocated }

/-- The member `at(idx)` (a reserved word of Lean, hence the underscore). -/
def at_ (v : Vector T) (idx : Nat) : Res T :=
  if idx < v.inUse then v.index idx
  else .throw .out_of_range

/-- `emplace_back(args...)` with the arguments of a copy: the body of
`push_back`. -/
def emplace_back (v : Vector T) (val : T) : Res (Vector T) := v.push_back val

/-- `reset()`: `destroy(); init(DEFAULT_CAPACITY);`. -/
def reset (_v : Vector T) : Vector T := init DEFAULT_CAPACITY

/-- `copy(other)`: a buffer of `other.allocated` slots holding copies of the
first `other.inUse` elements of `other`. -/
def copy (other : Vector T) : Vector T :=
  { arr := other.arr.take other.inUse, inUse := other.inUse, allocated := other.allocated }

/-- `move(other)`: this vector takes the buffer and the counters of `other`,
and `other` is initialised anew. The pair is (this vector, `other`) after
the call. -/
def move (other : Vector T) : Vector T × Vector T :=
  ({ arr := other.arr, inUse := other.inUse, allocated := other.allocated },
   init DEFAULT_CAPACITY)

/-- The copy constructor `Vector(const Vector& other)`. -/
def copyConstruct (other : Vector T) : Vector T := copy other

/-- The move constructor `Vector(Vector&& other)`: the new vector and
`other` after the call. -/
def moveConstruct (other : Vector T) : Vector T × Vector T := move other

/-- The copy assignment `operator=(const Vector& other)`:
`destroy(); copy(other);`. -/
def copyAssign (_v other : Vector T) : Vector T := copy other

/-- The move assignment `operator=(Vector&& other)`, for two distinct
objects: `destroy(); move(other);`. The pair is (this vector, `other`) after
the call. -/
def moveAssign (_v other : Vector T) : Vector T × Vector T := move other

/-- `empty()`. -/
def empty (v : Vector T) : Bool := v.inUse == 0

/-- `size()`. -/
def size (v : Vector T) : Nat := v.inUse

/-- `capacity()`. -/
def capacity (v : Vector T) : Nat := v.allocated

end Vector

/-! ## Tokens -/

/-- The enumeration `TokenType`. -/
inductive TokenType where
  | ERROR | OPERATOR | VALUE | EOLN | QUIT | HELP | EOFILE
  deriving DecidableEq, Repr

/-- The class `Token`. -/
structure Token where
  type : TokenType
  val : Int
  op : Char
  deriving DecidableEq, Repr

namespace Token

/-- `valueError`. -/
def valueError : Int := -999

/-- `opError`. -/
def opError : Char := '$'

/-- `Token(TokenType t)`. -/
def ofType (t : TokenType) : Token := { type := t, val := valueError, op := opError }

/-- `Token(char op)`. -/
def ofOp (op : Char) : Token := { type := .OPERATOR, val := valueError, op := op }

/-- `Token(value_t val)`. -/
def ofValue (val : Int) : Token := { type := .VALUE, val := val, op := opError }

/-- `equalsType(t)`. -/
def equalsType (tok : Token) (t : TokenType) : Bool := tok.type == t

/-- `getType()`. -/
def getType (tok : Token) : TokenType := tok.type

/-- `equalsOperator(c)`. -/
def equalsOperator (tok : Token) (c : Char) : Bool := tok.type == .OPERATOR && tok.op == c

/-- `getOperator()`. -/
def getOperator (tok : Token) : Char := if tok.type = .OPERATOR then tok.op else '$'

/-- `getValue()`. -/
def getValue (tok : Token) : Int := if tok.type = .VALUE then tok.val else -999

end Token

/-! ## Pop-and-fold -/

/-- `eval(rhs, lhs, op)`. The division `lhs / rhs` of `int` has no defined
behaviour when `rhs` is zero and when the quotient is not an `int`, which is
the case of `INT_MIN / -1`. -/
def eval (rhs lhs : Int) (op : Char) : Res Int :=
  if op = '+' then .ok (wrapInt (lhs + rhs))
  else if op = '-' then .ok (wrapInt (lhs - rhs))
  else if op = '*' then .ok (wrapInt (lhs * rhs))
  else if op = '/' then
    (if rhs = 0 ∨ (lhs = INT_MIN ∧ rhs = -1) then .undefined
     else .ok (wrapInt (Int.tdiv lhs rhs)))
  else .throw .invalid_argument

/-- `popAndEval(valuesStack, operatorStack)`: the two stacks after the call,
or the exception that leaves it. -/
def popAndEval (valuesStack : int_vector) (operatorStack : char_vector) :
    Res (int_vector × char_vector) :=
  match valuesStack.back with
  | .throw e => .throw e
  | .undefined => .undefined
  | .ok rhs =>
    let valuesStack := valuesStack.pop_back
    match valuesStack.back with
    | .throw e => .throw e
    | .undefined => .undefined
    | .ok lhs =>
      let valuesStack := valuesStack.pop_back
      match operatorStack.back with
      | .throw e => .throw e
      | .undefined => .undefined
      | .ok op =>
        let operatorStack := operatorStack.pop_back
        match eval rhs lhs op with
        | .throw e => .throw e
        | .undefined => .undefined
        | .ok r =>
          match valuesStack.push_back r with
          | .throw e => .throw e
          | .undefined => .undefined
          | .ok valuesStack => .ok (valuesStack, operatorStack)

/-! ## Input and output -/

/-- One constructor per text the program prints. -/
inductive Msg where
  /-- `"Starting Expression Evaluation Program\n"` -/
  | starting
  /-- `"Debugging mode ON."` -/
  | debuggingOn
  /-- `"\nEnter Expression: "` -/
  | prompt
  /-- `"Quitting Program\n"` -/
  | quitting
  /-- The text of `printCommands`. -/
  | commands
  /-- `"Invalid Input - For a list of valid commands, type ?\n"` -/
  | invalidInput
  /-- `"Blank Line - Do Nothing\n"` -/
  | blankLine
  /-- `"Error in reading"` -/
  | errorInReading
  /-- `"Error: Unrecognized symbol \"%s\"\n"` with the text `s`. -/
  | unrecognizedSymbol (s : List Char)
  /-- `"Error: Too many operators.\n"` -/
  | tooManyOperators
  /-- `"Error: missing an opening parenthesis\n"` -/
  | missingOpeningParenthesis
  /-- `"Error: Not enough operators.\n"` -/
  | notEnoughOperators
  /-- `"Result: %d\n"` with the value `v`. -/
  | result (v : Int)
  /-- `LOG("Val: %d, ", val)` -/
  | logVal (v : Int)
  /-- `LOG("OP: %c, ", op)` -/
  | logOp (c : Char)
  deriving DecidableEq, Repr

/-- The streams of the process: the characters of standard input not yet
read, and the messages printed on standard output so far. -/
structure World where
  stdin : List Char
  stdout : List Msg
  deriving DecidableEq, Repr

/-- Append messages to standard output. -/
def World.print (w : World) (out : List Msg) : World :=
  { w with stdout := w.stdout ++ out }

/-- The terminating character of a C string. -/
def NUL : Char := Char.ofNat 0

/-- `MAX_LINE`. -/
def MAX_LINE : Nat := 300

/-- `isspace` in the C locale. -/
def isspace (c : Char) : Bool :=
  c.toNat == 32 || (decide (9 ≤ c.toNat) && decide (c.toNat ≤ 13))

/-- `isdigit`. -/
def isdigit (c : Char) : Bool :=
  decide (48 ≤ c.toNat) && decide (c.toNat ≤ 57)

/-- The characters `fgets` stores for a buffer with room for `n` characters
before the terminator, and the input left: it stops after a newline. -/
def fgetsChars : Nat → List Char → List Char × List Char
  | 0, s => ([], s)
  | _ + 1, [] => ([], [])
  | n + 1, c :: s =>
    if c = Char.ofNat 10 then ([c], s)
    else ((c :: (fgetsChars n s).1), (fgetsChars n s).2)

/-- `fgets(buffer, size, stdin)`: `none` is the null pointer returned at end
of input. -/
def fgets (size : Nat) (stdin : List Char) : Option (List Char × List Char) :=
  if stdin = [] then none else some (fgetsChars (size - 1) stdin)

/-- `strlen`: the number of characters before the first `NUL`. -/
def strlen (s : List Char) : Nat := (s.takeWhile (fun c => c != NUL)).length

/-- The C string that starts at index `start` of a buffer. -/
def cstringAt (buffer : List Char) (start : Nat) : List Char :=
  (buffer.drop start).takeWhile (fun c => c != NUL)

/-! ## The token reader -/

/-- The class `TokenReader`. `inputLine` holds the characters stored in the
buffer by the last `fgets`; every index from its length on reads as `NUL`
(the buffer is zero-initialised and `fgets` writes the terminator). -/
structure TokenReader where
  inputLine : List Char
  needLine : Bool
  pos : Nat
  length : Nat
  deriving DecidableEq, Repr

namespace TokenReader

/-- The constructor `TokenReader()`. -/
def new : TokenReader := { inputLine := [], needLine := true, pos := 0, length := 0 }

/-- `clearToEoln()`. -/
def clearToEoln (tr : TokenReader) : TokenReader := { tr with needLine := true }

/-- `inputLine[i]`. -/
def charAt (inputLine : List Char) (i : Nat) : Char := inputLine.getD i NUL

/-- The loop `while (pos < length && p(inputLine[pos])) ++pos;`, at most
`fuel` iterations; `length - pos` iterations always reach its exit. -/
def scanWhile (p : Char → Bool) (inputLine : List Char) (length : Nat) : Nat → Nat → Nat
  | 0, pos => pos
  | fuel + 1, pos =>
    if pos < length && p (charAt inputLine pos) then
      scanWhile p inputLine length fuel (pos + 1)
    else pos

/-- The loop `while (isdigit(ch)) { number = number * 10 + (ch - '0');
ch = inputLine[pos++]; }`: the final `number` and `pos`. The characters from
the end of `inputLine` on are `NUL`, so the loop makes at most as many
iterations as `inputLine` has characters. -/
def digitLoop (inputLine : List Char) : Nat → Int → Char → Nat → Int × Nat
  | 0, number, _, pos => (number, pos)
  | fuel + 1, number, ch, pos =>
    if isdigit ch then
      digitLoop inputLine fuel (wrapInt (wrapInt (number * 10) + ((ch.toNat : Int) - 48)))
        (charAt inputLine pos) (pos + 1)
    else (number, pos)

/-- The first block of `getNextToken`: read a line when `needLine` is set.
`none` is the failure of `fgets`. -/
def readLine (tr : TokenReader) (w : World) : Option (TokenReader × World) :=
  if tr.needLine then
    match fgets MAX_LINE w.stdin with
    | none => none
    | some (line, rest) =>
      some ({ inputLine := line, needLine := false, pos := 0, length := strlen line },
            { w with stdin := rest })
  else some (tr, w)

/-- The part of `getNextToken` that follows the reading of a line: skip the
white space and build the token that starts at the scan position. -/
def scanToken (tr : TokenReader) (w : World) : Token × TokenReader × World :=
  let pos := scanWhile isspace tr.inputLine tr.length (tr.length - tr.pos) tr.pos
  if pos ≥ tr.length then
    (Token.ofType .EOLN, { tr with needLine := true, pos := pos }, w)
  else
    let ch := charAt tr.inputLine pos
    let pos := pos + 1
    if ch = 'q' ∨ ch = 'Q' then (Token.ofType .QUIT, { tr with pos := pos }, w)
    else if ch = '?' then (Token.ofType .HELP, { tr with pos := pos }, w)
    else if ch = '+' ∨ ch = '-' ∨ ch = '*' ∨ ch = '/' ∨ ch = '(' ∨ ch = ')' then
      (Token.ofOp ch, { tr with pos := pos }, w)
    else if isdigit ch then
      let number : Int := (ch.toNat : Int) - 48
      let r := digitLoop tr.inputLine tr.inputLine.length number
                 (charAt tr.inputLine pos) (pos + 1)
      (Token.ofValue r.1, { tr with pos := r.2 - 1 }, w)
    else
      let s := pos - 1
      let pos := scanWhile (fun c => !isspace c) tr.inputLine tr.length (tr.length - pos) pos
      let inputLine := tr.inputLine.set pos NUL
      (Token.ofType .ERROR, { tr with inputLine := inputLine, pos := pos },
        w.print [Msg.unrecognizedSymbol (cstringAt inputLine s)])

/-- `getNextToken()`: the token, the reader and the streams after the call. -/
def getNextToken (tr : TokenReader) (w : World) : Token × TokenReader × World :=
  match readLine tr w with
  | none => (Token.ofType .EOFILE, tr, w.print [Msg.errorInReading])
  | some (tr, w) => scanToken tr w

end TokenReader

/-! ## The evaluator -/

/-- How a call of `processExpression` (or an iteration of `main`) ends.
`unfinished` is the exhaustion of the iteration bound of a loop of the
embedding; no run of the program ends so. -/
inductive Ending where
  | returned
  | threw (e : Exn)
  | undefined
  | unfinished
  deriving DecidableEq, Repr

/-- The control flow inside `processExpression`: go on with a value, or leave
the function after printing `out`. -/
inductive Flow (α : Type) where
  | go (a : α)
  | stop (out : List Msg) (e : Ending)
  deriving DecidableEq, Repr

/-- The two stacks of `processExpression`. -/
abbrev Stacks := int_vector × char_vector

/-- The macro `tryPopEval()`: any exception of `popAndEval` prints the message
and returns from `processExpression`. -/
def tryPopEval (valueStack : int_vector) (operatorStack : char_vector) : Flow Stacks :=
  match popAndEval valueStack operatorStack with
  | .ok st => .go st
  | .throw _ => .stop [Msg.tooManyOperators] .returned
  | .undefined => .stop [] .undefined

/-- The loop at a label of `processExpression`:
`if (!operatorStack.empty()) switch (operatorStack.back()) { case ...:
tryPopEval() goto label; default: break; }`, where `folds c` tells whether
`c` is one of the case labels. -/
def foldWhile (folds : Char → Bool) : Nat → int_vector → char_vector → Flow Stacks
  | 0, _, _ => .stop [] .unfinished
  | fuel + 1, valueStack, operatorStack =>
    if !operatorStack.empty then
      match operatorStack.back with
      | .throw e => .stop [] (.threw e)
      | .undefined => .stop [] .undefined
      | .ok c =>
        if folds c then
          match tryPopEval valueStack operatorStack with
          | .stop out e => .stop out e
          | .go st => foldWhile folds fuel st.1 st.2
        else .go (valueStack, operatorStack)
    else .go (valueStack, operatorStack)

/-- The case labels of `loop1`. -/
def isLoop1Case (c : Char) : Bool := c == '+' || c == '-' || c == '*' || c == '/'

/-- The case labels of `loop2`. -/
def isLoop2Case (c : Char) : Bool := c == '*' || c == '/'

/-- The condition `operatorStack.back() != '('` of the loop of `case ')'`. -/
def isNotOpen (c : Char) : Bool := c != '('

/-- The label `loop1` (cases `'+'` and `'-'`). -/
def loop1 (valueStack : int_vector) (operatorStack : char_vector) : Flow Stacks :=
  foldWhile isLoop1Case (operatorStack.inUse + 1) valueStack operatorStack

/-- The label `loop2` (cases `'*'` and `'/'`). -/
def loop2 (valueStack : int_vector) (operatorStack : char_vector) : Flow Stacks :=
  foldWhile isLoop2Case (operatorStack.inUse + 1) valueStack operatorStack

/-- The body of `case ')'`. -/
def closeParen (valueStack : int_vector) (operatorStack : char_vector) : Flow Stacks :=
  match foldWhile isNotOpen (operatorStack.inUse + 1) valueStack operatorStack with
  | .stop out e => .stop out e
  | .go st =>
    if st.2.empty then .stop [Msg.missingOpeningParenthesis] .returned
    else .go (st.1, st.2.pop_back)

/-- The statement `operatorStack.push_back(op); break;` of the main loop,
outside every `try`. -/
def pushOperator (op : Char) (valueStack : int_vector) (operatorStack : char_vector) :
    Flow Stacks :=
  match operatorStack.push_back op with
  | .ok operatorStack => .go (valueStack, operatorStack)
  | .throw e => .stop [] (.threw e)
  | .undefined => .stop [] .undefined

/-- The statement `valueStack.push_back(val);` of the main loop, outside
every `try`. -/
def pushValue (val : Int) (valueStack : int_vector) (operatorStack : char_vector) :
    Flow Stacks :=
  match valueStack.push_back val with
  | .ok valueStack => .go (valueStack, operatorStack)
  | .throw e => .stop [] (.threw e)
  | .undefined => .stop [] .undefined

/-- The `switch (op)` of `case OPERATOR`. -/
def processOperator (op : Char) (valueStack : int_vector) (operatorStack : char_vector) :
    Flow Stacks :=
  if op = '(' then pushOperator op valueStack operatorStack
  else if op = '+' ∨ op = '-' then
    match loop1 valueStack operatorStack with
    | .stop out e => .stop out e
    | .go st => pushOperator op st.1 st.2
  else if op = '*' ∨ op = '/' then
    match loop2 valueStack operatorStack with
    | .stop out e => .stop out e
    | .go st => pushOperator op st.1 st.2
  else if op = ')' then closeParen valueStack operatorStack
  else .go (valueStack, operatorStack)

/-- The `LOG` line of the case of `inputToken`, printed when `debugMode` is
set. -/
def logOf (debugMode : Bool) (inputToken : Token) : List Msg :=
  if debugMode then
    match inputToken.getType with
    | .VALUE => [Msg.logVal inputToken.getValue]
    | .OPERATOR => [Msg.logOp inputToken.getOperator]
    | _ => []
  else []

/-- The `switch (inputToken.getType())` of the main loop (without its `LOG`
lines). -/
def processToken (inputToken : Token) (valueStack : int_vector)
    (operatorStack : char_vector) : Flow Stacks :=
  match inputToken.getType with
  | .VALUE => pushValue inputToken.getValue valueStack operatorStack
  | .OPERATOR => processOperator inputToken.getOperator valueStack operatorStack
  | _ => .stop [] .returned

/-- The end of `processExpression`, from `while (!operatorStack.empty())` on:
the messages printed and the ending. The read `valueStack.back()` is outside
every `try`. -/
def finish (valueStack : int_vector) (operatorStack : char_vector) : List Msg × Ending :=
  match foldWhile (fun _ => true) (operatorStack.inUse + 1) valueStack operatorStack with
  | .stop out e => (out, e)
  | .go st =>
    match st.1.back with
    | .throw e => ([], .threw e)
    | .undefined => ([], .undefined)
    | .ok result =>
      if st.1.pop_back.empty then ([Msg.result result], .returned)
      else ([Msg.notEnoughOperators], .returned)

/-- The state in which a run ends. -/
structure Run where
  ending : Ending
  tr : TokenReader
  world : World
  deriving DecidableEq, Repr

/-- The main loop of `processExpression` followed by its end; `fuel` bounds
the number of tokens handled. -/
def exprLoop (debugMode : Bool) : Nat → Token → TokenReader → World →
    int_vector → char_vector → Run
  | 0, _, tr, w, _, _ => { ending := .unfinished, tr := tr, world := w }
  | fuel + 1, inputToken, tr, w, valueStack, operatorStack =>
    if inputToken.equalsType .EOLN then
      { ending := (finish valueStack operatorStack).2, tr := tr,
        world := w.print (finish valueStack operatorStack).1 }
    else
      match processToken inputToken valueStack operatorStack with
      | .stop out e =>
        { ending := e, tr := tr, world := (w.print (logOf debugMode inputToken)).print out }
      | .go st =>
        exprLoop debugMode fuel
          (tr.getNextToken (w.print (logOf debugMode inputToken))).1
          (tr.getNextToken (w.print (logOf debugMode inputToken))).2.1
          (tr.getNextToken (w.print (logOf debugMode inputToken))).2.2 st.1 st.2

/-- A bound on the number of tokens `processExpression` can handle: every
token other than end-of-line consumes a character of the line in the buffer
or of the line read next. -/
def tokenBound (tr : TokenReader) (w : World) : Nat := tr.length + w.stdin.length + 3

/-- `processExpression(inputToken, tr)` with the global `debugMode`. -/
def processExpression (debugMode : Bool) (inputToken : Token) (tr : TokenReader)
    (w : World) : Run :=
  exprLoop debugMode (tokenBound tr w) inputToken tr w Vector.newDefault Vector.newDefault

/-- How an iteration of the loop of `main` ends. -/
inductive Iteration where
  /-- The loop goes on to the next prompt. -/
  | continues
  /-- `main` returns the exit status. -/
  | exits (status : Int)
  /-- `processExpression` did not return. -/
  | aborted (e : Ending)
  deriving DecidableEq, Repr

/-- One iteration of the `while (true)` loop of `main`. -/
def mainIteration (debugMode : Bool) (w : World) : Iteration × World :=
  let r := TokenReader.new.getNextToken (w.print [Msg.prompt])
  match r.1.getType with
  | .QUIT => (.exits 1, r.2.2.print [Msg.quitting])
  | .HELP => (.continues, r.2.2.print [Msg.commands])
  | .ERROR => (.continues, r.2.2.print [Msg.invalidInput])
  | .EOLN => (.continues, r.2.2.print [Msg.blankLine])
  | _ =>
    let run := processExpression debugMode r.1 r.2.1 r.2.2
    match run.ending with
    | .returned => (.continues, run.world)
    | e => (.aborted e, run.world)

/-- The line typed at a prompt, as standard input: its characters and the
newline. -/
def typed (line : String) : World := { stdin := line.toList ++ [Char.ofNat 10], stdout := [] }

end Calc

/-! ## Definitions used to state the properties -/

namespace Calc

/-- The left-to-right decimal value of a run of digits. -/
def decimal (run : List Char) : Nat :=
  run.foldl (fun n c => n * 10 + (c.toNat - 48)) 0

/-- The maximal run of characters satisfying `p` that starts at index `i`
of the first `length` characters of a buffer. -/
def runAt (p : Char → Bool) (inputLine : List Char) (length i : Nat) : List Char :=
  ((inputLine.take length).drop i).takeWhile p

/-- The assignment `number = number * 10 + (ch - '0')` of the digit loop. -/
def digitStep (number : Int) (ch : Char) : Int :=
  wrapInt (wrapInt (number * 10) + ((ch.toNat : Int) - 48))

/-- The value of `l op r` in `int` arithmetic for the four binary operators;
the quotient is the integer division that truncates toward zero. -/
def applyOp (op : Char) (l r : Int) : Int :=
  if op = '+' then wrapInt (l + r)
  else if op = '-' then wrapInt (l - r)
  else if op = '*' then wrapInt (l * r)
  else wrapInt (Int.tdiv l r)

/-- The four binary operators. -/
def isBinary (c : Char) : Bool := c == '+' || c == '-' || c == '*' || c == '/'

/-- Push the values of a list in order with `push_back`. -/
def pushAll {T : Type} (v : Vector T) : List T → Res (Vector T)
  | [] => .ok v
  | x :: xs =>
    match v.push_back x with
    | .ok v' => pushAll v' xs
    | .throw e => .throw e
    | .undefined => .undefined

/-- Call `pop_back` `n` times. -/
def popN {T : Type} (v : Vector T) : Nat → Vector T
  | 0 => v
  | n + 1 => popN v.pop_back n

/-- The representation invariant of a vector that holds the elements `l`:
they are the constructed elements and `inUse` counts them. -/
def Vector.Holds {T : Type} (v : Vector T) (l : List T) : Prop :=
  v.arr = l ∧ v.inUse = l.length ∧ l.length < 2 ^ 64

/-- The flow of control of the evaluator on stacks written as lists, top
first. -/
inductive LFlow where
  | go (values : List Int) (ops : List Char)
  | stop (out : List Msg) (e : Ending)
  deriving DecidableEq, Repr

/-- The loop `foldWhile` on stacks written as lists, top first: while the top
operator is one of the case labels, pop-and-fold; a pop-and-fold without two
values, or with an operator that `eval` rejects, prints the message of
`tryPopEval`. -/
def lFoldWhile (folds : Char → Bool) : List Int → List Char → LFlow
  | vs, [] => .go vs []
  | vs, op :: os =>
    if folds op then
      match vs with
      | r :: l :: vs' =>
        match eval r l op with
        | .ok v => lFoldWhile folds (v :: vs') os
        | .throw _ => .stop [Msg.tooManyOperators] .returned
        | .undefined => .stop [] .undefined
      | _ => .stop [Msg.tooManyOperators] .returned
    else .go vs (op :: os)

/-- The body of `case ')'` on stacks written as lists. -/
def lCloseParen (vs : List Int) (os : List Char) : LFlow :=
  match lFoldWhile isNotOpen vs os with
  | .stop out e => .stop out e
  | .go _ [] => .stop [Msg.missingOpeningParenthesis] .returned
  | .go vs' (_ :: os') => .go vs' os'

/-- The `switch (op)` of `case OPERATOR` on stacks written as lists. -/
def lOperator (op : Char) (vs : List Int) (os : List Char) : LFlow :=
  if op = '(' then .go vs (op :: os)
  else if op = '+' ∨ op = '-' then
    match lFoldWhile isLoop1Case vs os with
    | .stop out e => .stop out e
    | .go vs' os' => .go vs' (op :: os')
  else if op = '*' ∨ op = '/' then
    match lFoldWhile isLoop2Case vs os with
    | .stop out e => .stop out e
    | .go vs' os' => .go vs' (op :: os')
  else if op = ')' then lCloseParen vs os
  else .go vs os

/-- The `switch (inputToken.getType())` on stacks written as lists. -/
def lToken (inputToken : Token) (vs : List Int) (os : List Char) : LFlow :=
  match inputToken.getType with
  | .VALUE => .go (inputToken.getValue :: vs) os
  | .OPERATOR => lOperator inputToken.getOperator vs os
  | _ => .stop [] .returned

/-- The end of `processExpression` on stacks written as lists. -/
def lFinish (vs : List Int) (os : List Char) : List Msg × Ending :=
  match lFoldWhile (fun _ => true) vs os with
  | .stop out e => (out, e)
  | .go [] _ => ([], .threw .IllegalOperationOnCurrentState)
  | .go [result] _ => ([Msg.result result], .returned)
  | .go (_ :: _ :: _) _ => ([Msg.notEnoughOperators], .returned)

/-- The run of `processExpression` on an explicit sequence of tokens (the
current token and those the reader returns next) and on stacks written as
lists: the messages printed and the ending. A sequence that ends before an
end-of-line token or a token that stops the run gives `unfinished`. -/
def lRun (debugMode : Bool) : List Token → List Int → List Char → List Msg × Ending
  | [], _, _ => ([], .unfinished)
  | t :: ts, vs, os =>
    if t.equalsType .EOLN then lFinish vs os
    else
      match lToken t vs os with
      | .stop out e => (logOf debugMode t ++ out, e)
      | .go vs' os' =>
        (logOf debugMode t ++ (lRun debugMode ts vs' os').1, (lRun debugMode ts vs' os').2)

/-- Successive calls of `getNextToken`, starting from the reader `tr` with
the input `stdin` left to read, return the tokens `toks` in order and print
nothing. -/
def Supplies : TokenReader → List Char → List Token → Prop
  | _, _, [] => True
  | tr, stdin, t :: ts =>
    (tr.getNextToken { stdin := stdin, stdout := [] }).1 = t ∧
    (tr.getNextToken { stdin := stdin, stdout := [] }).2.2.stdout = [] ∧
    Supplies (tr.getNextToken { stdin := stdin, stdout := [] }).2.1
      (tr.getNextToken { stdin := stdin, stdout := [] }).2.2.stdin ts

/-- A stack held by a vector, written as the list of its elements from the
top down. -/
def Vector.HoldsStack {T : Type} (v : Vector T) (s : List T) : Prop := v.Holds s.reverse

/-- The two stacks of the evaluator hold the lists `vs` and `os` (top
first). -/
def StacksHold (st : Stacks) (vs : List Int) (os : List Char) : Prop :=
  st.1.HoldsStack vs ∧ st.2.HoldsStack os

/-- The elements of the vector are within its buffer, which has a slot, and
the number of its slots is a `size_t`: `size() <= capacity()`,
`0 < capacity()`. -/
def Vector.Fits {T : Type} (v : Vector T) : Prop :=
  v.inUse ≤ v.allocated ∧ 0 < v.allocated ∧ v.allocated < 2 ^ 64

/-- What a step from the stacks `src` to the stacks `st` keeps: the elements
within the buffer. -/
def Carries (src st : Stacks) : Prop :=
  (src.1.inUse ≤ src.1.allocated → st.1.inUse ≤ st.1.allocated) ∧
  (src.1.Fits → st.1.Fits) ∧ (src.2.Fits → st.2.Fits)

/-- The result of a step on vectors, from the stacks `src`, agrees with the
result on lists. -/
def FlowAgrees (src : Stacks) : Flow Stacks → LFlow → Prop
  | .go st, .go vs os => StacksHold st vs os ∧ Carries src st
  | .stop out e, .stop out' e' => out = out' ∧ e = e'
  | _, _ => False

/-- A bound on the number of characters the reader can still consume before
an end-of-line token: those of the line in the buffer, or those of the input
when a line has to be read. -/
def remaining (tr : TokenReader) (stdin : List Char) : Nat :=
  if tr.needLine then stdin.length + 1 else tr.length - tr.pos

/-- The tokens of an expression line: Value and Operator tokens followed by
one end-of-line token. -/
def IsExpressionLine (toks : List Token) : Prop :=
  ∃ body, toks = body ++ [Token.ofType .EOLN] ∧
    ∀ t ∈ body, t.type = .VALUE ∨ t.type = .OPERATOR

/-- The number of Value tokens. -/
def countValues (toks : List Token) : Nat :=
  toks.countP (fun t => t.type == .VALUE)

/-- The number of Operator tokens that carry one of `+ - * /`. -/
def countBinary (toks : List Token) : Nat :=
  toks.countP (fun t => t.type == .OPERATOR && isBinary t.op)

/-- The number of Operator tokens that carry the character `c`. -/
def countOperator (c : Char) (toks : List Token) : Nat :=
  toks.countP (fun t => t.equalsOperator c)

/-- The scan position after the white space that follows the scan position
of the reader. -/
def skipped (tr : TokenReader) : Nat :=
  tr.pos + (runAt isspace tr.inputLine tr.length tr.pos).length

/-- The maximal run of decimal digits that starts at index `i` of a
buffer. -/
def digitsAt (inputLine : List Char) (i : Nat) : List Char :=
  (inputLine.drop i).takeWhile isdigit

/-- The six operator characters. -/
def isOperatorChar (c : Char) : Bool :=
  c == '+' || c == '-' || c == '*' || c == '/' || c == '(' || c == ')'

/-- The operators `+` and `-`. -/
def isAdditive (c : Char) : Bool := c == '+' || c == '-'

/-- The operators `*` and `/`. -/
def isMultiplicative (c : Char) : Bool := c == '*' || c == '/'

/-- An arithmetic expression as it is written on a line: a literal (its
digits), an expression in parentheses, or two expressions joined by a binary
operator. -/
inductive Expression where
  | lit (digits : List Char)
  | paren (e : Expression)
  | bin (op : Char) (l r : Expression)
  deriving DecidableEq, Repr

namespace Expression

/-- A factor: a literal or an expression in parentheses. -/
def isFactor : Expression → Bool
  | .bin _ _ _ => false
  | _ => true

/-- A term: a factor, a product or a quotient. -/
def isTerm : Expression → Bool
  | .bin op _ _ => isMultiplicative op
  | _ => true

/-- The grammar of the expressions, which fixes how a line is read under the
standard precedence with left-to-right grouping:
`expr ::= term | expr (+|-) term`, `term ::= factor | term (*|/) factor`,
`factor ::= literal | ( expr )`, a literal being a non-empty run of decimal
digits. -/
def WellFormed : Expression → Bool
  | .lit digits => !digits.isEmpty && digits.all isdigit
  | .paren e => e.WellFormed
  | .bin op l r =>
    l.WellFormed && r.WellFormed &&
      ((isAdditive op && r.isTerm) || (isMultiplicative op && l.isTerm && r.isFactor))

/-- The value of an expression in `int` arithmetic, with the division that
truncates toward zero; `none` when a divisor is zero or a quotient is not an
`int` (`INT_MIN / -1`). -/
def value : Expression → Option Int
  | .lit digits => some (wrapInt (decimal digits))
  | .paren e => e.value
  | .bin op l r =>
    match l.value, r.value with
    | some a, some b =>
      if op = '/' ∧ (b = 0 ∨ (a = INT_MIN ∧ b = -1)) then none else some (applyOp op a b)
    | _, _ => none

/-- The expression written on a line, with single spaces between the
tokens. -/
def render : Expression → List Char
  | .lit digits => digits
  | .paren e => '(' :: ' ' :: (e.render ++ [' ', ')'])
  | .bin op l r => l.render ++ ' ' :: op :: ' ' :: r.render

/-- The tokens of the expression, in the order of the line. -/
def tokens : Expression → List Token
  | .lit digits => [Token.ofValue (wrapInt (decimal digits))]
  | .paren e => Token.ofOp '(' :: (e.tokens ++ [Token.ofOp ')'])
  | .bin op l r => l.tokens ++ Token.ofOp op :: r.tokens

/-- The operators that the evaluator may leave on the operator stack, above
those it found there, when it has handled the tokens of the expression. -/
def pendable (e : Expression) (c : Char) : Bool :=
  match e with
  | .bin op _ _ => if isAdditive op then isBinary c else isMultiplicative c
  | _ => false

end Expression

/-- The `LOG` lines of a sequence of tokens. -/
def logsOf (debugMode : Bool) : List Token → List Msg
  | [] => []
  | t :: ts => logOf debugMode t ++ logsOf debugMode ts

/-- The main loop of `processExpression` on stacks written as lists, over
tokens other than end-of-line. -/
def lSteps : List Token → List Int → List Char → LFlow
  | [], vs, os => .go vs os
  | t :: ts, vs, os =>
    match lToken t vs os with
    | .stop out e => .stop out e
    | .go vs' os' => lSteps ts vs' os'

/-- The reader that holds the line `line` and stands at index `i` of it. -/
def TokenReader.standing (line : List Char) (i : Nat) : TokenReader :=
  { inputLine := line, needLine := false, pos := i, length := line.length }

/-- The expression `1 + 1 + ... + 1` with `n` operators. -/
def onesSum : Nat → Expression
  | 0 => .lit ['1']
  | n + 1 => .bin '+' (onesSum n) (.lit ['1'])

/-- The expression `( 0 - 2147483647 - 1 ) / ( 0 - 1 )`, whose dividend is
`INT_MIN` and whose divisor is `-1`. -/
def minOverMinusOne : Expression :=
  .bin '/'
    (.paren (.bin '-' (.bin '-' (.lit ['0']) (.lit "2147483647".toList)) (.lit ['1'])))
    (.paren (.bin '-' (.lit ['0']) (.lit ['1'])))

/-- The expression `( 3 + 4 ) * 2 - 10 / 3`. -/
def sampleExpression : Expression :=
  .bin '-'
    (.bin '*' (.paren (.bin '+' (.lit ['3']) (.lit ['4']))) (.lit ['2']))
    (.bin '/' (.lit ['1', '0']) (.lit ['3']))

/-- The reader holds a line: no line has to be read, and `length` is the
length of the C string in the buffer. -/
def TokenReader.Loaded (tr : TokenReader) : Prop :=
  tr.needLine = false ∧ tr.length = strlen tr.inputLine

end Calc

/-! ## Machine integers: lemmas -/

namespace Calc

theorem wrapInt_modEq (x : Int) : wrapInt x ≡ x [ZMOD 2 ^ 32] := by
  unfold wrapInt Int.ModEq
  omega

theorem wrapInt_congr {x y : Int} (h : x ≡ y [ZMOD 2 ^ 32]) : wrapInt x = wrapInt y := by
  unfold wrapInt Int.ModEq at *
  omega

theorem wrapInt_of_range {x : Int} (h1 : -2 ^ 31 ≤ x) (h2 : x < 2 ^ 31) : wrapInt x = x := by
  unfold wrapInt
  omega

theorem wrapInt_range (x : Int) : -2 ^ 31 ≤ wrapInt x ∧ wrapInt x < 2 ^ 31 := by
  unfold wrapInt
  omega

theorem wrapSize_of_lt {n : Nat} (h : n < 2 ^ 64) : wrapSize n = n := by
  unfold wrapSize
  omega

theorem wrapSize_eq (n : Nat) : wrapSize n = n % 2 ^ 64 := by
  unfold wrapSize
  exact Eq.refl _

theorem SIZE_MAX_eq : SIZE_MAX = 18446744073709551615 := by
  unfold SIZE_MAX
  norm_num

end Calc

namespace Calc

/-! ## `vector.h`: lemmas -/

theorem Vector.size_eq {T : Type} (v : Vector T) : v.size = v.inUse := rfl

theorem Vector.capacity_eq {T : Type} (v : Vector T) : v.capacity = v.allocated := rfl

theorem Vector.pop_back_arr {T : Type} (v : Vector T) : v.pop_back.arr = v.arr.dropLast := rfl

theorem Vector.pop_back_inUse {T : Type} (v : Vector T) :
    v.pop_back.inUse = if v.inUse = 0 then SIZE_MAX else v.inUse - 1 := rfl

theorem Vector.pop_back_allocated {T : Type} (v : Vector T) :
    v.pop_back.allocated = v.allocated := rfl

theorem wrapSize_lt (n : Nat) : wrapSize n < 2 ^ 64 := by
  unfold wrapSize
  omega

theorem wrapSize_le (n : Nat) : wrapSize n ≤ n := by
  unfold wrapSize
  omega

theorem Vector.grown_of_ne {T : Type} (v : Vector T) (h : v.inUse ≠ v.allocated) :
    v.grown = v.allocated := by
  unfold Vector.grown
  rw [if_neg h]

theorem Vector.grown_of_eq {T : Type} (v : Vector T) (h : v.inUse = v.allocated) :
    v.grown = wrapSize (v.allocated + v.allocated) := by
  unfold Vector.grown
  rw [if_pos h]

theorem Vector.push_back_of_lt {T : Type} (v : Vector T) (x : T) (h : v.inUse < v.grown) :
    v.push_back x =
      .ok { arr := v.arr ++ [x], inUse := wrapSize (v.inUse + 1), allocated := v.grown } := by
  unfold Vector.push_back
  rw [if_pos h]

theorem Vector.push_back_of_not_lt {T : Type} (v : Vector T) (x : T)
    (h : ¬ v.inUse < v.grown) : v.push_back x = .undefined := by
  unfold Vector.push_back
  rw [if_neg h]

theorem Vector.grown_lt {T : Type} (v : Vector T) (h : v.allocated < 2 ^ 64) :
    v.grown < 2 ^ 64 := by
  unfold Vector.grown
  split
  · exact wrapSize_lt _
  · exact h

theorem Vector.holds_newDefault {T : Type} : (Vector.newDefault : Vector T).Holds [] := by
  refine ⟨rfl, rfl, ?_⟩
  simp

/-- A `push_back` that finds a slot below the number of slots after the
growth step appends the value. -/
theorem Vector.Holds.push_back_ok {T : Type} {v : Vector T} {l : List T} (h : v.Holds l)
    (x : T) (hlt : l.length < v.grown) (hl : l.length + 1 < 2 ^ 64) :
    ∃ w, v.push_back x = .ok w ∧ w.Holds (l ++ [x]) ∧ w.inUse ≤ w.allocated ∧
      0 < w.allocated ∧ w.allocated = v.grown := by
  obtain ⟨h1, h2, _⟩ := h
  have hw : wrapSize (v.inUse + 1) = l.length + 1 := by
    rw [h2]
    exact wrapSize_of_lt hl
  refine ⟨_, Vector.push_back_of_lt v x (by rw [h2]; exact hlt), ⟨?_, ?_, ?_⟩, ?_, ?_, rfl⟩
  · rw [h1]
  · rw [List.length_append, List.length_singleton]
    exact hw
  · rw [List.length_append, List.length_singleton]
    exact hl
  · dsimp only
    rw [hw]
    omega
  · dsimp only
    omega

/-- A `push_back` on a vector whose elements are counted either has no
defined behaviour, the buffer having no slot above the elements, or appends
the value and leaves the elements within the buffer. -/
theorem Vector.Holds.push_back_cases {T : Type} {v : Vector T} {l : List T} (h : v.Holds l)
    (x : T) (hl : l.length + 1 < 2 ^ 64) :
    (v.push_back x = .undefined ∧ v.allocated ≤ l.length) ∨
    ∃ w, v.push_back x = .ok w ∧ w.Holds (l ++ [x]) ∧ w.inUse ≤ w.allocated ∧
      (v.Fits → w.Fits) := by
  by_cases hlt : l.length < v.grown
  · obtain ⟨w, hw, hh, hr, hp, ha⟩ := h.push_back_ok x hlt hl
    refine Or.inr ⟨w, hw, hh, hr, fun hf => ⟨hr, hp, ?_⟩⟩
    rw [ha]
    exact v.grown_lt hf.2.2
  · refine Or.inl ⟨Vector.push_back_of_not_lt v x (by rw [h.2.1]; exact hlt), ?_⟩
    by_contra hc
    have hne : v.inUse ≠ v.allocated := by rw [h.2.1]; omega
    rw [v.grown_of_ne hne] at hlt
    omega

/-- A `push_back` on a vector whose elements are within its buffer appends
the value; it has no defined behaviour only on a full buffer of `2 ^ 63`
slots or more, whose doubling is no `size_t`. -/
theorem Vector.Holds.push_back_fits {T : Type} {v : Vector T} {l : List T} (h : v.Holds l)
    (hf : v.Fits) (x : T) :
    (v.push_back x = .undefined ∧ 2 ^ 63 ≤ l.length) ∨
    ∃ w, v.push_back x = .ok w ∧ w.Holds (l ++ [x]) ∧ w.Fits := by
  obtain ⟨hf1, hf2, hf3⟩ := hf
  have h2 := h.2.1
  by_cases hfull : v.inUse = v.allocated
  · by_cases hbig : 2 ^ 63 ≤ l.length
    · refine Or.inl ⟨Vector.push_back_of_not_lt v x ?_, hbig⟩
      rw [v.grown_of_eq hfull, ← hfull, h2]
      unfold wrapSize
      omega
    · have hg : v.grown = l.length + l.length := by
        rw [v.grown_of_eq hfull, ← hfull, h2]
        exact wrapSize_of_lt (by omega)
      obtain ⟨w, hw, hh, hr, hp, ha⟩ := h.push_back_ok x (by rw [hg]; omega) (by omega)
      exact Or.inr ⟨w, hw, hh, hr, hp, by rw [ha, hg]; omega⟩
  · have hg := v.grown_of_ne hfull
    obtain ⟨w, hw, hh, hr, hp, ha⟩ := h.push_back_ok x (by rw [hg]; omega) (by omega)
    exact Or.inr ⟨w, hw, hh, hr, hp, by rw [ha, hg]; exact hf3⟩

theorem Vector.fits_newDefault {T : Type} : (Vector.newDefault : Vector T).Fits := by
  refine ⟨Nat.zero_le _, ?_, ?_⟩
  · exact Nat.succ_pos 1
  · have h : (Vector.newDefault : Vector T).allocated = 2 := rfl
    rw [h]
    norm_num

theorem Vector.Fits.after_pop {T : Type} {v : Vector T} (hf : v.Fits) (h : v.inUse ≠ 0) :
    v.pop_back.Fits := by
  obtain ⟨hf1, hf2, hf3⟩ := hf
  refine ⟨?_, hf2, hf3⟩
  rw [Vector.pop_back_inUse, if_neg h, Vector.pop_back_allocated]
  omega

theorem Vector.Holds.back {T : Type} {v : Vector T} {l : List T} {x : T}
    (h : v.Holds (l ++ [x])) : v.back = .ok x := by
  obtain ⟨h1, h2, _⟩ := h
  rw [List.length_append, List.length_singleton] at h2
  have h3 : v.inUse ≠ 0 := by omega
  unfold Vector.back Vector.index
  rw [if_pos h3, h1, h2]
  simp

theorem Vector.Holds.back_nil {T : Type} {v : Vector T} (h : v.Holds []) :
    v.back = .throw .IllegalOperationOnCurrentState := by
  obtain ⟨_, h2, _⟩ := h
  unfold Vector.back
  rw [if_neg]
  rw [h2]
  simp

theorem Vector.Holds.pop_back {T : Type} {v : Vector T} {l : List T} {x : T}
    (h : v.Holds (l ++ [x])) : v.pop_back.Holds l := by
  obtain ⟨h1, h2, h3⟩ := h
  rw [List.length_append, List.length_singleton] at h2 h3
  refine ⟨?_, ?_, by omega⟩
  · rw [Vector.pop_back_arr, h1, List.dropLast_concat]
  · rw [Vector.pop_back_inUse, if_neg (by omega), h2]
    omega

theorem Vector.Holds.empty {T : Type} {v : Vector T} {l : List T} (h : v.Holds l) :
    v.empty = l.isEmpty := by
  obtain ⟨_, h2, _⟩ := h
  unfold Vector.empty
  rw [h2]
  cases l with
  | nil => rfl
  | cons a l => rfl

/-- C12 (amended): `pop_back` removes the tail element of a non-empty vector
and returns nothing: the elements before the tail stay, `size()` drops by
one, `capacity()` is unchanged, and the tail is what `back()` read before
the call. -/
theorem pop_back_removes_tail {T : Type} (v : Vector T) (l : List T) (x : T)
    (h : v.Holds (l ++ [x])) :
    v.back = .ok x ∧ v.pop_back.Holds l ∧ v.size = l.length + 1 ∧
      v.pop_back.size = l.length ∧ v.pop_back.capacity = v.capacity := by
  refine ⟨h.back, h.pop_back, ?_, ?_, ?_⟩
  · rw [Vector.size_eq, h.2.1, List.length_append, List.length_singleton]
  · rw [Vector.size_eq, h.pop_back.2.1]
  · rw [Vector.capacity_eq, Vector.capacity_eq, Vector.pop_back_allocated]

/-- C12 (witness): popping the vector that holds 4 and 9. -/
theorem pop_back_removes_tail_witness :
    (⟨[4, 9], 2, 2⟩ : Vector Int).back = .ok 9 ∧
      (⟨[4, 9], 2, 2⟩ : Vector Int).pop_back.Holds [4] ∧
      (⟨[4, 9], 2, 2⟩ : Vector Int).size = 2 ∧
      (⟨[4, 9], 2, 2⟩ : Vector Int).pop_back.size = 1 ∧
      (⟨[4, 9], 2, 2⟩ : Vector Int).pop_back.capacity = (⟨[4, 9], 2, 2⟩ : Vector Int).capacity :=
  pop_back_removes_tail ⟨[4, 9], 2, 2⟩ [4] 9 ⟨rfl, rfl, by norm_num⟩

/-- Pushing the values of a list onto a vector whose elements are within its
buffer, up to `2 ^ 63` elements in all, appends them. -/
theorem pushAll_holds {T : Type} (xs : List T) :
    ∀ (v : Vector T) (l : List T), v.Holds l → v.Fits → l.length + xs.length ≤ 2 ^ 63 →
      ∃ w, pushAll v xs = .ok w ∧ w.Holds (l ++ xs) ∧ w.Fits := by
  induction xs with
  | nil =>
    intro v l h hf _
    refine ⟨v, rfl, ?_, hf⟩
    rw [List.append_nil]
    exact h
  | cons x xs ih =>
    intro v l h hf hlen
    simp only [List.length_cons] at hlen
    rcases h.push_back_fits hf x with ⟨_, hbig⟩ | ⟨w, hw, hh, hwf⟩
    · omega
    · obtain ⟨w2, hw2, hh2, hf2⟩ := ih w (l ++ [x]) hh hwf (by
        rw [List.length_append, List.length_singleton]; omega)
      refine ⟨w2, ?_, ?_, hf2⟩
      · simp only [pushAll]
        rw [hw]
        exact hw2
      · rw [List.append_assoc] at hh2
        exact hh2

theorem popN_inUse {T : Type} (n : Nat) :
    ∀ v : Vector T,
      (popN v n).inUse % 2 ^ 64 = (v.inUse + n * 18446744073709551615) % 2 ^ 64 := by
  induction n with
  | zero => intro v; simp only [popN, Nat.zero_mul, Nat.add_zero]
  | succ n ih =>
    intro v
    simp only [popN]
    rw [ih v.pop_back]
    rw [Vector.pop_back_inUse, SIZE_MAX_eq]
    split <;> omega

theorem popN_inUse_lt {T : Type} (n : Nat) :
    ∀ v : Vector T, v.inUse < 2 ^ 64 → (popN v n).inUse < 2 ^ 64 := by
  induction n with
  | zero => intro v h; simpa only [popN] using h
  | succ n ih =>
    intro v _
    simp only [popN]
    apply ih
    rw [Vector.pop_back_inUse, SIZE_MAX_eq]
    split <;> omega

theorem popN_arr {T : Type} (n : Nat) :
    ∀ v : Vector T, (popN v n).arr = v.arr.take (v.arr.length - n) := by
  induction n with
  | zero => intro v; simp [popN]
  | succ n ih =>
    intro v
    simp only [popN]
    rw [ih v.pop_back]
    simp only [Vector.pop_back, List.dropLast_eq_take, List.length_take, List.take_take]
    congr 1
    omega

theorem popN_allocated {T : Type} (n : Nat) :
    ∀ v : Vector T, (popN v n).allocated = v.allocated := by
  induction n with
  | zero => intro v; simp only [popN]
  | succ n ih =>
    intro v
    simp only [popN]
    rw [ih v.pop_back]
    simp only [Vector.pop_back]

/-- C11 (amended): pushing the values of any list of at most `2 ^ 63` values
onto a default-constructed vector succeeds, and popping as many times then
restores `size() = 0`, `empty()` and an empty list of elements; `capacity()`
is left by `pop_back` at the value the pushes gave it, which is the capacity
`2` of a new vector when at most two values were pushed. -/
theorem push_then_pop_restores_size {T : Type} (xs : List T) (hlen : xs.length ≤ 2 ^ 63) :
    ∃ v, pushAll (Vector.newDefault : Vector T) xs = .ok v ∧
      (popN v xs.length).size = 0 ∧
      (popN v xs.length).empty = true ∧
      (popN v xs.length).arr = [] ∧
      (popN v xs.length).capacity = v.capacity ∧
      (xs.length ≤ 2 → (popN v xs.length).capacity = (Vector.newDefault : Vector T).capacity) := by
  obtain ⟨v, hv, hh, _⟩ := pushAll_holds xs (Vector.newDefault : Vector T) []
    Vector.holds_newDefault Vector.fits_newDefault (by
      rw [List.length_nil, Nat.zero_add]; exact hlen)
  rw [List.nil_append] at hh
  obtain ⟨harr, huse, hlt⟩ := hh
  have hsize : (popN v xs.length).inUse = 0 := by
    have h2 := popN_inUse xs.length v
    have h3 := popN_inUse_lt xs.length v (by rw [huse]; exact hlt)
    rw [huse] at h2
    omega
  refine ⟨v, hv, hsize, ?_, ?_, ?_, ?_⟩
  · simp only [Vector.empty, hsize, beq_self_eq_true]
  · rw [popN_arr, harr]
    simp
  · simp only [Vector.capacity, popN_allocated]
  · intro h2
    simp only [Vector.capacity, popN_allocated]
    have h1 : wrapSize 1 = 1 := wrapSize_of_lt (by norm_num)
    match xs, h2, hv with
    | [], _, hv =>
      simp only [pushAll, Res.ok.injEq] at hv
      rw [← hv]
    | [a], _, hv =>
      simp [pushAll, Vector.push_back, Vector.grown, Vector.newDefault, Vector.new,
        Vector.init, Vector.DEFAULT_CAPACITY] at hv
      rw [← hv]
      rfl
    | [a, b], _, hv =>
      simp [pushAll, Vector.push_back, Vector.grown, Vector.newDefault, Vector.new,
        Vector.init, Vector.DEFAULT_CAPACITY, h1] at hv
      rw [← hv]
      rfl
    | _ :: _ :: _ :: _, h, _ => simp at h

/-- C11 (witness): two values pushed and popped leave the capacity of a new
vector. -/
theorem push_then_pop_restores_size_witness :
    ∃ v, pushAll (Vector.newDefault : Vector Int) [5, 6] = .ok v ∧
      (popN v 2).capacity = (Vector.newDefault : Vector Int).capacity :=
  (push_then_pop_restores_size [5, 6] (by norm_num)).imp
    (fun _ h => ⟨h.1, h.2.2.2.2.2 (by decide)⟩)

/-- C11 (counterexample): after three values are pushed and popped the
capacity is 4, not the capacity 2 of a new vector. -/
theorem push_then_pop_capacity_differs :
    pushAll (Vector.newDefault : Vector Int) [1, 2, 3] = .ok ⟨[1, 2, 3], 3, 4⟩ ∧
    (popN (⟨[1, 2, 3], 3, 4⟩ : Vector Int) 3).size = 0 ∧
    (popN (⟨[1, 2, 3], 3, 4⟩ : Vector Int) 3).capacity = 4 ∧
    (Vector.newDefault : Vector Int).capacity = 2 := by
  with_unfolding_all decide

/-- C12 (counterexample): on the empty default-constructed vector `pop_back`
raises no error and does not leave the vector unchanged: `size()` becomes
`2 ^ 64 - 1`. -/
theorem pop_back_of_empty_wraps :
    (Vector.newDefault : Vector Int).size = 0 ∧
    (Vector.newDefault : Vector Int).pop_back.size = 18446744073709551615 ∧
    (Vector.newDefault : Vector Int).pop_back ≠ Vector.newDefault := by
  with_unfolding_all decide

/-- C13 (the code at the failing input): a vector constructed with capacity 0
satisfies `size() <= capacity()`, and a `push_back` or an `emplace_back` on it
has no defined behaviour: the doubling of no slot leaves no slot and the
value is constructed outside the buffer. Nor does `pop_back` preserve the
invariant from a default-constructed vector: it leaves `size()` above
`capacity()`. -/
theorem push_back_on_zero_capacity :
    (Vector.new 0 : Vector Int).size ≤ (Vector.new 0 : Vector Int).capacity ∧
    (Vector.new 0 : Vector Int).push_back 7 = .undefined ∧
    (Vector.new 0 : Vector Int).emplace_back 7 = .undefined ∧
    (Vector.newDefault : Vector Int).size ≤ (Vector.newDefault : Vector Int).capacity ∧
    ¬ ((Vector.newDefault : Vector Int).pop_back.size ≤
        (Vector.newDefault : Vector Int).pop_back.capacity) := by
  with_unfolding_all decide

/-- C14 (the code, and the failing input): a default-constructed vector has
capacity 2, and `push_back(x)` on a vector whose `inUse` elements are
constructed within a buffer of at least one slot makes the size one larger,
makes `back()` return `x`, leaves the elements at the indices below the old
size unchanged, and doubles the capacity exactly when the old size equals the
old capacity. On a vector constructed with capacity 0 `push_back` has no
defined behaviour. -/
theorem push_back_appends_and_doubles {T : Type} (v : Vector T) (x : T)
    (h : v.inUse = v.arr.length) (hcap : v.size ≤ v.capacity) (hpos : 0 < v.capacity)
    (h2 : v.allocated + v.allocated < 2 ^ 64) :
    (Vector.newDefault : Vector T).capacity = 2 ∧
    (∃ w, v.push_back x = .ok w ∧
      w.size = v.size + 1 ∧
      w.back = .ok x ∧
      (∀ i, i < v.size → w.index i = v.index i) ∧
      w.capacity = (if v.size = v.capacity then 2 * v.capacity else v.capacity)) ∧
    (Vector.new 0 : Vector T).push_back x = .undefined := by
  rw [Vector.size_eq, Vector.capacity_eq] at hcap
  rw [Vector.capacity_eq] at hpos
  have hh : v.Holds v.arr := ⟨rfl, h, by rw [← h]; omega⟩
  have hf : v.Fits := ⟨hcap, hpos, by omega⟩
  refine ⟨rfl, ?_, ?_⟩
  · rcases hh.push_back_fits hf x with ⟨_, hbig⟩ | ⟨w, hw, hwh, _⟩
    · rw [← h] at hbig
      omega
    · have hw2 := hw
      unfold Vector.push_back at hw2
      split at hw2
      · simp only [Res.ok.injEq] at hw2
        refine ⟨w, hw, ?_, hwh.back, ?_, ?_⟩
        · rw [Vector.size_eq, Vector.size_eq, hwh.2.1, List.length_append,
            List.length_singleton, h]
        · intro i hi
          rw [Vector.size_eq] at hi
          unfold Vector.index
          rw [hwh.1, List.getElem?_append_left (by omega)]
        · rw [Vector.capacity_eq, Vector.capacity_eq, Vector.size_eq, ← hw2]
          dsimp only
          unfold Vector.grown
          split
          · rw [wrapSize_of_lt h2]; omega
          · rfl
      · exact Res.noConfusion hw2
  · apply Vector.push_back_of_not_lt
    have h0 : (Vector.new 0 : Vector T).inUse = (Vector.new 0 : Vector T).allocated := rfl
    rw [Vector.grown_of_eq _ h0]
    have h1 : (Vector.new 0 : Vector T).allocated = 0 := rfl
    have h3 : (Vector.new 0 : Vector T).inUse = 0 := rfl
    rw [h1, h3]
    unfold wrapSize
    omega

/-- C14 (witness): pushing 3 onto the full vector that holds 1 and 2. -/
theorem push_back_appends_and_doubles_witness :
    ∃ w, (⟨[1, 2], 2, 2⟩ : Vector Int).push_back 3 = .ok w ∧ w.size = 3 ∧
      w.back = .ok 3 ∧ w.capacity = 4 :=
  (push_back_appends_and_doubles (⟨[1, 2], 2, 2⟩ : Vector Int) 3 rfl (by decide) (by decide)
    (by norm_num)).2.1.imp (fun _ hw => ⟨hw.1, hw.2.1, hw.2.2.1, hw.2.2.2.2⟩)

theorem Vector.index_ne_throw {T : Type} (v : Vector T) (i : Nat) (e : Exn) :
    v.index i ≠ .throw e := by
  unfold Vector.index
  split <;> simp

theorem Vector.index_of_lt {T : Type} (v : Vector T) (i : Nat) (h : i < v.arr.length) :
    v.index i = .ok (v.arr.get ⟨i, h⟩) := by
  unfold Vector.index
  rw [List.getElem?_eq_getElem h]
  rfl

/-- C15: `back()` and `front()` throw the empty-container exception exactly
when `size()` is zero and otherwise read the elements at the indices
`size() - 1` and `0`; `at(i)` throws the out-of-range exception exactly when
`i >= size()` and otherwise reads the element at index `i`; the read of an
index below the number of constructed elements returns that element. The
three accessors return only a result: the vector is not changed. -/
theorem checked_accessors {T : Type} (v : Vector T) (i : Nat) :
    (v.back = .throw .IllegalOperationOnCurrentState ↔ v.size = 0) ∧
    (v.size ≠ 0 → v.back = v.index (v.size - 1)) ∧
    (v.front = .throw .IllegalOperationOnCurrentState ↔ v.size = 0) ∧
    (v.size ≠ 0 → v.front = v.index 0) ∧
    (v.at_ i = .throw .out_of_range ↔ v.size ≤ i) ∧
    (i < v.size → v.at_ i = v.index i) ∧
    (∀ h : i < v.arr.length, v.index i = .ok (v.arr.get ⟨i, h⟩)) := by
  rw [Vector.size_eq]
  refine ⟨?_, ?_, ?_, ?_, ?_, ?_, fun h => Vector.index_of_lt v i h⟩
  · unfold Vector.back
    constructor
    · intro h
      by_contra h0
      rw [if_pos h0] at h
      exact Vector.index_ne_throw _ _ _ h
    · intro h
      rw [if_neg (fun h0 => h0 h)]
  · intro h
    unfold Vector.back
    rw [if_pos h]
  · unfold Vector.front
    constructor
    · intro h
      by_contra h0
      rw [if_pos h0] at h
      exact Vector.index_ne_throw _ _ _ h
    · intro h
      rw [if_neg (fun h0 => h0 h)]
  · intro h
    unfold Vector.front
    rw [if_pos h]
  · unfold Vector.at_
    constructor
    · intro h
      by_contra h0
      rw [if_pos (by omega)] at h
      exact Vector.index_ne_throw _ _ _ h
    · intro h
      rw [if_neg (by omega)]
  · intro h
    unfold Vector.at_
    rw [if_pos h]

/-- C15 (witness): the accessors on the vector that holds 4, 9 and 2. -/
theorem checked_accessors_witness :
    (⟨[4, 9, 2], 3, 4⟩ : Vector Int).back = .ok 2 ∧
    (⟨[4, 9, 2], 3, 4⟩ : Vector Int).front = .ok 4 ∧
    (⟨[4, 9, 2], 3, 4⟩ : Vector Int).at_ 1 = .ok 9 ∧
    (⟨[4, 9, 2], 3, 4⟩ : Vector Int).at_ 3 = .throw .out_of_range ∧
    (Vector.newDefault : Vector Int).back = .throw .IllegalOperationOnCurrentState :=
  have h := checked_accessors (⟨[4, 9, 2], 3, 4⟩ : Vector Int) 1
  have h3 := checked_accessors (⟨[4, 9, 2], 3, 4⟩ : Vector Int) 3
  have h0 := checked_accessors (Vector.newDefault : Vector Int) 0
  ⟨h.2.1 (by decide), h.2.2.2.1 (by decide), h.2.2.2.2.2.1 (by decide),
    h3.2.2.2.2.1.mpr (by decide), h0.1.mpr rfl⟩

/-- C16: a move construction or a move assignment between two vectors gives
the destination the elements, the size and the capacity of the source, and
leaves the source equal to a newly default-constructed vector: size 0,
capacity 2, `back()` throws, and `push_back`, `back` and `pop_back` on it give
what they give on a new vector. -/
theorem move_transfers_and_resets {T : Type} (s d : Vector T) (x : T) :
    (Vector.moveConstruct s).1 = s ∧
    (Vector.moveAssign d s).1 = s ∧
    (Vector.moveConstruct s).2 = Vector.newDefault ∧
    (Vector.moveAssign d s).2 = Vector.newDefault ∧
    (Vector.moveConstruct s).2.size = 0 ∧
    (Vector.moveConstruct s).2.capacity = 2 ∧
    (Vector.moveConstruct s).2.back = .throw .IllegalOperationOnCurrentState ∧
    ∃ w, (Vector.moveConstruct s).2.push_back x = .ok w ∧
      w.Holds [x] ∧ w.back = .ok x ∧ w.capacity = 2 ∧ w.pop_back.Holds [] := by
  have hsrc : (Vector.moveConstruct s).2 = Vector.newDefault := rfl
  have hg : (Vector.newDefault : Vector T).grown = 2 := rfl
  obtain ⟨w, hw, hh, _, _, ha⟩ := (Vector.holds_newDefault (T := T)).push_back_ok x
    (by rw [hg]; exact Nat.succ_pos 1) (by norm_num)
  refine ⟨rfl, rfl, rfl, rfl, rfl, rfl, ?_, w, ?_, hh, hh.back, ?_, hh.pop_back⟩
  · rw [hsrc]; exact Vector.holds_newDefault.back_nil
  · rw [hsrc]; exact hw
  · rw [Vector.capacity_eq, ha, hg]

/-! ## Pop-and-fold: lemmas -/

theorem isBinary_iff (c : Char) : isBinary c = true ↔ c = '+' ∨ c = '-' ∨ c = '*' ∨ c = '/' := by
  unfold isBinary
  simp only [Bool.or_eq_true, beq_iff_eq, or_assoc]

theorem eval_binary (op : Char) (l r : Int) (hop : isBinary op = true)
    (hdiv : op = '/' → r ≠ 0 ∧ ¬ (l = INT_MIN ∧ r = -1)) :
    eval r l op = .ok (applyOp op l r) := by
  rw [isBinary_iff] at hop
  unfold eval applyOp
  rcases hop with h | h | h | h
  · subst h; rfl
  · subst h; rfl
  · subst h; rfl
  · have hr := hdiv h
    subst h
    rw [if_neg (by decide), if_neg (by decide), if_neg (by decide), if_pos rfl,
      if_neg (fun hc => hc.elim hr.1 hr.2),
      if_neg (by decide), if_neg (by decide), if_neg (by decide)]

theorem eval_not_binary (op : Char) (l r : Int) (hop : isBinary op = false) :
    eval r l op = .throw .invalid_argument := by
  have h : ¬ (op = '+' ∨ op = '-' ∨ op = '*' ∨ op = '/') := by
    rw [← isBinary_iff, hop]; simp
  unfold eval
  rw [if_neg (fun e => h (Or.inl e)), if_neg (fun e => h (Or.inr (Or.inl e))),
    if_neg (fun e => h (Or.inr (Or.inr (Or.inl e)))),
    if_neg (fun e => h (Or.inr (Or.inr (Or.inr e))))]

theorem eval_div_zero (l : Int) : eval 0 l '/' = .undefined := by
  unfold eval
  rw [if_neg (by decide), if_neg (by decide), if_neg (by decide), if_pos rfl,
    if_pos (Or.inl rfl)]

theorem eval_div_overflow : eval (-1) INT_MIN '/' = .undefined := by
  unfold eval
  rw [if_neg (by decide), if_neg (by decide), if_neg (by decide), if_pos rfl,
    if_pos (Or.inr ⟨rfl, rfl⟩)]

/-- The call of `popAndEval` on stacks that hold two values and an operator,
in terms of the results of `eval` and of the `push_back` of its value. -/
theorem popAndEval_of_holds (vs : int_vector) (os : char_vector) (base : List Int)
    (l r : Int) (obase : List Char) (op : Char)
    (hv : vs.Holds (base ++ [l] ++ [r])) (ho : os.Holds (obase ++ [op])) :
    popAndEval vs os =
      match eval r l op with
      | .throw e => .throw e
      | .undefined => .undefined
      | .ok v =>
        match vs.pop_back.pop_back.push_back v with
        | .throw e => .throw e
        | .undefined => .undefined
        | .ok w => .ok (w, os.pop_back) := by
  unfold popAndEval
  rw [hv.back]
  simp only []
  rw [hv.pop_back.back]
  simp only []
  rw [ho.back]
  try exact Eq.refl _

/-- C17 (amended): on a value stack within its capacity that ends with `l`,
`r` and an operator stack that ends with a binary operator `op` (when `op` is
`/`: with `r` not zero and the quotient an `int`, that is not `INT_MIN / -1`),
`popAndEval` removes the top of the operator stack and replaces `l`, `r` by
`l op r` (`r`, popped first, is the right-hand operand; the quotient
truncates toward zero); the elements below and the capacity are unchanged. -/
theorem popAndEval_folds (vs : int_vector) (os : char_vector) (base : List Int)
    (l r : Int) (obase : List Char) (op : Char)
    (hv : vs.Holds (base ++ [l, r])) (ho : os.Holds (obase ++ [op]))
    (hroom : vs.size ≤ vs.capacity)
    (hop : op = '+' ∨ op = '-' ∨ op = '*' ∨ op = '/')
    (hdiv : op = '/' → r ≠ 0 ∧ ¬ (l = INT_MIN ∧ r = -1)) :
    ∃ w, popAndEval vs os = .ok (w, os.pop_back) ∧
      w.Holds (base ++ [applyOp op l r]) ∧ w.capacity = vs.capacity ∧
      os.pop_back.Holds obase ∧
      applyOp '+' l r = wrapInt (l + r) ∧ applyOp '-' l r = wrapInt (l - r) ∧
      applyOp '*' l r = wrapInt (l * r) ∧ applyOp '/' l r = wrapInt (Int.tdiv l r) := by
  rw [Vector.size_eq, Vector.capacity_eq] at hroom
  have hv2 : vs.Holds (base ++ [l] ++ [r]) := by
    rw [List.append_assoc]; exact hv
  have hlen : base.length + 2 < 2 ^ 64 := by
    have := hv.2.2
    rw [List.length_append] at this
    simp only [List.length_cons, List.length_nil] at this
    omega
  have huse : vs.inUse = base.length + 2 := by
    have := hv.2.1
    rw [List.length_append] at this
    simp only [List.length_cons, List.length_nil] at this
    exact this
  have hbase := hv2.pop_back.pop_back
  have ha : vs.pop_back.pop_back.allocated = vs.allocated := rfl
  have hg : vs.pop_back.pop_back.grown = vs.allocated := by
    rw [Vector.grown_of_ne _ (by rw [hbase.2.1, ha]; omega), ha]
  obtain ⟨w, hw, hh, _, _, hwa⟩ := hbase.push_back_ok (applyOp op l r)
    (by rw [hg]; omega) (by omega)
  refine ⟨w, ?_, hh, by rw [Vector.capacity_eq, Vector.capacity_eq, hwa, hg],
    ho.pop_back, rfl, rfl, rfl, rfl⟩
  rw [popAndEval_of_holds vs os base l r obase op hv2 ho,
    eval_binary op l r ((isBinary_iff op).mpr hop) hdiv]
  simp only []
  rw [hw]

/-- C17 (witness): folding `7 - 2` and `-7 / 2` on the stacks `[1, 7, 2]`
and `[1, -7, 2]`. -/
theorem popAndEval_folds_witness :
    (∃ w, popAndEval ⟨[1, 7, 2], 3, 4⟩ ⟨['(', '-'], 2, 2⟩ =
        .ok (w, (⟨['(', '-'], 2, 2⟩ : char_vector).pop_back) ∧
      w.Holds ([1] ++ [applyOp '-' 7 2])) ∧
    (∃ w, popAndEval ⟨[1, -7, 2], 3, 4⟩ ⟨['/'], 1, 2⟩ =
        .ok (w, (⟨['/'], 1, 2⟩ : char_vector).pop_back) ∧
      w.Holds ([1] ++ [applyOp '/' (-7) 2])) ∧
    applyOp '-' 7 2 = 5 ∧ applyOp '/' (-7) 2 = -3 :=
  ⟨(popAndEval_folds ⟨[1, 7, 2], 3, 4⟩ ⟨['(', '-'], 2, 2⟩ [1] 7 2 ['('] '-'
      ⟨rfl, rfl, by norm_num⟩ ⟨rfl, rfl, by norm_num⟩ (by decide) (by decide)
      (by decide)).imp (fun _ h => ⟨h.1, h.2.1⟩),
   (popAndEval_folds ⟨[1, -7, 2], 3, 4⟩ ⟨['/'], 1, 2⟩ [1] (-7) 2 [] '/'
      ⟨rfl, rfl, by norm_num⟩ ⟨rfl, rfl, by norm_num⟩ (by decide) (by decide)
      (by decide)).imp (fun _ h => ⟨h.1, h.2.1⟩),
   by with_unfolding_all decide, by with_unfolding_all decide⟩

set_option maxRecDepth 100000 in
/-- C17 (counterexample): with `l = INT_MIN` and `r = -1`, a divisor that is
not zero, the quotient is not an `int`: `eval` has no defined result,
`popAndEval` neither, and the line `( 0 - 2147483647 - 1 ) / ( 0 - 1 )`, whose
folds reach this quotient, prints no result: the run of `processExpression`
does not return. The expression of that line is in the grammar and has no
value. -/
theorem division_overflow_undefined :
    (-1 : Int) ≠ 0 ∧
    eval (-1) INT_MIN '/' = .undefined ∧
    popAndEval ⟨[INT_MIN, -1], 2, 2⟩ ⟨['/'], 1, 2⟩ = .undefined ∧
    mainIteration false (typed "( 0 - 2147483647 - 1 ) / ( 0 - 1 )") =
      (.aborted .undefined, { stdin := [], stdout := [Msg.prompt] }) ∧
    minOverMinusOne.WellFormed = true ∧
    minOverMinusOne.render = "( 0 - 2147483647 - 1 ) / ( 0 - 1 )".toList ∧
    minOverMinusOne.value = none := by
  refine ⟨by decide, eval_div_overflow, ?_, ?_, ?_, ?_, ?_⟩ <;> with_unfolding_all decide

/-- C20: the postfix line `3 4 +` and the line `+ 3 4`, neither a well-formed
infix expression, are evaluated without any error message: the only output
after the prompt is `Result: 7`. -/
theorem postfix_line_gives_result :
    mainIteration false (typed "3 4 +") =
      (.continues, { stdin := [], stdout := [Msg.prompt, Msg.result 7] }) ∧
    mainIteration false (typed "+ 3 4") =
      (.continues, { stdin := [], stdout := [Msg.prompt, Msg.result 7] }) := by
  with_unfolding_all decide

/-! ## Stacks as lists: the embedding agrees with the evaluator on lists -/

theorem Vector.HoldsStack.stack_back {T : Type} {v : Vector T} {x : T} {s : List T}
    (h : v.HoldsStack (x :: s)) : v.back = .ok x := by
  unfold Vector.HoldsStack at h
  rw [List.reverse_cons] at h
  exact Vector.Holds.back h

theorem Vector.HoldsStack.stack_back_nil {T : Type} {v : Vector T}
    (h : v.HoldsStack []) : v.back = .throw .IllegalOperationOnCurrentState :=
  Vector.Holds.back_nil h

theorem Vector.HoldsStack.stack_pop_back {T : Type} {v : Vector T} {x : T} {s : List T}
    (h : v.HoldsStack (x :: s)) : v.pop_back.HoldsStack s := by
  unfold Vector.HoldsStack at h ⊢
  rw [List.reverse_cons] at h
  exact Vector.Holds.pop_back h

theorem Vector.HoldsStack.stack_push_cases {T : Type} {v : Vector T} {s : List T}
    (h : v.HoldsStack s) (x : T) (hl : s.length + 1 < 2 ^ 64) :
    (v.push_back x = .undefined ∧ v.allocated ≤ s.length) ∨
    ∃ w, v.push_back x = .ok w ∧ w.HoldsStack (x :: s) ∧ w.inUse ≤ w.allocated ∧
      (v.Fits → w.Fits) := by
  unfold Vector.HoldsStack at h ⊢
  rcases Vector.Holds.push_back_cases h x (by rw [List.length_reverse]; exact hl) with
    ⟨h1, h2⟩ | ⟨w, h1, h2, h3, h4⟩
  · rw [List.length_reverse] at h2
    exact Or.inl ⟨h1, h2⟩
  · refine Or.inr ⟨w, h1, ?_, h3, h4⟩
    rw [List.reverse_cons]
    exact h2

theorem Vector.HoldsStack.stack_push_fits {T : Type} {v : Vector T} {s : List T}
    (h : v.HoldsStack s) (hf : v.Fits) (x : T) :
    (v.push_back x = .undefined ∧ 2 ^ 63 ≤ s.length) ∨
    ∃ w, v.push_back x = .ok w ∧ w.HoldsStack (x :: s) ∧ w.Fits := by
  unfold Vector.HoldsStack at h
  rcases Vector.Holds.push_back_fits h hf x with ⟨h1, h2⟩ | ⟨w, h1, h2, h3⟩
  · rw [List.length_reverse] at h2
    exact Or.inl ⟨h1, h2⟩
  · refine Or.inr ⟨w, h1, ?_, h3⟩
    unfold Vector.HoldsStack
    rw [List.reverse_cons]
    exact h2

theorem Vector.HoldsStack.inUse {T : Type} {v : Vector T} {s : List T}
    (h : v.HoldsStack s) : v.inUse = s.length := by
  have := h.2.1
  rw [List.length_reverse] at this
  exact this

theorem Vector.HoldsStack.length_lt {T : Type} {v : Vector T} {s : List T}
    (h : v.HoldsStack s) : s.length < 2 ^ 64 := by
  have := h.2.2
  rw [List.length_reverse] at this
  exact this

theorem Vector.HoldsStack.empty_nil {T : Type} {v : Vector T}
    (h : v.HoldsStack []) : v.empty = true := by
  unfold Vector.empty
  rw [h.inUse]
  rfl

theorem Vector.HoldsStack.empty_cons {T : Type} {v : Vector T} {x : T} {s : List T}
    (h : v.HoldsStack (x :: s)) : v.empty = false := by
  unfold Vector.empty
  rw [h.inUse]
  rfl

theorem holdsStack_newDefault {T : Type} : (Vector.newDefault : Vector T).HoldsStack [] :=
  Vector.holds_newDefault

theorem Vector.HoldsStack.fits_pop {T : Type} {v : Vector T} {x : T} {s : List T}
    (h : v.HoldsStack (x :: s)) (hf : v.Fits) : v.pop_back.Fits := by
  apply hf.after_pop
  rw [h.inUse, List.length_cons]
  omega

theorem Carries.rfl (src : Stacks) : Carries src src := ⟨id, id, id⟩

theorem Carries.trans {a b c : Stacks} (h1 : Carries a b) (h2 : Carries b c) : Carries a c :=
  ⟨fun h => h2.1 (h1.1 h), fun h => h2.2.1 (h1.2.1 h), fun h => h2.2.2 (h1.2.2 h)⟩

theorem FlowAgrees.of_go {src : Stacks} {f : Flow Stacks} {lv : List Int} {lo : List Char}
    (h : FlowAgrees src f (.go lv lo)) :
    ∃ st, f = .go st ∧ StacksHold st lv lo ∧ Carries src st := by
  cases f with
  | go st => exact ⟨st, rfl, h.1, h.2⟩
  | stop out e => exact h.elim

theorem FlowAgrees.of_stop {src : Stacks} {f : Flow Stacks} {out : List Msg} {e : Ending}
    (h : FlowAgrees src f (.stop out e)) : f = .stop out e := by
  cases f with
  | go st => exact h.elim
  | stop out' e' =>
    obtain ⟨h1, h2⟩ := h
    rw [h1, h2]

theorem FlowAgrees.carried {a b : Stacks} {f : Flow Stacks} {l : LFlow}
    (hc : Carries a b) (h : FlowAgrees b f l) : FlowAgrees a f l := by
  cases f with
  | go st =>
    cases l with
    | go lv lo => exact ⟨h.1, hc.trans h.2⟩
    | stop out e => exact h.elim
  | stop out e =>
    cases l with
    | go lv lo => exact h.elim
    | stop out' e' => exact h

/-- The result of `popAndEval` on stacks that hold lists. -/
theorem popAndEval_stack (vs : int_vector) (os : char_vector) (lv : List Int)
    (lo : List Char) (op : Char) (hv : vs.HoldsStack lv) (ho : os.HoldsStack (op :: lo)) :
    popAndEval vs os =
      match lv with
      | r :: l :: _ =>
        (match eval r l op with
        | .throw e => .throw e
        | .undefined => .undefined
        | .ok v =>
          match vs.pop_back.pop_back.push_back v with
          | .throw e => .throw e
          | .undefined => .undefined
          | .ok w => .ok (w, os.pop_back))
      | _ => .throw .IllegalOperationOnCurrentState := by
  match lv, hv with
  | [], hv =>
    unfold popAndEval
    rw [hv.stack_back_nil]
  | [r], hv =>
    unfold popAndEval
    rw [hv.stack_back]
    simp only []
    rw [hv.stack_pop_back.stack_back_nil]
  | r :: l :: rest, hv =>
    unfold popAndEval
    rw [hv.stack_back]
    simp only []
    rw [hv.stack_pop_back.stack_back]
    simp only []
    rw [ho.stack_back]
    try exact Eq.refl _

/-- The macro `tryPopEval` agrees with one pop-and-fold on lists, and leaves
the values within their buffer; it can have no defined behaviour where the
fold on lists goes on only when the values are not within their buffer. -/
theorem tryPopEval_agrees (vs : int_vector) (os : char_vector) (lv : List Int)
    (lo : List Char) (op : Char) (hv : vs.HoldsStack lv) (ho : os.HoldsStack (op :: lo)) :
    (FlowAgrees (vs, os) (tryPopEval vs os)
      (match lv with
      | r :: l :: vs' =>
        (match eval r l op with
        | .ok v => .go (v :: vs') lo
        | .throw _ => .stop [Msg.tooManyOperators] .returned
        | .undefined => .stop [] .undefined)
      | _ => .stop [Msg.tooManyOperators] .returned) ∧
      ∀ st, tryPopEval vs os = .go st → st.1.inUse ≤ st.1.allocated) ∨
    (¬ vs.inUse ≤ vs.allocated ∧ tryPopEval vs os = .stop [] .undefined) := by
  unfold tryPopEval
  rw [popAndEval_stack vs os lv lo op hv ho]
  match lv, hv with
  | [], hv => exact Or.inl ⟨⟨rfl, rfl⟩, fun st h => Flow.noConfusion h⟩
  | [r], hv => exact Or.inl ⟨⟨rfl, rfl⟩, fun st h => Flow.noConfusion h⟩
  | r :: l :: rest, hv =>
    simp only []
    cases hev : eval r l op with
    | throw e => exact Or.inl ⟨⟨rfl, rfl⟩, fun st h => Flow.noConfusion h⟩
    | undefined => exact Or.inl ⟨⟨rfl, rfl⟩, fun st h => Flow.noConfusion h⟩
    | ok v =>
      simp only []
      have hlen := hv.length_lt
      simp only [List.length_cons] at hlen
      have huse := hv.inUse
      simp only [List.length_cons] at huse
      have hbase := hv.stack_pop_back.stack_pop_back
      have ha : vs.pop_back.pop_back.allocated = vs.allocated := rfl
      rcases hbase.stack_push_cases v (by omega) with ⟨hu, hcap⟩ | ⟨w, hw, hh, hr, hfit⟩
      · rw [hu]
        refine Or.inr ⟨?_, rfl⟩
        rw [ha] at hcap
        omega
      · rw [hw]
        refine Or.inl ⟨⟨⟨hh, ho.stack_pop_back⟩, fun _ => hr, fun hf => ?_,
          fun hf => ho.fits_pop hf⟩, ?_⟩
        · exact hfit (hv.stack_pop_back.fits_pop (hv.fits_pop hf))
        · intro st hst
          simp only [Flow.go.injEq] at hst
          rw [← hst]
          exact hr

theorem foldWhile_succ (folds : Char → Bool) (fuel : Nat) (vs : int_vector) (os : char_vector) :
    foldWhile folds (fuel + 1) vs os =
      if !os.empty then
        match os.back with
        | .throw e => .stop [] (.threw e)
        | .undefined => .stop [] .undefined
        | .ok c =>
          if folds c then
            match tryPopEval vs os with
            | .stop out e => .stop out e
            | .go st => foldWhile folds fuel st.1 st.2
          else .go (vs, os)
      else .go (vs, os) := rfl

/-- The loop `foldWhile` agrees with the loop on lists when its bound exceeds
the height of the operator stack; it can have no defined behaviour where the
loop on lists has some only when the values are not within their buffer. -/
theorem foldWhile_agrees (folds : Char → Bool) (lo : List Char) :
    ∀ (fuel : Nat) (vs : int_vector) (os : char_vector) (lv : List Int),
      lo.length < fuel → vs.HoldsStack lv → os.HoldsStack lo →
      FlowAgrees (vs, os) (foldWhile folds fuel vs os) (lFoldWhile folds lv lo) ∨
      (¬ vs.inUse ≤ vs.allocated ∧ foldWhile folds fuel vs os = .stop [] .undefined) := by
  induction lo with
  | nil =>
    intro fuel vs os lv hf hv ho
    obtain ⟨n, rfl⟩ : ∃ n, fuel = n + 1 := ⟨fuel - 1, by omega⟩
    rw [foldWhile_succ, ho.empty_nil]
    exact Or.inl ⟨⟨hv, ho⟩, Carries.rfl _⟩
  | cons op lo ih =>
    intro fuel vs os lv hf hv ho
    obtain ⟨n, rfl⟩ : ∃ n, fuel = n + 1 := ⟨fuel - 1, by omega⟩
    rw [foldWhile_succ, ho.empty_cons, ho.stack_back]
    simp only [Bool.not_false, if_true, lFoldWhile]
    by_cases hc : folds op = true
    · rw [if_pos hc, if_pos hc]
      rcases tryPopEval_agrees vs os lv lo op hv ho with ⟨ht, hroom⟩ | ⟨hnr, hu⟩
      · match lv, hv, ht with
        | [], _, ht =>
          cases htp : tryPopEval vs os with
          | go st => rw [htp] at ht; exact ht.elim
          | stop out e => rw [htp] at ht; exact Or.inl ht
        | [r], _, ht =>
          cases htp : tryPopEval vs os with
          | go st => rw [htp] at ht; exact ht.elim
          | stop out e => rw [htp] at ht; exact Or.inl ht
        | r :: l :: rest, _, ht =>
          simp only [] at ht ⊢
          cases hev : eval r l op with
          | throw e =>
            rw [hev] at ht
            cases htp : tryPopEval vs os with
            | go st => rw [htp] at ht; exact ht.elim
            | stop out e => rw [htp] at ht; exact Or.inl ht
          | undefined =>
            rw [hev] at ht
            cases htp : tryPopEval vs os with
            | go st => rw [htp] at ht; exact ht.elim
            | stop out e => rw [htp] at ht; exact Or.inl ht
          | ok v =>
            rw [hev] at ht
            cases htp : tryPopEval vs os with
            | stop out e => rw [htp] at ht; exact ht.elim
            | go st =>
              rw [htp] at ht
              simp only []
              simp only [List.length_cons] at hf
              rcases ih n st.1 st.2 (v :: rest) (by omega) ht.1.1 ht.1.2 with h | ⟨hnr, _⟩
              · exact Or.inl (FlowAgrees.carried ht.2 h)
              · exact absurd (hroom st htp) hnr
      · rw [hu]
        exact Or.inr ⟨hnr, rfl⟩
    · rw [if_neg hc, if_neg hc]
      exact Or.inl ⟨⟨hv, ho⟩, Carries.rfl _⟩

/-- The loop on lists never makes a stack higher. -/
theorem lFoldWhile_length (folds : Char → Bool) (lo : List Char) :
    ∀ (lv lv' : List Int) (lo' : List Char), lFoldWhile folds lv lo = .go lv' lo' →
      lv'.length ≤ lv.length ∧ lo'.length ≤ lo.length := by
  induction lo with
  | nil =>
    intro lv lv' lo' h
    simp only [lFoldWhile, LFlow.go.injEq] at h
    rw [← h.1, ← h.2]
    exact ⟨le_refl _, le_refl _⟩
  | cons op lo ih =>
    intro lv lv' lo' h
    simp only [lFoldWhile] at h
    by_cases hc : folds op = true
    · rw [if_pos hc] at h
      match lv, h with
      | [], h => simp at h
      | [r], h => simp at h
      | r :: l :: rest, h =>
        simp only [] at h
        cases hev : eval r l op with
        | throw e => rw [hev] at h; simp at h
        | undefined => rw [hev] at h; simp at h
        | ok v =>
          rw [hev] at h
          have := ih (v :: rest) lv' lo' h
          simp only [List.length_cons] at this ⊢
          omega
    · rw [if_neg hc] at h
      simp only [LFlow.go.injEq] at h
      rw [← h.1, ← h.2]
      exact ⟨le_refl _, le_refl _⟩

theorem closeParen_agrees (vs : int_vector) (os : char_vector) (lv : List Int)
    (lo : List Char) (hv : vs.HoldsStack lv) (ho : os.HoldsStack lo) :
    FlowAgrees (vs, os) (closeParen vs os) (lCloseParen lv lo) ∨
    (¬ vs.inUse ≤ vs.allocated ∧ closeParen vs os = .stop [] .undefined) := by
  unfold closeParen lCloseParen
  rcases foldWhile_agrees isNotOpen lo (os.inUse + 1) vs os lv
    (by rw [ho.inUse]; omega) hv ho with h | ⟨hnr, hu⟩
  · left
    cases hl : lFoldWhile isNotOpen lv lo with
    | stop out e =>
      rw [hl] at h
      rw [h.of_stop]
      exact ⟨rfl, rfl⟩
    | go lv' lo' =>
      rw [hl] at h
      obtain ⟨st, hst, hh, hcar⟩ := h.of_go
      rw [hst]
      cases lo' with
      | nil =>
        simp only []
        rw [hh.2.empty_nil]
        exact ⟨rfl, rfl⟩
      | cons c lo'' =>
        simp only []
        rw [hh.2.empty_cons]
        exact ⟨⟨hh.1, hh.2.stack_pop_back⟩, hcar.1, hcar.2.1,
          fun hf => hh.2.fits_pop (hcar.2.2 hf)⟩
  · right
    rw [hu]
    exact ⟨hnr, rfl⟩

/-- The statement that pushes an operator: it has no defined behaviour only
on a full buffer of `2 ^ 63` slots or more. -/
theorem pushOperator_agrees (op : Char) (vs : int_vector) (os : char_vector)
    (lv : List Int) (lo : List Char) (hv : vs.HoldsStack lv) (ho : os.HoldsStack lo)
    (hfo : os.Fits) :
    FlowAgrees (vs, os) (pushOperator op vs os) (.go lv (op :: lo)) ∨
    (2 ^ 63 ≤ lo.length ∧ pushOperator op vs os = .stop [] .undefined) := by
  unfold pushOperator
  rcases ho.stack_push_fits hfo op with ⟨hu, hbig⟩ | ⟨w, hw, hh, hf⟩
  · rw [hu]
    exact Or.inr ⟨hbig, rfl⟩
  · rw [hw]
    exact Or.inl ⟨⟨hv, hh⟩, id, id, fun _ => hf⟩

/-- The statement that pushes a value: it has no defined behaviour only on a
full buffer of `2 ^ 63` slots or more. -/
theorem pushValue_agrees (val : Int) (vs : int_vector) (os : char_vector)
    (lv : List Int) (lo : List Char) (hv : vs.HoldsStack lv) (ho : os.HoldsStack lo)
    (hfv : vs.Fits) :
    FlowAgrees (vs, os) (pushValue val vs os) (.go (val :: lv) lo) ∨
    (2 ^ 63 ≤ lv.length ∧ pushValue val vs os = .stop [] .undefined) := by
  unfold pushValue
  rcases hv.stack_push_fits hfv val with ⟨hu, hbig⟩ | ⟨w, hw, hh, hf⟩
  · rw [hu]
    exact Or.inr ⟨hbig, rfl⟩
  · rw [hw]
    exact Or.inl ⟨⟨hh, ho⟩, fun _ => hf.1, fun _ => hf, id⟩

/-- A loop of an operator followed by the push of the operator. -/
theorem foldThenPush_agrees (folds : Char → Bool) (op : Char) (vs : int_vector)
    (os : char_vector) (lv : List Int) (lo : List Char) (hv : vs.HoldsStack lv)
    (ho : os.HoldsStack lo) (hfv : vs.Fits) (hfo : os.Fits) :
    FlowAgrees (vs, os)
      (match foldWhile folds (os.inUse + 1) vs os with
        | .stop out e => .stop out e
        | .go st => pushOperator op st.1 st.2)
      (match lFoldWhile folds lv lo with
        | .stop out e => .stop out e
        | .go vs' os' => .go vs' (op :: os')) ∨
    (2 ^ 63 ≤ lo.length ∧
      ((match foldWhile folds (os.inUse + 1) vs os with
        | .stop out e => .stop out e
        | .go st => pushOperator op st.1 st.2) : Flow Stacks) = .stop [] .undefined) := by
  rcases foldWhile_agrees folds lo (os.inUse + 1) vs os lv
    (by rw [ho.inUse]; omega) hv ho with h | ⟨hnr, _⟩
  · cases hl : lFoldWhile folds lv lo with
    | stop out e =>
      rw [hl] at h
      rw [h.of_stop]
      exact Or.inl ⟨rfl, rfl⟩
    | go lv' lo' =>
      rw [hl] at h
      obtain ⟨st, hst, hh, hcar⟩ := h.of_go
      rw [hst]
      simp only []
      have hle := (lFoldWhile_length folds lo lv lv' lo' hl).2
      rcases pushOperator_agrees op st.1 st.2 lv' lo' hh.1 hh.2 (hcar.2.2 hfo) with
        h2 | ⟨hbig, hu⟩
      · exact Or.inl (FlowAgrees.carried hcar h2)
      · exact Or.inr ⟨by omega, hu⟩
  · exact absurd hfv.1 hnr

theorem processOperator_agrees (op : Char) (vs : int_vector) (os : char_vector)
    (lv : List Int) (lo : List Char) (hv : vs.HoldsStack lv) (ho : os.HoldsStack lo)
    (hfv : vs.Fits) (hfo : os.Fits) :
    FlowAgrees (vs, os) (processOperator op vs os) (lOperator op lv lo) ∨
    (2 ^ 63 ≤ lo.length ∧ processOperator op vs os = .stop [] .undefined) := by
  unfold processOperator lOperator
  by_cases h1 : op = '('
  · rw [if_pos h1, if_pos h1]
    exact pushOperator_agrees op vs os lv lo hv ho hfo
  · rw [if_neg h1, if_neg h1]
    by_cases h2 : op = '+' ∨ op = '-'
    · rw [if_pos h2, if_pos h2]
      unfold loop1
      exact foldThenPush_agrees isLoop1Case op vs os lv lo hv ho hfv hfo
    · rw [if_neg h2, if_neg h2]
      by_cases h3 : op = '*' ∨ op = '/'
      · rw [if_pos h3, if_pos h3]
        unfold loop2
        exact foldThenPush_agrees isLoop2Case op vs os lv lo hv ho hfv hfo
      · rw [if_neg h3, if_neg h3]
        by_cases h4 : op = ')'
        · rw [if_pos h4, if_pos h4]
          rcases closeParen_agrees vs os lv lo hv ho with h | ⟨hnr, _⟩
          · exact Or.inl h
          · exact absurd hfv.1 hnr
        · rw [if_neg h4, if_neg h4]
          exact Or.inl ⟨⟨hv, ho⟩, Carries.rfl _⟩

/-- The handling of a token agrees with the handling on lists; it can have
no defined behaviour where the handling on lists goes on only when a stack
fills a buffer of `2 ^ 63` slots or more. -/
theorem processToken_agrees (tok : Token) (vs : int_vector) (os : char_vector)
    (lv : List Int) (lo : List Char) (hv : vs.HoldsStack lv) (ho : os.HoldsStack lo)
    (hfv : vs.Fits) (hfo : os.Fits) :
    FlowAgrees (vs, os) (processToken tok vs os) (lToken tok lv lo) ∨
    ((2 ^ 63 ≤ lv.length ∨ 2 ^ 63 ≤ lo.length) ∧
      processToken tok vs os = .stop [] .undefined) := by
  unfold processToken lToken
  cases tok.getType with
  | VALUE =>
    rcases pushValue_agrees tok.getValue vs os lv lo hv ho hfv with h | ⟨hbig, hu⟩
    · exact Or.inl h
    · exact Or.inr ⟨Or.inl hbig, hu⟩
  | OPERATOR =>
    rcases processOperator_agrees tok.getOperator vs os lv lo hv ho hfv hfo with
      h | ⟨hbig, hu⟩
    · exact Or.inl h
    · exact Or.inr ⟨Or.inr hbig, hu⟩
  | ERROR => exact Or.inl ⟨rfl, rfl⟩
  | EOLN => exact Or.inl ⟨rfl, rfl⟩
  | QUIT => exact Or.inl ⟨rfl, rfl⟩
  | HELP => exact Or.inl ⟨rfl, rfl⟩
  | EOFILE => exact Or.inl ⟨rfl, rfl⟩

/-- The end of `processExpression` agrees with the end on lists; it can have
no defined behaviour where the end on lists has some only when the values are
not within their buffer. -/
theorem finish_agrees (vs : int_vector) (os : char_vector) (lv : List Int)
    (lo : List Char) (hv : vs.HoldsStack lv) (ho : os.HoldsStack lo) :
    finish vs os = lFinish lv lo ∨
    (¬ vs.inUse ≤ vs.allocated ∧ finish vs os = ([], .undefined)) := by
  unfold finish lFinish
  rcases foldWhile_agrees (fun _ => true) lo (os.inUse + 1) vs os lv
    (by rw [ho.inUse]; omega) hv ho with h | ⟨hnr, hu⟩
  · left
    cases hl : lFoldWhile (fun _ => true) lv lo with
    | stop out e =>
      rw [hl] at h
      rw [h.of_stop]
    | go lv' lo' =>
      rw [hl] at h
      obtain ⟨st, hst, hh, _⟩ := h.of_go
      rw [hst]
      match lv', hh with
      | [], hh =>
        simp only []
        rw [hh.1.stack_back_nil]
      | [x], hh =>
        simp only []
        rw [hh.1.stack_back]
        simp only []
        rw [hh.1.stack_pop_back.empty_nil]
        rfl
      | x :: y :: rest, hh =>
        simp only []
        rw [hh.1.stack_back]
        simp only []
        rw [hh.1.stack_pop_back.empty_cons]
        rfl
  · right
    rw [hu]
    exact ⟨hnr, rfl⟩

/-- What a token does to the height of the stacks on lists. -/
theorem lToken_length (tok : Token) (lv lv' : List Int) (lo lo' : List Char)
    (h : lToken tok lv lo = .go lv' lo') :
    lv'.length ≤ lv.length + 1 ∧ lo'.length ≤ lo.length + 1 := by
  unfold lToken at h
  cases ht : tok.getType with
  | VALUE =>
    rw [ht] at h
    simp only [LFlow.go.injEq] at h
    rw [← h.1, ← h.2]
    simp
  | OPERATOR =>
    rw [ht] at h
    simp only [] at h
    unfold lOperator at h
    split at h
    · simp only [LFlow.go.injEq] at h
      rw [← h.1, ← h.2]
      simp
    · split at h
      · cases hl : lFoldWhile isLoop1Case lv lo with
        | stop out e => rw [hl] at h; simp at h
        | go a b =>
          rw [hl] at h
          simp only [LFlow.go.injEq] at h
          have := lFoldWhile_length _ _ _ _ _ hl
          rw [← h.1, ← h.2]
          simp only [List.length_cons]
          omega
      · split at h
        · cases hl : lFoldWhile isLoop2Case lv lo with
          | stop out e => rw [hl] at h; simp at h
          | go a b =>
            rw [hl] at h
            simp only [LFlow.go.injEq] at h
            have := lFoldWhile_length _ _ _ _ _ hl
            rw [← h.1, ← h.2]
            simp only [List.length_cons]
            omega
        · split at h
          · unfold lCloseParen at h
            cases hl : lFoldWhile isNotOpen lv lo with
            | stop out e => rw [hl] at h; simp at h
            | go a b =>
              rw [hl] at h
              have := lFoldWhile_length _ _ _ _ _ hl
              cases b with
              | nil => simp at h
              | cons c b' =>
                simp only [LFlow.go.injEq] at h
                rw [← h.1, ← h.2]
                simp only [List.length_cons] at this
                omega
          · simp only [LFlow.go.injEq] at h
            rw [← h.1, ← h.2]
            omega
  | ERROR => rw [ht] at h; simp at h
  | EOLN => rw [ht] at h; simp at h
  | QUIT => rw [ht] at h; simp at h
  | HELP => rw [ht] at h; simp at h
  | EOFILE => rw [ht] at h; simp at h

end Calc

/-! ## The token reader: lemmas -/

namespace Calc

open TokenReader

theorem charAt_eq_headD (l : List Char) (k : Nat) : charAt l k = (l.drop k).headD NUL := by
  unfold charAt
  induction l generalizing k with
  | nil => simp
  | cons a l ih =>
    cases k with
    | zero => simp
    | succ k => simp

theorem charAt_append_length (pre suf : List Char) :
    charAt (pre ++ suf) pre.length = suf.headD NUL := by
  rw [charAt_eq_headD]; simp

theorem charAt_of_le (l : List Char) (k : Nat) (h : l.length ≤ k) : charAt l k = NUL := by
  rw [charAt_eq_headD, List.drop_of_length_le h]; rfl

theorem drop_take_cons (l : List Char) (len pos : Nat) (h1 : pos < len) (h2 : pos < l.length) :
    (l.take len).drop pos = charAt l pos :: (l.take len).drop (pos + 1) := by
  have h3 : pos < (l.take len).length := by simp; omega
  rw [List.drop_eq_getElem_cons h3]
  congr 1
  unfold charAt
  simp [List.getD, List.getElem?_eq_getElem h2, List.getElem_take]

theorem scanWhile_stop (p : Char → Bool) (line : List Char) (len fuel pos : Nat)
    (h : ¬ (pos < len ∧ p (charAt line pos) = true)) :
    scanWhile p line len fuel pos = pos := by
  cases fuel with
  | zero => rfl
  | succ n =>
    simp only [scanWhile]
    rw [if_neg]
    simpa using h

theorem scanWhile_step (p : Char → Bool) (line : List Char) (len fuel pos : Nat)
    (h1 : pos < len) (h2 : p (charAt line pos) = true) :
    scanWhile p line len (fuel + 1) pos = scanWhile p line len fuel (pos + 1) := by
  simp only [scanWhile]
  rw [if_pos]
  simp [h1, h2]

/-- The scanning loop stops after the maximal run of characters satisfying
`p`. -/
theorem scanWhile_eq (p : Char → Bool) (line : List Char) (len : Nat)
    (hp : len ≤ line.length ∨ p NUL = false) :
    ∀ fuel pos, len - pos ≤ fuel →
      scanWhile p line len fuel pos = pos + (runAt p line len pos).length := by
  intro fuel
  induction fuel with
  | zero =>
    intro pos h
    have h1 : (line.take len).drop pos = [] := by
      apply List.drop_of_length_le; simp; omega
    simp [scanWhile, runAt, h1]
  | succ n ih =>
    intro pos h
    by_cases h1 : pos < len
    · by_cases h2 : pos < line.length
      · by_cases h3 : p (charAt line pos) = true
        · rw [scanWhile_step p line len n pos h1 h3, ih (pos + 1) (by omega)]
          unfold runAt
          rw [drop_take_cons line len pos h1 h2, List.takeWhile_cons_of_pos h3]
          simp; omega
        · rw [scanWhile_stop p line len (n + 1) pos (fun h => h3 h.2)]
          unfold runAt
          rw [drop_take_cons line len pos h1 h2, List.takeWhile_cons_of_neg h3]
          simp
      · have h3 : p (charAt line pos) = false := by
          rw [charAt_of_le line pos (by omega)]
          rcases hp with hp | hp
          · omega
          · exact hp
        rw [scanWhile_stop p line len (n + 1) pos (by simp [h3])]
        have h4 : (line.take len).drop pos = [] := by
          apply List.drop_of_length_le; simp; omega
        simp [runAt, h4]
    · rw [scanWhile_stop p line len (n + 1) pos (fun h => h1 h.1)]
      have h4 : (line.take len).drop pos = [] := by
        apply List.drop_of_length_le; simp; omega
      simp [runAt, h4]

theorem runAt_length_le (p : Char → Bool) (line : List Char) (len pos : Nat) :
    pos + (runAt p line len pos).length ≤ max pos len := by
  unfold runAt
  have h := (List.takeWhile_sublist p (l := (line.take len).drop pos)).length_le
  simp only [List.length_drop, List.length_take] at h
  omega

theorem isdigit_NUL : isdigit NUL = false := by decide

theorem digitLoop_spec (line : List Char) :
    ∀ fuel k number, ((line.drop k).takeWhile isdigit).length ≤ fuel →
      digitLoop line fuel number (charAt line k) (k + 1) =
        (((line.drop k).takeWhile isdigit).foldl digitStep number,
          k + 1 + ((line.drop k).takeWhile isdigit).length) := by
  intro fuel
  induction fuel with
  | zero =>
    intro k number h
    have h1 : (line.drop k).takeWhile isdigit = [] := List.length_eq_zero.mp (by omega)
    simp [digitLoop, h1]
  | succ n ih =>
    intro k number h
    rw [charAt_eq_headD]
    rcases hd : line.drop k with _ | ⟨c, rest⟩
    · simp [digitLoop, isdigit_NUL]
    · have hrest : line.drop (k + 1) = rest := by
        rw [← List.drop_drop, hd]
        · rfl
      by_cases hc : isdigit c = true
      · have h2 : (rest.takeWhile isdigit).length ≤ n := by
          rw [hd, List.takeWhile_cons_of_pos hc] at h
          simpa using h
        have h3 := ih (k + 1) (digitStep number c) (by rw [hrest]; exact h2)
        rw [charAt_eq_headD, hrest] at h3
        simp only [List.headD_cons, digitLoop, hc, if_true, List.takeWhile_cons_of_pos hc,
          List.foldl_cons, List.length_cons]
        rw [charAt_eq_headD, hrest]
        unfold digitStep at h3 ⊢
        rw [h3]
        congr 1
        omega
      · simp [digitLoop, hc]

theorem digit_toNat {c : Char} (h : isdigit c = true) : 48 ≤ c.toNat ∧ c.toNat ≤ 57 := by
  simpa [isdigit] using h

theorem digitStep_wrap (n : Nat) (c : Char) (hc : isdigit c = true) :
    digitStep (wrapInt n) c = wrapInt ((n * 10 + (c.toNat - 48) : Nat) : Int) := by
  have h := digit_toNat hc
  unfold digitStep wrapInt
  omega

theorem foldl_digitStep (run : List Char) (hrun : ∀ c ∈ run, isdigit c = true) :
    ∀ (n : Nat), run.foldl digitStep (wrapInt n) =
        wrapInt ((run.foldl (fun n c => n * 10 + (c.toNat - 48)) n : Nat) : Int) := by
  induction run with
  | nil => intro n; rw [List.foldl_nil, List.foldl_nil]
  | cons c rest ih =>
    intro n
    rw [List.foldl_cons, List.foldl_cons, digitStep_wrap n c (hrun c (List.mem_cons_self c rest))]
    exact ih (fun d hd => hrun d (List.mem_cons_of_mem c hd)) _

theorem getNextToken_eq (tr : TokenReader) (w : World) :
    tr.getNextToken w =
      match readLine tr w with
      | none => (Token.ofType .EOFILE, tr, w.print [Msg.errorInReading])
      | some (tr, w) => scanToken tr w := rfl

theorem getNextToken_of_loaded (tr : TokenReader) (w : World) (h : tr.needLine = false) :
    tr.getNextToken w = scanToken tr w := by
  rw [getNextToken_eq]
  unfold readLine
  rw [h]
  rfl

theorem scanToken_world (tr : TokenReader) (w : World) :
    scanToken tr w =
      ((scanToken tr { stdin := w.stdin, stdout := [] }).1,
       (scanToken tr { stdin := w.stdin, stdout := [] }).2.1,
       { stdin := (scanToken tr { stdin := w.stdin, stdout := [] }).2.2.stdin,
         stdout := w.stdout ++ (scanToken tr { stdin := w.stdin, stdout := [] }).2.2.stdout }) := by
  unfold scanToken
  simp only []
  split
  · simp
  · split
    · simp
    · split
      · simp
      · split
        · simp
        · split
          · simp
          · simp [World.print]

/-- The result of `getNextToken` does not depend on what was printed before,
and what it prints is appended to it. -/
theorem getNextToken_world (tr : TokenReader) (w : World) :
    tr.getNextToken w =
      ((tr.getNextToken { stdin := w.stdin, stdout := [] }).1,
       (tr.getNextToken { stdin := w.stdin, stdout := [] }).2.1,
       { stdin := (tr.getNextToken { stdin := w.stdin, stdout := [] }).2.2.stdin,
         stdout := w.stdout ++
           (tr.getNextToken { stdin := w.stdin, stdout := [] }).2.2.stdout }) := by
  rw [getNextToken_eq, getNextToken_eq]
  unfold readLine
  cases hn : tr.needLine with
  | false =>
    simp only [Bool.false_eq_true, if_false]
    exact scanToken_world tr w
  | true =>
    simp only [if_true]
    cases hf : fgets MAX_LINE w.stdin with
    | none => simp [World.print]
    | some lr =>
      simp only []
      exact scanToken_world _ _

theorem scanWhile_ge (p : Char → Bool) (line : List Char) (len : Nat) :
    ∀ fuel pos, pos ≤ scanWhile p line len fuel pos := by
  intro fuel
  induction fuel with
  | zero => intro pos; exact le_refl _
  | succ n ih =>
    intro pos
    by_cases hc : pos < len ∧ p (charAt line pos) = true
    · rw [scanWhile_step p line len n pos hc.1 hc.2]
      exact le_trans (Nat.le_succ pos) (ih (pos + 1))
    · rw [scanWhile_stop p line len (n + 1) pos hc]

theorem digitLoop_ge (line : List Char) :
    ∀ fuel number ch pos, pos ≤ (digitLoop line fuel number ch pos).2 := by
  intro fuel
  induction fuel with
  | zero => intro number ch pos; exact le_refl _
  | succ n ih =>
    intro number ch pos
    unfold digitLoop
    split
    · exact le_trans (Nat.le_succ pos) (ih _ _ _)
    · exact le_refl _

/-- A token other than end-of-line consumes at least one character of the
line in the buffer. -/
theorem scanToken_consumes (tr : TokenReader) (w : World)
    (h : (scanToken tr w).1.type ≠ .EOLN) :
    (scanToken tr w).2.1.needLine = tr.needLine ∧
    (scanToken tr w).2.1.length = tr.length ∧
    tr.pos < (scanToken tr w).2.1.pos ∧ tr.pos < tr.length ∧
    (scanToken tr w).2.2.stdin = w.stdin := by
  have hge := scanWhile_ge isspace tr.inputLine tr.length (tr.length - tr.pos) tr.pos
  unfold scanToken at h ⊢
  simp only [] at h ⊢
  split
  · rename_i hp
    rw [if_pos hp] at h
    exact absurd rfl h
  · rename_i hp
    split
    · exact ⟨rfl, rfl, by simp only []; omega, by omega, rfl⟩
    · split
      · exact ⟨rfl, rfl, by simp only []; omega, by omega, rfl⟩
      · split
        · exact ⟨rfl, rfl, by simp only []; omega, by omega, rfl⟩
        · split
          · refine ⟨rfl, rfl, ?_, by omega, rfl⟩
            have := digitLoop_ge tr.inputLine tr.inputLine.length
              ((charAt tr.inputLine (scanWhile isspace tr.inputLine tr.length
                (tr.length - tr.pos) tr.pos)).toNat - 48 : Int)
              (charAt tr.inputLine (scanWhile isspace tr.inputLine tr.length
                (tr.length - tr.pos) tr.pos + 1))
              (scanWhile isspace tr.inputLine tr.length (tr.length - tr.pos) tr.pos + 1 + 1)
            simp only []
            omega
          · refine ⟨rfl, rfl, ?_, by omega, rfl⟩
            have := scanWhile_ge (fun c => !isspace c) tr.inputLine tr.length
              (tr.length - (scanWhile isspace tr.inputLine tr.length
                (tr.length - tr.pos) tr.pos + 1))
              (scanWhile isspace tr.inputLine tr.length (tr.length - tr.pos) tr.pos + 1)
            simp only []
            omega

theorem fgetsChars_append (n : Nat) :
    ∀ s : List Char, (fgetsChars n s).1 ++ (fgetsChars n s).2 = s := by
  induction n with
  | zero => intro s; rfl
  | succ n ih =>
    intro s
    cases s with
    | nil => rfl
    | cons c s =>
      unfold fgetsChars
      split
      · rfl
      · simp only [List.cons_append, ih s]

theorem fgetsChars_length (n : Nat) :
    ∀ s : List Char, (fgetsChars n s).1.length ≤ n := by
  induction n with
  | zero => intro s; exact le_refl _
  | succ n ih =>
    intro s
    cases s with
    | nil => exact Nat.zero_le _
    | cons c s =>
      unfold fgetsChars
      split
      · simp
      · simp only [List.length_cons]
        exact Nat.succ_le_succ (ih s)

theorem strlen_le (s : List Char) : strlen s ≤ s.length := by
  unfold strlen
  exact (List.takeWhile_sublist _).length_le

/-- A token other than end-of-line and end-of-input leaves the reader with a
line in its buffer and with fewer characters to consume. -/
theorem getNextToken_consumes (tr : TokenReader) (w : World)
    (h1 : (tr.getNextToken w).1.type ≠ .EOLN) (h2 : (tr.getNextToken w).1.type ≠ .EOFILE) :
    (tr.getNextToken w).2.1.needLine = false ∧
    remaining (tr.getNextToken w).2.1 (tr.getNextToken w).2.2.stdin <
      remaining tr w.stdin := by
  rw [getNextToken_eq] at h1 h2 ⊢
  unfold readLine at h1 h2 ⊢
  cases hn : tr.needLine with
  | false =>
    rw [hn] at h1 h2
    simp only [Bool.false_eq_true, if_false] at h1 h2 ⊢
    obtain ⟨a, b, c, d, e⟩ := scanToken_consumes tr w h1
    refine ⟨by rw [a, hn], ?_⟩
    unfold remaining
    rw [a, hn, b]
    simp only [Bool.false_eq_true, if_false]
    omega
  | true =>
    rw [hn] at h1 h2
    simp only [if_true] at h1 h2 ⊢
    cases hf : fgets MAX_LINE w.stdin with
    | none =>
      rw [hf] at h2
      exact absurd rfl h2
    | some lr =>
      rw [hf] at h1
      simp only [] at h1 ⊢
      obtain ⟨a, b, c, d, e⟩ := scanToken_consumes _ _ h1
      refine ⟨a, ?_⟩
      unfold remaining
      rw [a, b, hn]
      simp only [Bool.false_eq_true, if_false, if_true]
      have h3 : lr.1.length ≤ w.stdin.length := by
        unfold fgets at hf
        split at hf
        · exact absurd hf (by simp)
        · simp only [Option.some.injEq] at hf
          rw [← hf]
          have := fgetsChars_append (MAX_LINE - 1) w.stdin
          have h4 := congrArg List.length this
          rw [List.length_append] at h4
          omega
      have h5 := strlen_le lr.1
      simp only [] at d
      omega

/-- The tokens supplied before the last one, when each of them consumes a
character, are at most as many as the characters left. -/
theorem supplies_length (toks : List Token) :
    ∀ (tr : TokenReader) (stdin : List Char), Supplies tr stdin toks →
      (∀ t ∈ toks.dropLast, t.type ≠ .EOLN ∧ t.type ≠ .EOFILE) →
      toks.length ≤ remaining tr stdin + 1 := by
  induction toks with
  | nil => intro tr stdin _ _; exact Nat.zero_le _
  | cons t ts ih =>
    intro tr stdin hs hall
    cases ts with
    | nil => simp
    | cons t2 ts2 =>
      obtain ⟨e1, _, e3⟩ := hs
      have ht := hall t (by simp [List.dropLast])
      rw [← e1] at ht
      have hc : remaining (tr.getNextToken { stdin := stdin, stdout := [] }).2.1
          (tr.getNextToken { stdin := stdin, stdout := [] }).2.2.stdin < remaining tr stdin :=
        (getNextToken_consumes tr { stdin := stdin, stdout := [] } ht.1 ht.2).2
      have := ih _ _ e3 (fun x hx => hall x (by
        simp only [List.dropLast_cons₂, List.mem_cons] at hx ⊢
        exact Or.inr hx))
      simp only [List.length_cons] at this ⊢
      omega

/-! ## The run of `processExpression` agrees with the run on lists -/

theorem getNextToken_print (tr : TokenReader) (w : World) (out : List Msg) :
    tr.getNextToken (w.print out) =
      ((tr.getNextToken { stdin := w.stdin, stdout := [] }).1,
       (tr.getNextToken { stdin := w.stdin, stdout := [] }).2.1,
       { stdin := (tr.getNextToken { stdin := w.stdin, stdout := [] }).2.2.stdin,
         stdout := w.stdout ++ out ++
           (tr.getNextToken { stdin := w.stdin, stdout := [] }).2.2.stdout }) :=
  getNextToken_world tr (w.print out)

theorem exprLoop_succ (dbg : Bool) (fuel : Nat) (tok : Token) (tr : TokenReader) (w : World)
    (vs : int_vector) (os : char_vector) :
    exprLoop dbg (fuel + 1) tok tr w vs os =
      if tok.equalsType .EOLN then
        { ending := (finish vs os).2, tr := tr, world := w.print (finish vs os).1 }
      else
        match processToken tok vs os with
        | .stop out e =>
          { ending := e, tr := tr, world := (w.print (logOf dbg tok)).print out }
        | .go st =>
          exprLoop dbg fuel
            (tr.getNextToken (w.print (logOf dbg tok))).1
            (tr.getNextToken (w.print (logOf dbg tok))).2.1
            (tr.getNextToken (w.print (logOf dbg tok))).2.2 st.1 st.2 := rfl

theorem lRun_cons (dbg : Bool) (t : Token) (ts : List Token) (vs : List Int) (os : List Char) :
    lRun dbg (t :: ts) vs os =
      if t.equalsType .EOLN then lFinish vs os
      else
        match lToken t vs os with
        | .stop out e => (logOf dbg t ++ out, e)
        | .go vs' os' =>
          (logOf dbg t ++ (lRun dbg ts vs' os').1, (lRun dbg ts vs' os').2) := rfl

theorem not_result_mem_logOf (dbg : Bool) (t : Token) (v : Int) :
    Msg.result v ∉ logOf dbg t := by
  unfold logOf
  split
  · split <;> simp
  · simp

/-- The run of the main loop from any state agrees with the run on lists, on
the tokens that the reader supplies; it can end without defined behaviour
where the run on lists goes on only when a stack fills a buffer of `2 ^ 63`
slots or more, and then it has printed no result. -/
theorem exprLoop_agrees (dbg : Bool) (toks : List Token) :
    ∀ (fuel : Nat) (tok : Token) (tr : TokenReader) (w : World) (vs : int_vector)
      (os : char_vector) (lv : List Int) (lo : List Char),
      Supplies tr w.stdin toks → toks.length < fuel → StacksHold (vs, os) lv lo →
      vs.Fits → os.Fits →
      (lRun dbg (tok :: toks) lv lo).2 ≠ .unfinished →
      ((exprLoop dbg fuel tok tr w vs os).ending = (lRun dbg (tok :: toks) lv lo).2 ∧
        (exprLoop dbg fuel tok tr w vs os).world.stdout =
          w.stdout ++ (lRun dbg (tok :: toks) lv lo).1) ∨
      ((2 ^ 63 ≤ lv.length + toks.length ∨ 2 ^ 63 ≤ lo.length + toks.length) ∧
        (exprLoop dbg fuel tok tr w vs os).ending = .undefined ∧
        ∃ out, (exprLoop dbg fuel tok tr w vs os).world.stdout = w.stdout ++ out ∧
          ∀ v, Msg.result v ∉ out) := by
  induction toks with
  | nil =>
    intro fuel tok tr w vs os lv lo _ hf hst hfv hfo hfin
    obtain ⟨n, rfl⟩ : ∃ n, fuel = n + 1 := ⟨fuel - 1, by omega⟩
    rw [exprLoop_succ]
    rw [lRun_cons] at hfin ⊢
    by_cases he : tok.equalsType .EOLN = true
    · rw [if_pos he]
      rw [if_pos he]
      rcases finish_agrees vs os lv lo hst.1 hst.2 with hfa | ⟨hnr, _⟩
      · rw [hfa]
        exact Or.inl ⟨rfl, rfl⟩
      · exact absurd hfv.1 hnr
    · rw [if_neg he] at hfin ⊢
      rw [if_neg he]
      rcases processToken_agrees tok vs os lv lo hst.1 hst.2 hfv hfo with hag | ⟨hbig, hu⟩
      · cases hl : lToken tok lv lo with
        | stop out e =>
          rw [hl] at hag
          rw [hag.of_stop]
          simp only [World.print, List.append_assoc, and_self, true_or]
        | go lv' lo' =>
          rw [hl] at hfin
          exact absurd rfl hfin
      · rw [hu]
        refine Or.inr ⟨by simpa using hbig, rfl, logOf dbg tok, ?_, not_result_mem_logOf dbg tok⟩
        simp only [World.print, List.append_nil]
  | cons t ts ih =>
    intro fuel tok tr w vs os lv lo hs hf hst hfv hfo hfin
    obtain ⟨n, rfl⟩ : ∃ n, fuel = n + 1 := ⟨fuel - 1, by omega⟩
    rw [exprLoop_succ]
    rw [lRun_cons] at hfin ⊢
    by_cases he : tok.equalsType .EOLN = true
    · rw [if_pos he]
      rw [if_pos he]
      rcases finish_agrees vs os lv lo hst.1 hst.2 with hfa | ⟨hnr, _⟩
      · rw [hfa]
        exact Or.inl ⟨rfl, rfl⟩
      · exact absurd hfv.1 hnr
    · rw [if_neg he] at hfin ⊢
      rw [if_neg he]
      simp only [List.length_cons] at hf ⊢
      rcases processToken_agrees tok vs os lv lo hst.1 hst.2 hfv hfo with hag | ⟨hbig, hu⟩
      · cases hl : lToken tok lv lo with
        | stop out e =>
          rw [hl] at hag
          rw [hag.of_stop]
          simp only [World.print, List.append_assoc, and_self, true_or]
        | go lv' lo' =>
          rw [hl] at hag hfin
          obtain ⟨st, hst', hh, hcar⟩ := hag.of_go
          rw [hst']
          simp only [] at hfin ⊢
          rw [getNextToken_print]
          obtain ⟨e1, e2, e3⟩ := hs
          simp only []
          rw [e1, e2, List.append_nil]
          have hlen := lToken_length tok lv lv' lo lo' hl
          rcases ih n t (tr.getNextToken { stdin := w.stdin, stdout := [] }).2.1
            { stdin := (tr.getNextToken { stdin := w.stdin, stdout := [] }).2.2.stdin,
              stdout := w.stdout ++ logOf dbg tok } st.1 st.2 lv' lo' e3 (by omega) hh
            (hcar.2.1 hfv) (hcar.2.2 hfo) hfin with this | ⟨hbig, hend, out, hout, hno⟩
          · rw [this.1, this.2]
            simp only [List.append_assoc, and_self, true_or]
          · refine Or.inr ⟨by omega, hend, logOf dbg tok ++ out, ?_, ?_⟩
            · rw [hout, List.append_assoc]
            · intro v hv
              rcases List.mem_append.mp hv with h | h
              · exact not_result_mem_logOf dbg tok v h
              · exact hno v h
      · rw [hu]
        refine Or.inr ⟨by omega, rfl, logOf dbg tok, ?_, not_result_mem_logOf dbg tok⟩
        simp only [World.print, List.append_nil]

/-- The loop on lists stops only with the message of `tryPopEval` or on an
undefined division. -/
theorem lFoldWhile_stop (folds : Char → Bool) (lo : List Char) :
    ∀ (lv : List Int) (out : List Msg) (e : Ending), lFoldWhile folds lv lo = .stop out e →
      (out = [Msg.tooManyOperators] ∧ e = .returned) ∨ (out = [] ∧ e = .undefined) := by
  induction lo with
  | nil => intro lv out e h; simp [lFoldWhile] at h
  | cons op lo ih =>
    intro lv out e h
    simp only [lFoldWhile] at h
    by_cases hc : folds op = true
    · rw [if_pos hc] at h
      match lv, h with
      | [], h =>
        simp only [LFlow.stop.injEq] at h
        exact Or.inl ⟨h.1.symm, h.2.symm⟩
      | [r], h =>
        simp only [LFlow.stop.injEq] at h
        exact Or.inl ⟨h.1.symm, h.2.symm⟩
      | r :: l :: rest, h =>
        simp only [] at h
        cases hev : eval r l op with
        | throw e' =>
          rw [hev] at h
          simp only [LFlow.stop.injEq] at h
          exact Or.inl ⟨h.1.symm, h.2.symm⟩
        | undefined =>
          rw [hev] at h
          simp only [LFlow.stop.injEq] at h
          exact Or.inr ⟨h.1.symm, h.2.symm⟩
        | ok v =>
          rw [hev] at h
          exact ih _ _ _ h
    · rw [if_neg hc] at h
      simp at h

theorem lFinish_ne_unfinished (lv : List Int) (lo : List Char) :
    (lFinish lv lo).2 ≠ .unfinished := by
  unfold lFinish
  cases hl : lFoldWhile (fun _ => true) lv lo with
  | stop out e =>
    rcases lFoldWhile_stop _ _ _ _ _ hl with h | h
    · simp only []; rw [h.2]; simp
    · simp only []; rw [h.2]; simp
  | go lv' lo' =>
    match lv' with
    | [] => simp
    | [x] => simp
    | x :: y :: rest => simp

theorem lToken_stop (tok : Token) (lv : List Int) (lo : List Char) (out : List Msg)
    (e : Ending) (h : lToken tok lv lo = .stop out e) : e ≠ .unfinished := by
  unfold lToken at h
  cases ht : tok.getType with
  | VALUE => rw [ht] at h; simp at h
  | OPERATOR =>
    rw [ht] at h
    simp only [] at h
    unfold lOperator at h
    split at h
    · simp at h
    · split at h
      · cases hl : lFoldWhile isLoop1Case lv lo with
        | stop out' e' =>
          rw [hl] at h
          simp only [LFlow.stop.injEq] at h
          rcases lFoldWhile_stop _ _ _ _ _ hl with h' | h'
          · rw [← h.2, h'.2]; simp
          · rw [← h.2, h'.2]; simp
        | go a b => rw [hl] at h; simp at h
      · split at h
        · cases hl : lFoldWhile isLoop2Case lv lo with
          | stop out' e' =>
            rw [hl] at h
            simp only [LFlow.stop.injEq] at h
            rcases lFoldWhile_stop _ _ _ _ _ hl with h' | h'
            · rw [← h.2, h'.2]; simp
            · rw [← h.2, h'.2]; simp
          | go a b => rw [hl] at h; simp at h
        · split at h
          · unfold lCloseParen at h
            cases hl : lFoldWhile isNotOpen lv lo with
            | stop out' e' =>
              rw [hl] at h
              simp only [LFlow.stop.injEq] at h
              rcases lFoldWhile_stop _ _ _ _ _ hl with h' | h'
              · rw [← h.2, h'.2]; simp
              · rw [← h.2, h'.2]; simp
            | go a b =>
              rw [hl] at h
              cases b with
              | nil =>
                simp only [LFlow.stop.injEq] at h
                rw [← h.2]; simp
              | cons c b' => simp at h
          · simp at h
  | ERROR => rw [ht] at h; simp only [LFlow.stop.injEq] at h; rw [← h.2]; simp
  | EOLN => rw [ht] at h; simp only [LFlow.stop.injEq] at h; rw [← h.2]; simp
  | QUIT => rw [ht] at h; simp only [LFlow.stop.injEq] at h; rw [← h.2]; simp
  | HELP => rw [ht] at h; simp only [LFlow.stop.injEq] at h; rw [← h.2]; simp
  | EOFILE => rw [ht] at h; simp only [LFlow.stop.injEq] at h; rw [← h.2]; simp

/-- A run on lists over tokens that contain an end-of-line token ends. -/
theorem lRun_ne_unfinished (dbg : Bool) (toks : List Token) :
    ∀ (lv : List Int) (lo : List Char), (∃ t ∈ toks, t.equalsType .EOLN = true) →
      (lRun dbg toks lv lo).2 ≠ .unfinished := by
  induction toks with
  | nil => intro lv lo h; obtain ⟨t, ht, _⟩ := h; simp at ht
  | cons t ts ih =>
    intro lv lo h
    rw [lRun_cons]
    by_cases he : t.equalsType .EOLN = true
    · rw [if_pos he]
      exact lFinish_ne_unfinished lv lo
    · rw [if_neg he]
      cases hl : lToken t lv lo with
      | stop out e => exact lToken_stop t lv lo out e hl
      | go lv' lo' =>
        simp only []
        apply ih
        obtain ⟨x, hx, hxe⟩ := h
        rcases List.mem_cons.mp hx with h1 | h1
        · rw [h1] at hxe; exact absurd hxe he
        · exact ⟨x, h1, hxe⟩

theorem remaining_le (tr : TokenReader) (stdin : List Char) :
    remaining tr stdin ≤ tr.length + stdin.length + 1 := by
  unfold remaining
  split <;> omega

/-- The call `processExpression(inputToken, tr)` and the run on lists over
`inputToken` and the tokens that the reader supplies, when these are the
tokens of an expression line: they agree, or the call ends without defined
behaviour on a stack of `2 ^ 63` elements and prints no result. -/
theorem processExpression_run (dbg : Bool) (tok : Token) (toks : List Token)
    (tr : TokenReader) (w : World) (hs : Supplies tr w.stdin toks)
    (hline : IsExpressionLine (tok :: toks)) :
    ((processExpression dbg tok tr w).ending = (lRun dbg (tok :: toks) [] []).2 ∧
      (processExpression dbg tok tr w).world.stdout =
        w.stdout ++ (lRun dbg (tok :: toks) [] []).1) ∨
    (2 ^ 63 ≤ toks.length ∧
      (processExpression dbg tok tr w).ending = .undefined ∧
      ∃ out, (processExpression dbg tok tr w).world.stdout = w.stdout ++ out ∧
        ∀ v, Msg.result v ∉ out) := by
  obtain ⟨body, hb, hall⟩ := hline
  have hfin : (lRun dbg (tok :: toks) [] []).2 ≠ .unfinished := by
    apply lRun_ne_unfinished
    refine ⟨Token.ofType .EOLN, ?_, rfl⟩
    rw [hb]
    simp
  have hdrop : ∀ t ∈ toks.dropLast, t.type ≠ .EOLN ∧ t.type ≠ .EOFILE := by
    intro t ht
    have h1 : (tok :: toks).dropLast = body := by
      rw [hb, List.dropLast_concat]
    have h2 : t ∈ body := by
      rw [← h1]
      cases toks with
      | nil => simp at ht
      | cons a b =>
        rw [List.dropLast_cons₂]
        exact List.mem_cons_of_mem _ ht
    rcases hall t h2 with h | h <;> rw [h] <;> simp
  have hsl := supplies_length toks tr w.stdin hs hdrop
  have hr := remaining_le tr w.stdin
  unfold processExpression
  rcases exprLoop_agrees dbg toks (tokenBound tr w) tok tr w _ _ [] [] hs
    (by unfold tokenBound; omega) ⟨holdsStack_newDefault, holdsStack_newDefault⟩
    Vector.fits_newDefault Vector.fits_newDefault hfin with h | ⟨hbig, h2, h3⟩
  · exact Or.inl h
  · refine Or.inr ⟨?_, h2, h3⟩
    simp only [List.length_nil, Nat.zero_add, or_self] at hbig
    exact hbig

/-- The call `processExpression(inputToken, tr)` agrees with the run on lists
over `inputToken` and the tokens that the reader supplies, when these are the
tokens of an expression line of fewer than `2 ^ 63` tokens. -/
theorem processExpression_agrees (dbg : Bool) (tok : Token) (toks : List Token)
    (tr : TokenReader) (w : World) (hs : Supplies tr w.stdin toks)
    (hline : IsExpressionLine (tok :: toks)) (hlen : toks.length < 2 ^ 63) :
    (processExpression dbg tok tr w).ending = (lRun dbg (tok :: toks) [] []).2 ∧
    (processExpression dbg tok tr w).world.stdout =
      w.stdout ++ (lRun dbg (tok :: toks) [] []).1 := by
  rcases processExpression_run dbg tok toks tr w hs hline with h | ⟨hbig, _⟩
  · exact h
  · omega

/-! ## The final drain -/

/-- What the loop on lists has done when it goes on: it has folded a run of
binary operators from the top of the operator stack, one value less for each,
and stopped at the bottom or at an operator that is not a case label. -/
theorem lFoldWhile_go (folds : Char → Bool) (lo : List Char) :
    ∀ (lv a : List Int) (b : List Char), lFoldWhile folds lv lo = .go a b →
      ∃ pre, lo = pre ++ b ∧ (∀ c ∈ pre, isBinary c = true ∧ folds c = true) ∧
        a.length + pre.length = lv.length ∧
        (b = [] ∨ ∃ c rest, b = c :: rest ∧ folds c = false) := by
  induction lo with
  | nil =>
    intro lv a b h
    simp only [lFoldWhile, LFlow.go.injEq] at h
    refine ⟨[], ?_, ?_, ?_, Or.inl h.2.symm⟩
    · rw [← h.2]; rfl
    · intro c hc; simp at hc
    · rw [h.1]; rfl
  | cons op lo ih =>
    intro lv a b h
    simp only [lFoldWhile] at h
    by_cases hc : folds op = true
    · rw [if_pos hc] at h
      match lv, h with
      | [], h => simp at h
      | [r], h => simp at h
      | r :: l :: rest, h =>
        simp only [] at h
        cases hev : eval r l op with
        | throw e' => rw [hev] at h; simp at h
        | undefined => rw [hev] at h; simp at h
        | ok v =>
          rw [hev] at h
          obtain ⟨pre, h1, h2, h3, h4⟩ := ih _ _ _ h
          have hbin : isBinary op = true := by
            by_contra hb
            rw [eval_not_binary op l r (by simpa using hb)] at hev
            simp at hev
          refine ⟨op :: pre, ?_, ?_, ?_, h4⟩
          · rw [h1]; rfl
          · intro c hcm
            rcases List.mem_cons.mp hcm with e | e
            · rw [e]; exact ⟨hbin, hc⟩
            · exact h2 c e
          · simp only [List.length_cons] at h3 ⊢
            omega
    · rw [if_neg hc] at h
      simp only [LFlow.go.injEq] at h
      refine ⟨[], ?_, ?_, ?_, Or.inr ⟨op, lo, h.2.symm, by simpa using hc⟩⟩
      · rw [← h.2]; rfl
      · intro c hc'; simp at hc'
      · rw [h.1]; rfl

/-- The final drain on lists with an operator that is not binary (such as a
left parenthesis) on the stack ends with the message of `tryPopEval` or on an
undefined division. -/
theorem lFinish_of_not_binary (lv : List Int) (lo : List Char)
    (h : ∃ c ∈ lo, isBinary c = false) :
    lFinish lv lo = ([Msg.tooManyOperators], .returned) ∨ lFinish lv lo = ([], .undefined) := by
  unfold lFinish
  cases hl : lFoldWhile (fun _ => true) lv lo with
  | stop out e =>
    rcases lFoldWhile_stop _ _ _ _ _ hl with h' | h'
    · left; simp only []; rw [h'.1, h'.2]
    · right; simp only []; rw [h'.1, h'.2]
  | go a b =>
    exfalso
    obtain ⟨pre, h1, h2, _, h4⟩ := lFoldWhile_go _ _ _ _ _ hl
    obtain ⟨c, hc, hcb⟩ := h
    rcases h4 with h4 | ⟨_, _, _, h4⟩
    · rw [h1, h4, List.append_nil] at hc
      have := (h2 c hc).1
      rw [hcb] at this
      exact absurd this (by simp)
    · simp at h4

/-- C18 (amended): when the end of the line is reached with a left
parenthesis still on the operator stack, the final drain does not fold it
silently: the pop-and-fold that reaches it fails, so `processExpression`
prints `Error: Too many operators.` and returns without a result (or, when a
fold above it has no defined behaviour, as a division by zero or of
`INT_MIN` by `-1` has, neither has the drain); no result is printed. -/
theorem finish_with_open_paren (vs : int_vector) (os : char_vector) (lv : List Int)
    (lo : List Char) (hst : StacksHold (vs, os) lv lo) (hopen : '(' ∈ lo) :
    finish vs os = ([Msg.tooManyOperators], .returned) ∨ finish vs os = ([], .undefined) := by
  rcases finish_agrees vs os lv lo hst.1 hst.2 with h | ⟨_, h⟩
  · rw [h]
    exact lFinish_of_not_binary lv lo ⟨'(', hopen, by decide⟩
  · exact Or.inr h

/-- C18 (witness): the final drain on the stacks left by the line `(3 + 4`. -/
theorem finish_with_open_paren_witness :
    finish ⟨[3, 4], 2, 2⟩ ⟨['(', '+'], 2, 2⟩ = ([Msg.tooManyOperators], .returned) ∨
    finish ⟨[3, 4], 2, 2⟩ ⟨['(', '+'], 2, 2⟩ = ([], .undefined) :=
  finish_with_open_paren ⟨[3, 4], 2, 2⟩ ⟨['(', '+'], 2, 2⟩ [4, 3] ['+', '(']
    ⟨⟨rfl, rfl, by norm_num⟩, ⟨rfl, rfl, by norm_num⟩⟩ (by decide)

/-- C18 (counterexample): the lines `(3 + 4` and `(1 2` print
`Error: Too many operators.`: the leftover parenthesis is not folded
silently. -/
theorem open_paren_line_reports_error :
    mainIteration false (typed "(3 + 4") =
      (.continues, { stdin := [], stdout := [Msg.prompt, Msg.tooManyOperators] }) ∧
    mainIteration false (typed "(1 2") =
      (.continues, { stdin := [], stdout := [Msg.prompt, Msg.tooManyOperators] }) := by
  with_unfolding_all decide

/-! ## A printed result and the counts of the tokens -/

theorem countP_binary_run (pre : List Char) (folds : Char → Bool)
    (h : ∀ c ∈ pre, isBinary c = true ∧ folds c = true) :
    pre.countP isBinary = pre.length ∧ pre.count '(' = 0 := by
  induction pre with
  | nil => exact ⟨rfl, rfl⟩
  | cons c pre ih =>
    have hc := (h c (List.mem_cons_self c pre)).1
    have ih' := ih (fun d hd => h d (List.mem_cons_of_mem c hd))
    have hne : c ≠ '(' := by
      intro e; rw [e] at hc; exact absurd hc (by decide)
    refine ⟨?_, ?_⟩
    · rw [List.countP_cons_of_pos _ _ hc, ih'.1, List.length_cons]
    · rw [List.count_cons_of_ne hne.symm, ih'.2]

theorem countValues_single (t : Token) :
    countValues [t] = if t.type = .VALUE then 1 else 0 := by
  unfold countValues
  by_cases h : t.type = .VALUE <;> simp [h]

theorem countBinary_single (t : Token) :
    countBinary [t] = if t.type = .OPERATOR ∧ isBinary t.op = true then 1 else 0 := by
  unfold countBinary
  by_cases h : t.type = .OPERATOR <;> by_cases h2 : isBinary t.op = true <;> simp [h, h2]

theorem countOperator_single (c : Char) (t : Token) :
    countOperator c [t] = if t.type = .OPERATOR ∧ t.op = c then 1 else 0 := by
  unfold countOperator Token.equalsOperator
  by_cases h : t.type = .OPERATOR <;> by_cases h2 : t.op = c <;> simp [h, h2]

/-- The counts on an operator stack from which a run of binary operators was
folded. -/
theorem counts_of_folded (pre b : List Char) (folds : Char → Bool)
    (h : ∀ c ∈ pre, isBinary c = true ∧ folds c = true) :
    (pre ++ b).countP isBinary = pre.length + b.countP isBinary ∧
    (pre ++ b).count '(' = b.count '(' := by
  have hp := countP_binary_run pre folds h
  refine ⟨?_, ?_⟩
  · rw [List.countP_append, hp.1]
  · rw [List.count_append, hp.2, Nat.zero_add]

/-- What a token that lets the run go on does to the counts kept on the
stacks. -/
theorem lToken_go_counts (t : Token) (lv lv' : List Int) (lo lo' : List Char)
    (h : lToken t lv lo = .go lv' lo') :
    lv.length + countValues [t] + lo'.countP isBinary =
      lv'.length + lo.countP isBinary + countBinary [t] ∧
    lo.count '(' + countOperator '(' [t] = lo'.count '(' + countOperator ')' [t] := by
  unfold lToken at h
  rw [countValues_single, countBinary_single, countOperator_single, countOperator_single]
  have hgt : t.getType = t.type := rfl
  cases ht : t.type with
  | VALUE =>
    rw [hgt, ht] at h
    simp only [LFlow.go.injEq] at h
    rw [← h.1, ← h.2]
    simp
  | OPERATOR =>
    rw [hgt, ht] at h
    simp only [] at h
    have hop : t.getOperator = t.op := by
      unfold Token.getOperator; rw [if_pos ht]
    rw [hop] at h
    simp only [true_and, if_false, Nat.add_zero]
    rw [if_neg (by simp)]
    unfold lOperator at h
    split at h
    · rename_i h1
      simp only [LFlow.go.injEq] at h
      have hb : isBinary t.op = false := by rw [h1]; decide
      have hc : t.op ≠ ')' := by rw [h1]; decide
      rw [← h.1, ← h.2, if_neg (by rw [hb]; simp), if_pos h1, if_neg hc, h1,
        List.countP_cons_of_neg _ _ (by decide), List.count_cons_self]
      omega
    · rename_i h1
      split at h
      · rename_i h2
        cases hl : lFoldWhile isLoop1Case lv lo with
        | stop out e => rw [hl] at h; simp at h
        | go a b =>
          rw [hl] at h
          simp only [LFlow.go.injEq] at h
          obtain ⟨pre, p1, p2, p3, _⟩ := lFoldWhile_go _ _ _ _ _ hl
          have hb : isBinary t.op = true := by
            rw [isBinary_iff]; rcases h2 with e | e
            · exact Or.inl e
            · exact Or.inr (Or.inl e)
          have hc : t.op ≠ ')' := by
            intro e; rw [e] at hb; exact absurd hb (by decide)
          have hcnt := counts_of_folded pre b _ p2
          rw [← p1] at hcnt
          rw [← h.1, ← h.2, if_pos hb, if_neg h1, if_neg hc,
            List.countP_cons_of_pos _ _ hb, List.count_cons_of_ne (Ne.symm h1),
            hcnt.1, hcnt.2]
          omega
      · rename_i h2
        split at h
        · rename_i h3
          cases hl : lFoldWhile isLoop2Case lv lo with
          | stop out e => rw [hl] at h; simp at h
          | go a b =>
            rw [hl] at h
            simp only [LFlow.go.injEq] at h
            obtain ⟨pre, p1, p2, p3, _⟩ := lFoldWhile_go _ _ _ _ _ hl
            have hb : isBinary t.op = true := by
              rw [isBinary_iff]; rcases h3 with e | e
              · exact Or.inr (Or.inr (Or.inl e))
              · exact Or.inr (Or.inr (Or.inr e))
            have hc : t.op ≠ ')' := by
              intro e; rw [e] at hb; exact absurd hb (by decide)
            have hcnt := counts_of_folded pre b _ p2
            rw [← p1] at hcnt
            rw [← h.1, ← h.2, if_pos hb, if_neg h1, if_neg hc,
              List.countP_cons_of_pos _ _ hb, List.count_cons_of_ne (Ne.symm h1),
              hcnt.1, hcnt.2]
            omega
        · rename_i h3
          have hnb : ¬ isBinary t.op = true := by
            rw [isBinary_iff]
            intro e
            rcases e with e | e | e | e
            · exact h2 (Or.inl e)
            · exact h2 (Or.inr e)
            · exact h3 (Or.inl e)
            · exact h3 (Or.inr e)
          split at h
          · rename_i h4
            unfold lCloseParen at h
            cases hl : lFoldWhile isNotOpen lv lo with
            | stop out e => rw [hl] at h; simp at h
            | go a b =>
              rw [hl] at h
              obtain ⟨pre, p1, p2, p3, p4⟩ := lFoldWhile_go _ _ _ _ _ hl
              have hcnt := counts_of_folded pre b _ p2
              rw [← p1] at hcnt
              cases b with
              | nil => simp at h
              | cons c b' =>
                simp only [LFlow.go.injEq] at h
                rcases p4 with p4 | ⟨c', rest', e1, e2⟩
                · simp at p4
                · simp only [List.cons.injEq] at e1
                  rw [← e1.1] at e2
                  have hc : c = '(' := by
                    unfold isNotOpen at e2
                    simpa using e2
                  rw [hc, List.countP_cons_of_neg _ _ (by decide),
                    List.count_cons_self] at hcnt
                  rw [← h.1, ← h.2, if_neg hnb, if_neg h1, if_pos h4, hcnt.1, hcnt.2]
                  omega
          · rename_i h4
            simp only [LFlow.go.injEq] at h
            rw [← h.1, ← h.2, if_neg hnb, if_neg h1, if_neg h4]
            omega
  | ERROR => rw [hgt, ht] at h; simp at h
  | EOLN => rw [hgt, ht] at h; simp at h
  | QUIT => rw [hgt, ht] at h; simp at h
  | HELP => rw [hgt, ht] at h; simp at h
  | EOFILE => rw [hgt, ht] at h; simp at h

theorem lToken_stop_out (tok : Token) (lv : List Int) (lo : List Char) (out : List Msg)
    (e : Ending) (h : lToken tok lv lo = .stop out e) (v : Int) : Msg.result v ∉ out := by
  unfold lToken at h
  cases ht : tok.getType with
  | VALUE => rw [ht] at h; simp at h
  | OPERATOR =>
    rw [ht] at h
    simp only [] at h
    unfold lOperator at h
    split at h
    · simp at h
    · split at h
      · cases hl : lFoldWhile isLoop1Case lv lo with
        | stop out' e' =>
          rw [hl] at h
          simp only [LFlow.stop.injEq] at h
          rcases lFoldWhile_stop _ _ _ _ _ hl with h' | h'
          · rw [← h.1, h'.1]; simp
          · rw [← h.1, h'.1]; simp
        | go a b => rw [hl] at h; simp at h
      · split at h
        · cases hl : lFoldWhile isLoop2Case lv lo with
          | stop out' e' =>
            rw [hl] at h
            simp only [LFlow.stop.injEq] at h
            rcases lFoldWhile_stop _ _ _ _ _ hl with h' | h'
            · rw [← h.1, h'.1]; simp
            · rw [← h.1, h'.1]; simp
          | go a b => rw [hl] at h; simp at h
        · split at h
          · unfold lCloseParen at h
            cases hl : lFoldWhile isNotOpen lv lo with
            | stop out' e' =>
              rw [hl] at h
              simp only [LFlow.stop.injEq] at h
              rcases lFoldWhile_stop _ _ _ _ _ hl with h' | h'
              · rw [← h.1, h'.1]; simp
              · rw [← h.1, h'.1]; simp
            | go a b =>
              rw [hl] at h
              cases b with
              | nil =>
                simp only [LFlow.stop.injEq] at h
                rw [← h.1]; simp
              | cons c b' => simp at h
          · simp at h
  | ERROR => rw [ht] at h; simp only [LFlow.stop.injEq] at h; rw [← h.1]; simp
  | EOLN => rw [ht] at h; simp only [LFlow.stop.injEq] at h; rw [← h.1]; simp
  | QUIT => rw [ht] at h; simp only [LFlow.stop.injEq] at h; rw [← h.1]; simp
  | HELP => rw [ht] at h; simp only [LFlow.stop.injEq] at h; rw [← h.1]; simp
  | EOFILE => rw [ht] at h; simp only [LFlow.stop.injEq] at h; rw [← h.1]; simp

theorem countValues_cons (t : Token) (ts : List Token) :
    countValues (t :: ts) = countValues [t] + countValues ts := by
  unfold countValues
  rw [← List.countP_append]
  rfl

theorem countBinary_cons (t : Token) (ts : List Token) :
    countBinary (t :: ts) = countBinary [t] + countBinary ts := by
  unfold countBinary
  rw [← List.countP_append]
  rfl

theorem countOperator_cons (c : Char) (t : Token) (ts : List Token) :
    countOperator c (t :: ts) = countOperator c [t] + countOperator c ts := by
  unfold countOperator
  rw [← List.countP_append]
  rfl

/-- A run on lists over the tokens of an expression line that prints a result
has balanced counts, relative to the stacks it starts from. -/
theorem lRun_result_counts (dbg : Bool) (body : List Token) :
    ∀ (lv : List Int) (lo : List Char),
      (∀ t ∈ body, t.type = .VALUE ∨ t.type = .OPERATOR) →
      (∃ v, Msg.result v ∈ (lRun dbg (body ++ [Token.ofType .EOLN]) lv lo).1) →
      lv.length + countValues body = 1 + countBinary body + lo.countP isBinary ∧
      lo.count '(' + countOperator '(' body = countOperator ')' body := by
  induction body with
  | nil =>
    intro lv lo _ hres
    obtain ⟨v, hv⟩ := hres
    have he : (Token.ofType .EOLN).equalsType .EOLN = true := rfl
    rw [List.nil_append, lRun_cons, if_pos he] at hv
    unfold lFinish at hv
    cases hl : lFoldWhile (fun _ => true) lv lo with
    | stop out e =>
      rw [hl] at hv
      rcases lFoldWhile_stop _ _ _ _ _ hl with h' | h'
      · simp only [] at hv; rw [h'.1] at hv; simp at hv
      · simp only [] at hv; rw [h'.1] at hv; simp at hv
    | go a b =>
      rw [hl] at hv
      obtain ⟨pre, p1, p2, p3, p4⟩ := lFoldWhile_go _ _ _ _ _ hl
      have hb : b = [] := by
        rcases p4 with p4 | ⟨_, _, _, p4⟩
        · exact p4
        · simp at p4
      have hcnt := counts_of_folded pre b _ p2
      rw [← p1, hb] at hcnt
      match a, hv, p3 with
      | [], hv, _ => simp at hv
      | [x], _, p3 =>
        have e1 : countValues [] = 0 := rfl
        have e2 : countBinary [] = 0 := rfl
        have e3 : countOperator '(' [] = 0 := rfl
        have e4 : countOperator ')' [] = 0 := rfl
        have z1 : List.countP isBinary ([] : List Char) = 0 := rfl
        have z2 : List.count '(' ([] : List Char) = 0 := rfl
        have z3 : ([x] : List Int).length = 1 := rfl
        have h1 := hcnt.1
        have h2 := hcnt.2
        rw [z1] at h1
        rw [z2] at h2
        rw [z3] at p3
        rw [e1, e2, e3, e4]
        omega
      | x :: y :: rest, hv, _ => simp at hv
  | cons t body ih =>
    intro lv lo hall hres
    obtain ⟨v, hv⟩ := hres
    have ht := hall t (List.mem_cons_self t body)
    have hne : t.equalsType .EOLN = false := by
      unfold Token.equalsType
      rcases ht with e | e <;> rw [e] <;> rfl
    rw [List.cons_append, lRun_cons, hne] at hv
    simp only [Bool.false_eq_true, if_false] at hv
    cases hl : lToken t lv lo with
    | stop out e =>
      rw [hl] at hv
      simp only [List.mem_append] at hv
      rcases hv with hv | hv
      · exact absurd hv (not_result_mem_logOf dbg t v)
      · exact absurd hv (lToken_stop_out t lv lo out e hl v)
    | go lv' lo' =>
      rw [hl] at hv
      simp only [List.mem_append] at hv
      rcases hv with hv | hv
      · exact absurd hv (not_result_mem_logOf dbg t v)
      · have hi := ih lv' lo' (fun x hx => hall x (List.mem_cons_of_mem t hx)) ⟨v, hv⟩
        have hc := lToken_go_counts t lv lv' lo lo' hl
        rw [countValues_cons t body, countBinary_cons t body, countOperator_cons '(' t body,
          countOperator_cons ')' t body]
        omega

theorem counts_of_line (body : List Token) :
    countValues (body ++ [Token.ofType .EOLN]) = countValues body ∧
    countBinary (body ++ [Token.ofType .EOLN]) = countBinary body ∧
    countOperator '(' (body ++ [Token.ofType .EOLN]) = countOperator '(' body ∧
    countOperator ')' (body ++ [Token.ofType .EOLN]) = countOperator ')' body := by
  unfold countValues countBinary countOperator
  refine ⟨?_, ?_, ?_, ?_⟩ <;> rw [List.countP_append] <;> rfl

/-- C19: if `processExpression`, called on the tokens of an expression line
(Value and Operator tokens, then end-of-line), prints a result, then the
Value tokens are one more than the tokens `+ - * /` and the tokens `(` are as
many as the tokens `)`. -/
theorem result_implies_balanced (dbg : Bool) (tok : Token) (toks : List Token)
    (tr : TokenReader) (w : World) (out : List Msg) (v : Int)
    (hs : Supplies tr w.stdin toks) (hline : IsExpressionLine (tok :: toks))
    (hout : (processExpression dbg tok tr w).world.stdout = w.stdout ++ out)
    (hres : Msg.result v ∈ out) :
    countValues (tok :: toks) = countBinary (tok :: toks) + 1 ∧
    countOperator '(' (tok :: toks) = countOperator ')' (tok :: toks) := by
  have hag : (processExpression dbg tok tr w).world.stdout =
      w.stdout ++ (lRun dbg (tok :: toks) [] []).1 := by
    rcases processExpression_run dbg tok toks tr w hs hline with h | ⟨_, _, out', hout', hno⟩
    · exact h.2
    · rw [hout] at hout'
      rw [← List.append_cancel_left hout'] at hno
      exact absurd hres (hno v)
  rw [hout] at hag
  have ho := List.append_cancel_left hag
  obtain ⟨body, hb, hall⟩ := hline
  rw [ho, hb] at hres
  have h := lRun_result_counts dbg body [] [] hall ⟨v, hres⟩
  have hc := counts_of_line body
  rw [hb, hc.1, hc.2.1, hc.2.2.1, hc.2.2.2]
  have z1 : List.countP isBinary ([] : List Char) = 0 := rfl
  have z2 : List.count '(' ([] : List Char) = 0 := rfl
  have z3 : ([] : List Int).length = 0 := rfl
  rw [z1, z2, z3] at h
  omega

set_option maxRecDepth 100000 in
/-- C19 (witness): the line `( 3 + 4 )` prints `Result: 7`; it has two Value
tokens, one binary operator and one parenthesis of each kind. -/
theorem result_implies_balanced_witness :
    countValues (Token.ofOp '(' ::
      [Token.ofValue 3, Token.ofOp '+', Token.ofValue 4, Token.ofOp ')', Token.ofType .EOLN]) =
      countBinary (Token.ofOp '(' ::
        [Token.ofValue 3, Token.ofOp '+', Token.ofValue 4, Token.ofOp ')',
          Token.ofType .EOLN]) + 1 ∧
    countOperator '(' (Token.ofOp '(' ::
      [Token.ofValue 3, Token.ofOp '+', Token.ofValue 4, Token.ofOp ')', Token.ofType .EOLN]) =
      countOperator ')' (Token.ofOp '(' ::
        [Token.ofValue 3, Token.ofOp '+', Token.ofValue 4, Token.ofOp ')',
          Token.ofType .EOLN]) :=
  result_implies_balanced false (Token.ofOp '(')
    [Token.ofValue 3, Token.ofOp '+', Token.ofValue 4, Token.ofOp ')', Token.ofType .EOLN]
    { inputLine := "( 3 + 4 )".toList, needLine := false, pos := 1, length := 9 }
    { stdin := [], stdout := [Msg.prompt] } [Msg.result 7] 7
    (by unfold Supplies Supplies Supplies Supplies Supplies Supplies
        with_unfolding_all decide)
    ⟨[Token.ofOp '(', Token.ofValue 3, Token.ofOp '+', Token.ofValue 4, Token.ofOp ')'],
      rfl, by decide⟩
    (by with_unfolding_all decide) (by decide)

/-! ## The error paths of `processExpression` -/

theorem exprLoop_eoln (dbg : Bool) (fuel : Nat) (tok : Token) (tr : TokenReader) (w : World)
    (vs : int_vector) (os : char_vector) (h : tok.equalsType .EOLN = true) :
    exprLoop dbg (fuel + 1) tok tr w vs os =
      { ending := (finish vs os).2, tr := tr, world := w.print (finish vs os).1 } := by
  rw [exprLoop_succ, if_pos h]

theorem exprLoop_stop (dbg : Bool) (fuel : Nat) (tok : Token) (tr : TokenReader) (w : World)
    (vs : int_vector) (os : char_vector) (out : List Msg) (e : Ending)
    (h : tok.equalsType .EOLN = false) (hp : processToken tok vs os = .stop out e) :
    exprLoop dbg (fuel + 1) tok tr w vs os =
      { ending := e, tr := tr, world := (w.print (logOf dbg tok)).print out } := by
  rw [exprLoop_succ, h, hp]
  simp only [Bool.false_eq_true, if_false]

theorem processToken_ofOp (op : Char) (vs : int_vector) (os : char_vector) :
    processToken (Token.ofOp op) vs os = processOperator op vs os := rfl

/-- C3 (the code at the failing input): `eval` has no defined result for a
division by zero, `tryPopEval` catches no exception there, and the line
`10 / 0` prints neither an error message nor a result: the run of
`processExpression` does not return. -/
theorem division_by_zero_undefined :
    (∀ l : Int, eval 0 l '/' = .undefined) ∧
    tryPopEval ⟨[10, 0], 2, 2⟩ ⟨['/'], 1, 2⟩ = .stop [] .undefined ∧
    mainIteration false (typed "10 / 0") =
      (.aborted .undefined, { stdin := [], stdout := [Msg.prompt] }) := by
  refine ⟨eval_div_zero, ?_, ?_⟩ <;> with_unfolding_all decide

/-- C7 (the code at the failing input): on the line `( )` the read
`valueStack.back()` after the final drain throws on the empty value stack,
outside every `try`: the exception leaves `processExpression`. -/
theorem empty_parentheses_throw :
    finish (Vector.newDefault) (Vector.newDefault) =
      ([], .threw .IllegalOperationOnCurrentState) ∧
    mainIteration false (typed "( )") =
      (.aborted (.threw .IllegalOperationOnCurrentState),
        { stdin := [], stdout := [Msg.prompt] }) := by
  constructor <;> with_unfolding_all decide

/-- C5: when the end of the line is reached and the final drain of the
operator stack succeeds, `processExpression` prints `Result:` with the value
left when exactly one value is left, and `Error: Not enough operators.`
without any result when more than one is left. The line `3 4` prints the
error. -/
theorem result_check (vs : int_vector) (os : char_vector) (st : Stacks) (lv' : List Int)
    (hdrain : foldWhile (fun _ => true) (os.inUse + 1) vs os = .go st)
    (hv : st.1.HoldsStack lv') :
    (∀ x, lv' = [x] → finish vs os = ([Msg.result x], .returned)) ∧
    (2 ≤ lv'.length → finish vs os = ([Msg.notEnoughOperators], .returned)) ∧
    (∀ dbg fuel tok tr w, tok.equalsType .EOLN = true →
      exprLoop dbg (fuel + 1) tok tr w vs os =
        { ending := (finish vs os).2, tr := tr, world := w.print (finish vs os).1 }) ∧
    mainIteration false (typed "3 4") =
      (.continues, { stdin := [], stdout := [Msg.prompt, Msg.notEnoughOperators] }) := by
  refine ⟨?_, ?_, ?_, ?_⟩
  · intro x hx
    subst hx
    unfold finish
    rw [hdrain]
    simp only []
    rw [hv.stack_back]
    simp only []
    rw [hv.stack_pop_back.empty_nil]
    rfl
  · intro hlen
    match lv', hv, hlen with
    | x :: y :: rest, hv, _ =>
      unfold finish
      rw [hdrain]
      simp only []
      rw [hv.stack_back]
      simp only []
      rw [hv.stack_pop_back.empty_cons]
      rfl
  · intro dbg fuel tok tr w he
    exact exprLoop_eoln dbg fuel tok tr w vs os he
  · with_unfolding_all decide

/-- C5 (witness): the final stage on the stacks left by the lines `3 4` and
`7`. -/
theorem result_check_witness :
    finish ⟨[3, 4], 2, 2⟩ ⟨[], 0, 2⟩ = ([Msg.notEnoughOperators], .returned) ∧
    finish ⟨[7], 1, 2⟩ ⟨[], 0, 2⟩ = ([Msg.result 7], .returned) :=
  ⟨(result_check ⟨[3, 4], 2, 2⟩ ⟨[], 0, 2⟩ (⟨[3, 4], 2, 2⟩, ⟨[], 0, 2⟩) [4, 3]
      (by decide) ⟨rfl, rfl, by norm_num⟩).2.1 (by decide),
   (result_check ⟨[7], 1, 2⟩ ⟨[], 0, 2⟩ (⟨[7], 1, 2⟩, ⟨[], 0, 2⟩) [7]
      (by decide) ⟨rfl, rfl, by norm_num⟩).1 7 rfl⟩

theorem lFoldWhile_congr (f g : Char → Bool) (lo : List Char) :
    ∀ lv : List Int, (∀ c ∈ lo, f c = g c) → lFoldWhile f lv lo = lFoldWhile g lv lo := by
  induction lo with
  | nil => intro lv _; rfl
  | cons op lo ih =>
    intro lv h
    simp only [lFoldWhile]
    rw [h op (List.mem_cons_self op lo)]
    by_cases hc : g op = true
    · rw [if_pos hc, if_pos hc]
      match lv with
      | [] => rfl
      | [r] => rfl
      | r :: l :: rest =>
        simp only []
        cases eval r l op with
        | throw e => rfl
        | undefined => rfl
        | ok v =>
          simp only []
          exact ih _ (fun c hc' => h c (List.mem_cons_of_mem op hc'))
    · rw [if_neg hc, if_neg hc]

/-- The loop on lists over a run of operators that it folds completely,
followed by an operator at which it stops. -/
theorem lFoldWhile_append (f : Char → Bool) (above : List Char) (c : Char)
    (below : List Char) (hc : f c = false) :
    ∀ (lv lv' : List Int), lFoldWhile f lv above = .go lv' [] →
      lFoldWhile f lv (above ++ c :: below) = .go lv' (c :: below) := by
  induction above with
  | nil =>
    intro lv lv' h
    simp only [lFoldWhile, LFlow.go.injEq, and_true] at h
    rw [List.nil_append]
    simp only [lFoldWhile]
    rw [if_neg (by rw [hc]; simp), h]
  | cons op above ih =>
    intro lv lv' h
    rw [List.cons_append]
    simp only [lFoldWhile] at h ⊢
    by_cases hop : f op = true
    · rw [if_pos hop] at h ⊢
      match lv, h with
      | [], h => simp at h
      | [r], h => simp at h
      | r :: l :: rest, h =>
        simp only [] at h ⊢
        cases hev : eval r l op with
        | throw e => rw [hev] at h; simp at h
        | undefined => rw [hev] at h; simp at h
        | ok v =>
          rw [hev] at h
          simp only []
          exact ih _ _ h
    · rw [if_neg hop] at h
      simp at h

/-- C6: when a `)` token is processed (the values being within the capacity
of their stack) on an operator stack without `(`, and
the operators on it fold without failure, `processExpression` prints
`Error: missing an opening parenthesis` and returns without a result; when
the stack has a `(`, with the operators `above` the topmost one folding
without failure to the values `lv'`, the operators above are folded and
exactly that `(` is removed: the stacks then hold `lv'` and what was below
it. The line `)` prints the error. -/
theorem close_parenthesis (vs : int_vector) (os : char_vector) (lv : List Int)
    (lo : List Char) (hst : StacksHold (vs, os) lv lo) (hroom : vs.size ≤ vs.capacity) :
    (∀ lv' lo', '(' ∉ lo → lFoldWhile (fun _ => true) lv lo = .go lv' lo' →
      processToken (Token.ofOp ')') vs os =
        .stop [Msg.missingOpeningParenthesis] .returned) ∧
    (∀ above below lv', lo = above ++ '(' :: below → '(' ∉ above →
      lFoldWhile (fun _ => true) lv above = .go lv' [] →
      ∃ st, processToken (Token.ofOp ')') vs os = .go st ∧ StacksHold st lv' below) ∧
    (∀ dbg fuel tr w,
      processToken (Token.ofOp ')') vs os =
        .stop [Msg.missingOpeningParenthesis] .returned →
      exprLoop dbg (fuel + 1) (Token.ofOp ')') tr w vs os =
        { ending := .returned, tr := tr,
          world := (w.print (logOf dbg (Token.ofOp ')'))).print
            [Msg.missingOpeningParenthesis] }) ∧
    mainIteration false (typed ")") =
      (.continues,
        { stdin := [], stdout := [Msg.prompt, Msg.missingOpeningParenthesis] }) := by
  have hproc : processToken (Token.ofOp ')') vs os = closeParen vs os := by
    rw [processToken_ofOp]
    unfold processOperator
    rw [if_neg (by decide), if_neg (by decide), if_neg (by decide), if_pos rfl]
  have hag := (closeParen_agrees vs os lv lo hst.1 hst.2).resolve_right
    (fun h => h.1 hroom)
  refine ⟨?_, ?_, ?_, ?_⟩
  · intro lv' lo' hno hfold
    rw [hproc]
    have hcg : lFoldWhile isNotOpen lv lo = lFoldWhile (fun _ => true) lv lo := by
      apply lFoldWhile_congr
      intro c hc
      unfold isNotOpen
      have : c ≠ '(' := fun e => hno (e ▸ hc)
      simpa using this
    obtain ⟨pre, p1, p2, p3, p4⟩ := lFoldWhile_go _ _ _ _ _ hfold
    have hlo' : lo' = [] := by
      rcases p4 with p4 | ⟨_, _, _, p4⟩
      · exact p4
      · simp at p4
    unfold lCloseParen at hag
    rw [hcg, hfold, hlo'] at hag
    exact hag.of_stop
  · intro above below lv' hlo hno hfold
    rw [hproc]
    have hcg : lFoldWhile isNotOpen lv above = lFoldWhile (fun _ => true) lv above := by
      apply lFoldWhile_congr
      intro c hc
      unfold isNotOpen
      have : c ≠ '(' := fun e => hno (e ▸ hc)
      simpa using this
    have happ := lFoldWhile_append isNotOpen above '(' below (by decide) lv lv'
      (by rw [hcg]; exact hfold)
    unfold lCloseParen at hag
    rw [hlo, happ] at hag
    obtain ⟨st, h1, h2, _⟩ := hag.of_go
    exact ⟨st, h1, h2⟩
  · intro dbg fuel tr w hp
    exact exprLoop_stop dbg fuel _ tr w vs os _ _ rfl hp
  · with_unfolding_all decide

/-- C6 (witness): a `)` on the stacks left by `2 * ( 3 + 4` folds the `+`
and removes the parenthesis; on the stacks left by `3 + 4` it reports the
missing parenthesis. -/
theorem close_parenthesis_witness :
    (∃ st, processToken (Token.ofOp ')') ⟨[2, 3, 4], 3, 4⟩ ⟨['*', '(', '+'], 3, 4⟩ = .go st ∧
      StacksHold st [7, 2] ['*']) ∧
    processToken (Token.ofOp ')') ⟨[3, 4], 2, 2⟩ ⟨['+'], 1, 2⟩ =
      .stop [Msg.missingOpeningParenthesis] .returned :=
  ⟨(close_parenthesis ⟨[2, 3, 4], 3, 4⟩ ⟨['*', '(', '+'], 3, 4⟩ [4, 3, 2] ['+', '(', '*']
      ⟨⟨rfl, rfl, by norm_num⟩, ⟨rfl, rfl, by norm_num⟩⟩ (by decide)).2.1 ['+'] ['*'] [7, 2] rfl
      (by decide) (by with_unfolding_all decide),
   (close_parenthesis ⟨[3, 4], 2, 2⟩ ⟨['+'], 1, 2⟩ [4, 3] ['+']
      ⟨⟨rfl, rfl, by norm_num⟩, ⟨rfl, rfl, by norm_num⟩⟩ (by decide)).1 [7] [] (by decide)
      (by with_unfolding_all decide)⟩

/-! ## The tokens returned by `getNextToken` -/

/-- The scanning loop stops on a character that does not satisfy `p`, or at
the end of the line. -/
theorem scanWhile_stops (p : Char → Bool) (line : List Char) (len : Nat) :
    ∀ fuel pos, len - pos ≤ fuel → scanWhile p line len fuel pos < len →
      p (charAt line (scanWhile p line len fuel pos)) = false := by
  intro fuel
  induction fuel with
  | zero =>
    intro pos h h2
    rw [scanWhile_stop p line len 0 pos (fun hh => by omega)] at h2
    omega
  | succ n ih =>
    intro pos h h2
    by_cases hc : pos < len ∧ p (charAt line pos) = true
    · rw [scanWhile_step p line len n pos hc.1 hc.2] at h2 ⊢
      exact ih (pos + 1) (by omega) h2
    · rw [scanWhile_stop p line len (n + 1) pos hc] at h2 ⊢
      by_contra h3
      exact hc ⟨h2, by simpa using h3⟩

theorem scanWhile_isspace (tr : TokenReader) :
    scanWhile isspace tr.inputLine tr.length (tr.length - tr.pos) tr.pos = skipped tr :=
  scanWhile_eq isspace tr.inputLine tr.length (Or.inr (by decide)) _ _ (le_refl _)

/-- The character at the scan position reached after the white space is not
white space. -/
theorem not_isspace_at_skipped (tr : TokenReader) (h : skipped tr < tr.length) :
    isspace (charAt tr.inputLine (skipped tr)) = false := by
  rw [← scanWhile_isspace tr] at h ⊢
  exact scanWhile_stops isspace tr.inputLine tr.length _ _ (le_refl _) h

/-- The unfolding of `scanToken` at the scan position reached after the white
space. -/
theorem scanToken_eq (tr : TokenReader) (w : World) :
    scanToken tr w =
      if skipped tr ≥ tr.length then
        (Token.ofType .EOLN, { tr with needLine := true, pos := skipped tr }, w)
      else if charAt tr.inputLine (skipped tr) = 'q' ∨ charAt tr.inputLine (skipped tr) = 'Q' then
        (Token.ofType .QUIT, { tr with pos := skipped tr + 1 }, w)
      else if charAt tr.inputLine (skipped tr) = '?' then
        (Token.ofType .HELP, { tr with pos := skipped tr + 1 }, w)
      else if charAt tr.inputLine (skipped tr) = '+' ∨ charAt tr.inputLine (skipped tr) = '-' ∨
          charAt tr.inputLine (skipped tr) = '*' ∨ charAt tr.inputLine (skipped tr) = '/' ∨
          charAt tr.inputLine (skipped tr) = '(' ∨ charAt tr.inputLine (skipped tr) = ')' then
        (Token.ofOp (charAt tr.inputLine (skipped tr)), { tr with pos := skipped tr + 1 }, w)
      else if isdigit (charAt tr.inputLine (skipped tr)) then
        (Token.ofValue (digitLoop tr.inputLine tr.inputLine.length
            (((charAt tr.inputLine (skipped tr)).toNat : Int) - 48)
            (charAt tr.inputLine (skipped tr + 1)) (skipped tr + 1 + 1)).1,
          { tr with pos := (digitLoop tr.inputLine tr.inputLine.length
            (((charAt tr.inputLine (skipped tr)).toNat : Int) - 48)
            (charAt tr.inputLine (skipped tr + 1)) (skipped tr + 1 + 1)).2 - 1 }, w)
      else
        (Token.ofType .ERROR,
          { tr with
            inputLine := tr.inputLine.set
              (scanWhile (fun c => !isspace c) tr.inputLine tr.length
                (tr.length - (skipped tr + 1)) (skipped tr + 1)) NUL,
            pos := scanWhile (fun c => !isspace c) tr.inputLine tr.length
                (tr.length - (skipped tr + 1)) (skipped tr + 1) },
          w.print [Msg.unrecognizedSymbol
            (cstringAt (tr.inputLine.set
              (scanWhile (fun c => !isspace c) tr.inputLine tr.length
                (tr.length - (skipped tr + 1)) (skipped tr + 1)) NUL)
              (skipped tr + 1 - 1))]) := by
  unfold scanToken
  rw [scanWhile_isspace]

theorem isOperatorChar_iff (c : Char) :
    isOperatorChar c = true ↔
      c = '+' ∨ c = '-' ∨ c = '*' ∨ c = '/' ∨ c = '(' ∨ c = ')' := by
  unfold isOperatorChar
  simp only [Bool.or_eq_true, beq_iff_eq, or_assoc]

/-- C9: on a reader that holds a line, `getNextToken` moves over the white
space that follows the scan position and classifies the character it finds
there, consuming only that character: when the line has no character left it
returns the end-of-line token and sets `needLine` (nothing is consumed);
`q` and `Q` give the Quit token, `?` the Help token, and each of
`+ - * / ( )` the Operator token that carries that character. Nothing is
printed. -/
theorem getNextToken_classifies (tr : TokenReader) (w : World) (h : tr.needLine = false) :
    (tr.length ≤ skipped tr →
      tr.getNextToken w =
        (Token.ofType .EOLN, { tr with needLine := true, pos := skipped tr }, w)) ∧
    (skipped tr < tr.length → isspace (charAt tr.inputLine (skipped tr)) = false) ∧
    (skipped tr < tr.length →
      charAt tr.inputLine (skipped tr) = 'q' ∨ charAt tr.inputLine (skipped tr) = 'Q' →
      tr.getNextToken w = (Token.ofType .QUIT, { tr with pos := skipped tr + 1 }, w)) ∧
    (skipped tr < tr.length → charAt tr.inputLine (skipped tr) = '?' →
      tr.getNextToken w = (Token.ofType .HELP, { tr with pos := skipped tr + 1 }, w)) ∧
    (skipped tr < tr.length → isOperatorChar (charAt tr.inputLine (skipped tr)) = true →
      tr.getNextToken w =
        (Token.ofOp (charAt tr.inputLine (skipped tr)), { tr with pos := skipped tr + 1 }, w)
      ∧ (Token.ofOp (charAt tr.inputLine (skipped tr))).getType = .OPERATOR
      ∧ (Token.ofOp (charAt tr.inputLine (skipped tr))).getOperator =
          charAt tr.inputLine (skipped tr)) := by
  rw [getNextToken_of_loaded tr w h, scanToken_eq]
  refine ⟨?_, not_isspace_at_skipped tr, ?_, ?_, ?_⟩
  · intro hp
    rw [if_pos hp]
  · intro hp hc
    rw [if_neg (by omega), if_pos hc]
  · intro hp hc
    rw [if_neg (by omega), if_neg (by rw [hc]; decide), if_pos hc]
  · intro hp hc
    have hc' := (isOperatorChar_iff _).mp hc
    have h1 : ¬ (charAt tr.inputLine (skipped tr) = 'q' ∨
        charAt tr.inputLine (skipped tr) = 'Q') := by
      rcases hc' with e | e | e | e | e | e <;> rw [e] <;> decide
    have h2 : ¬ charAt tr.inputLine (skipped tr) = '?' := by
      rcases hc' with e | e | e | e | e | e <;> rw [e] <;> decide
    rw [if_neg (by omega), if_neg h1, if_neg h2, if_pos hc']
    exact ⟨rfl, rfl, rfl⟩

/-- C9 (witness): the reader at the start of the line `  + 1` returns the
Operator token `+` and stands behind it; at the end of the line it returns
the end-of-line token. -/
theorem getNextToken_classifies_witness :
    (⟨"  + 1".toList, false, 0, 5⟩ : TokenReader).getNextToken ⟨[], []⟩ =
      (Token.ofOp '+', ⟨"  + 1".toList, false, 3, 5⟩, ⟨[], []⟩) ∧
    (⟨"  + 1".toList, false, 5, 5⟩ : TokenReader).getNextToken ⟨[], []⟩ =
      (Token.ofType .EOLN, ⟨"  + 1".toList, true, 5, 5⟩, ⟨[], []⟩) :=
  ⟨((getNextToken_classifies ⟨"  + 1".toList, false, 0, 5⟩ ⟨[], []⟩ rfl).2.2.2.2
      (by decide) (by decide)).1,
   (getNextToken_classifies ⟨"  + 1".toList, false, 5, 5⟩ ⟨[], []⟩ rfl).1 (by decide)⟩

/-! ## Numbers -/

theorem lt_length_of_isdigit (line : List Char) (p : Nat)
    (hd : isdigit (charAt line p) = true) : p < line.length := by
  by_contra h
  rw [charAt_of_le line p (by omega), isdigit_NUL] at hd
  exact Bool.noConfusion hd

theorem digitsAt_cons (line : List Char) (p : Nat) (hd : isdigit (charAt line p) = true) :
    digitsAt line p = charAt line p :: digitsAt line (p + 1) := by
  have hp := lt_length_of_isdigit line p hd
  unfold digitsAt
  rw [charAt_eq_headD] at hd ⊢
  rw [List.drop_eq_getElem_cons hp] at hd ⊢
  rw [List.headD_cons] at hd ⊢
  rw [List.takeWhile_cons_of_pos hd]

theorem digitsAt_all (line : List Char) (p : Nat) : ∀ c ∈ digitsAt line p, isdigit c = true := by
  intro c hc
  unfold digitsAt at hc
  exact List.mem_takeWhile_imp hc

theorem digitsAt_length_le (line : List Char) (p : Nat) :
    (digitsAt line p).length ≤ line.length := by
  unfold digitsAt
  have h := (List.takeWhile_sublist isdigit (l := line.drop p)).length_le
  rw [List.length_drop] at h
  omega

theorem digitsAt_eq_take (line : List Char) (p : Nat) :
    digitsAt line p = (line.drop p).take (digitsAt line p).length := by
  unfold digitsAt
  generalize line.drop p = l
  induction l with
  | nil => simp
  | cons a l ih =>
    by_cases ha : isdigit a = true
    · rw [List.takeWhile_cons_of_pos ha, List.length_cons, List.take_succ_cons, ← ih]
    · rw [List.takeWhile_cons_of_neg ha]
      simp

theorem digitsAt_stop (line : List Char) (p : Nat) :
    isdigit (charAt line (p + (digitsAt line p).length)) = false := by
  rw [charAt_eq_headD, ← List.drop_drop]
  unfold digitsAt
  generalize line.drop p = l
  induction l with
  | nil => simp [isdigit_NUL]
  | cons a l ih =>
    by_cases ha : isdigit a = true
    · rw [List.takeWhile_cons_of_pos ha, List.length_cons, List.drop_succ_cons]
      exact ih
    · rw [List.takeWhile_cons_of_neg ha]
      simpa using ha

theorem first_digit_wrap (c : Char) (hc : isdigit c = true) :
    ((c.toNat : Int) - 48) = wrapInt ((c.toNat - 48 : Nat) : Int) := by
  have h := digit_toNat hc
  unfold wrapInt
  omega

theorem digitLoop_number (line : List Char) (p : Nat) (hd : isdigit (charAt line p) = true) :
    digitLoop line line.length (((charAt line p).toNat : Int) - 48)
        (charAt line (p + 1)) (p + 1 + 1) =
      (wrapInt (decimal (digitsAt line p)), p + (digitsAt line p).length + 1) := by
  have h1 := digitLoop_spec line line.length (p + 1) (((charAt line p).toNat : Int) - 48)
    (digitsAt_length_le line (p + 1))
  have h2 := foldl_digitStep _ (digitsAt_all line (p + 1)) ((charAt line p).toNat - 48)
  rw [h1, digitsAt_cons line p hd, first_digit_wrap _ hd]
  unfold decimal
  unfold digitsAt at h2 ⊢
  rw [h2, List.foldl_cons, Nat.zero_mul, Nat.zero_add, List.length_cons]
  congr 1
  omega

theorem isdigit_not_other (c : Char) (hc : isdigit c = true) :
    ¬ (c = 'q' ∨ c = 'Q') ∧ ¬ c = '?' ∧
    ¬ (c = '+' ∨ c = '-' ∨ c = '*' ∨ c = '/' ∨ c = '(' ∨ c = ')') := by
  refine ⟨?_, ?_, ?_⟩
  · rintro (e | e) <;> rw [e] at hc <;> exact absurd hc (by decide)
  · rintro e; rw [e] at hc; exact absurd hc (by decide)
  · rintro (e | e | e | e | e | e) <;> rw [e] at hc <;> exact absurd hc (by decide)

/-- C8: when, after the white space, the scan position of a reader that
holds a line stands on a decimal digit, `getNextToken` returns one Value
token and prints nothing. The run of digits it covers is the maximal one
starting there (`digitsAt`: consecutive characters of the line, all digits,
at least one, followed by a character that is no digit); the value of the
token is the result of `number = number * 10 + digit` over that run in `int`
arithmetic, that is the decimal value of the run stored in an `int`, and it
is the decimal value itself when that is below `2 ^ 31`; the scan position
is left on the first character after the run. -/
theorem getNextToken_number (tr : TokenReader) (w : World) (h : tr.needLine = false)
    (hp : skipped tr < tr.length)
    (hd : isdigit (charAt tr.inputLine (skipped tr)) = true) :
    tr.getNextToken w =
      (Token.ofValue (wrapInt (decimal (digitsAt tr.inputLine (skipped tr)))),
        { tr with pos := skipped tr + (digitsAt tr.inputLine (skipped tr)).length }, w) ∧
    (Token.ofValue (wrapInt (decimal (digitsAt tr.inputLine (skipped tr))))).getType = .VALUE ∧
    wrapInt (decimal (digitsAt tr.inputLine (skipped tr))) =
      (digitsAt tr.inputLine (skipped tr)).foldl digitStep 0 ∧
    (decimal (digitsAt tr.inputLine (skipped tr)) < 2 ^ 31 →
      wrapInt (decimal (digitsAt tr.inputLine (skipped tr))) =
        decimal (digitsAt tr.inputLine (skipped tr))) ∧
    digitsAt tr.inputLine (skipped tr) =
      (tr.inputLine.drop (skipped tr)).take (digitsAt tr.inputLine (skipped tr)).length ∧
    0 < (digitsAt tr.inputLine (skipped tr)).length ∧
    (∀ c ∈ digitsAt tr.inputLine (skipped tr), isdigit c = true) ∧
    isdigit (charAt tr.inputLine
      (skipped tr + (digitsAt tr.inputLine (skipped tr)).length)) = false := by
  have hn := isdigit_not_other _ hd
  refine ⟨?_, rfl, ?_, ?_, digitsAt_eq_take _ _, ?_, digitsAt_all _ _, digitsAt_stop _ _⟩
  · rw [getNextToken_of_loaded tr w h, scanToken_eq, if_neg (by omega), if_neg hn.1,
      if_neg hn.2.1, if_neg hn.2.2, if_pos hd, digitLoop_number _ _ hd, Nat.add_sub_cancel]
  · have h0 : (0 : Int) = wrapInt ((0 : Nat) : Int) := by
      unfold wrapInt
      omega
    rw [h0, foldl_digitStep _ (digitsAt_all _ _)]
    unfold decimal
    exact Eq.refl _
  · intro hlt
    apply wrapInt_of_range
    · omega
    · omega
  · rw [digitsAt_cons _ _ hd, List.length_cons]
    omega

/-- C8 (witness): on the line `12 + 3x` the reader returns the Value token
12 and stands on the blank after it. -/
theorem getNextToken_number_witness :
    (⟨"12 + 3x".toList, false, 0, 7⟩ : TokenReader).getNextToken ⟨[], []⟩ =
      (Token.ofValue (wrapInt (decimal (digitsAt "12 + 3x".toList 0))),
        ⟨"12 + 3x".toList, false, 2, 7⟩, ⟨[], []⟩) ∧
    wrapInt (decimal (digitsAt "12 + 3x".toList 0)) = 12 := by
  have h := getNextToken_number ⟨"12 + 3x".toList, false, 0, 7⟩ ⟨[], []⟩ rfl
    (by decide) (by decide)
  exact ⟨h.1, h.2.2.2.1 (by decide)⟩

/-! ## Unrecognized symbols -/

theorem takeWhile_eq_take {α : Type} (p : α → Bool) (l : List α) :
    l.takeWhile p = l.take (l.takeWhile p).length := by
  induction l with
  | nil => simp
  | cons a l ih =>
    by_cases ha : p a = true
    · rw [List.takeWhile_cons_of_pos ha, List.length_cons, List.take_succ_cons, ← ih]
    · rw [List.takeWhile_cons_of_neg ha]
      simp

/-- Writing the terminator at index `k` of a buffer that has no terminator
before it leaves the C string made of the first `k` characters. -/
theorem takeWhile_set_NUL (l : List Char) :
    ∀ k, (∀ c ∈ l.take k, c ≠ NUL) →
      (l.set k NUL).takeWhile (fun c => c != NUL) = l.take k := by
  induction l with
  | nil => intro k _; simp
  | cons a l ih =>
    intro k h
    cases k with
    | zero => simp
    | succ k =>
      have ha : (fun c => c != NUL) a = true := by
        have := h a (by simp)
        simpa using this
      rw [List.set_cons_succ, @List.takeWhile_cons_of_pos _ (fun c => c != NUL) a _ ha,
        List.take_succ_cons,
        ih k (fun c hc => h c (by simp [hc]))]

/-- No character before index `strlen` is the terminator. -/
theorem no_NUL_before_strlen (l : List Char) : ∀ c ∈ l.take (strlen l), c ≠ NUL := by
  intro c hc
  unfold strlen at hc
  rw [← takeWhile_eq_take] at hc
  have := List.mem_takeWhile_imp hc
  simpa using this

theorem runAt_eq_take (p : Char → Bool) (line : List Char) (len pos : Nat) :
    runAt p line len pos = (line.drop pos).take (runAt p line len pos).length := by
  unfold runAt
  have hX : (List.takeWhile p ((line.take len).drop pos)).length ≤ len - pos := by
    have h := (List.takeWhile_sublist p (l := (line.take len).drop pos)).length_le
    rw [List.length_drop, List.length_take] at h
    omega
  have h2 := takeWhile_eq_take p ((line.take len).drop pos)
  generalize (List.takeWhile p ((line.take len).drop pos)).length = n at h2 hX ⊢
  rw [h2, List.drop_take, List.take_take, Nat.min_eq_left hX]

theorem runAt_mem_take (p : Char → Bool) (line : List Char) (len pos : Nat) (hpos : pos ≤ len) :
    ∀ c ∈ (line.drop pos).take (runAt p line len pos).length, c ∈ line.take len := by
  intro c hc
  have h1 := runAt_length_le p line len pos
  have h2 : (line.drop pos).take (runAt p line len pos).length =
      (line.take (pos + (runAt p line len pos).length)).drop pos := by
    rw [List.drop_take, Nat.add_sub_cancel_left]
  rw [h2] at hc
  have h3 := List.mem_of_mem_drop hc
  have h4 : line.take (pos + (runAt p line len pos).length) =
      (line.take len).take (pos + (runAt p line len pos).length) := by
    rw [List.take_take, Nat.min_eq_left (by omega)]
  rw [h4] at h3
  exact List.mem_of_mem_take h3

/-- The C string printed by the error branch: the run of characters that are
not white space. -/
theorem cstringAt_set (line : List Char) (pos : Nat) (hpos : pos ≤ strlen line) :
    cstringAt (line.set (pos + (runAt (fun c => !isspace c) line (strlen line) pos).length) NUL)
        pos =
      runAt (fun c => !isspace c) line (strlen line) pos := by
  unfold cstringAt
  rw [List.drop_set, if_neg (by omega), Nat.add_sub_cancel_left, takeWhile_set_NUL]
  · exact (runAt_eq_take _ _ _ _).symm
  · intro c hc
    exact no_NUL_before_strlen line c (runAt_mem_take _ line _ pos hpos c hc)

theorem runAt_cons (p : Char → Bool) (line : List Char) (len pos : Nat)
    (h1 : pos < len) (h2 : pos < line.length) (h3 : p (charAt line pos) = true) :
    runAt p line len pos = charAt line pos :: runAt p line len (pos + 1) := by
  unfold runAt
  rw [drop_take_cons line len pos h1 h2, List.takeWhile_cons_of_pos h3]

theorem runAt_all (p : Char → Bool) (line : List Char) (len pos : Nat) :
    ∀ c ∈ runAt p line len pos, p c = true := by
  intro c hc
  unfold runAt at hc
  exact List.mem_takeWhile_imp hc

/-- C10: when the first character after the white space, on a reader that
holds a line, is neither `q`, `Q`, `?`, an operator character nor a decimal
digit, `getNextToken` returns the Error token, prints the message for the
unrecognized symbol with exactly the maximal run of characters that are not
white space starting at that character (the run starts with that character,
holds no white space, and ends at the end of the line or before a white
space character), and leaves the scan position at the end of that run, which
is not beyond the length of the line; the terminator is written there. -/
theorem getNextToken_unrecognized (tr : TokenReader) (w : World) (h : tr.Loaded)
    (hp : skipped tr < tr.length)
    (hq : charAt tr.inputLine (skipped tr) ≠ 'q' ∧ charAt tr.inputLine (skipped tr) ≠ 'Q' ∧
      charAt tr.inputLine (skipped tr) ≠ '?')
    (ho : isOperatorChar (charAt tr.inputLine (skipped tr)) = false)
    (hd : isdigit (charAt tr.inputLine (skipped tr)) = false) :
    tr.getNextToken w =
      (Token.ofType .ERROR,
        { tr with
          inputLine := tr.inputLine.set (skipped tr +
            (runAt (fun c => !isspace c) tr.inputLine tr.length (skipped tr)).length) NUL,
          pos := skipped tr +
            (runAt (fun c => !isspace c) tr.inputLine tr.length (skipped tr)).length },
        w.print [Msg.unrecognizedSymbol
          (runAt (fun c => !isspace c) tr.inputLine tr.length (skipped tr))]) ∧
    (w.print [Msg.unrecognizedSymbol
        (runAt (fun c => !isspace c) tr.inputLine tr.length (skipped tr))]).stdout =
      w.stdout ++ [Msg.unrecognizedSymbol
        (runAt (fun c => !isspace c) tr.inputLine tr.length (skipped tr))] ∧
    skipped tr + (runAt (fun c => !isspace c) tr.inputLine tr.length (skipped tr)).length
      ≤ tr.length ∧
    (runAt (fun c => !isspace c) tr.inputLine tr.length (skipped tr)).head? =
      some (charAt tr.inputLine (skipped tr)) ∧
    runAt (fun c => !isspace c) tr.inputLine tr.length (skipped tr) =
      (tr.inputLine.drop (skipped tr)).take
        (runAt (fun c => !isspace c) tr.inputLine tr.length (skipped tr)).length ∧
    (∀ c ∈ runAt (fun c => !isspace c) tr.inputLine tr.length (skipped tr),
      isspace c = false) ∧
    (skipped tr + (runAt (fun c => !isspace c) tr.inputLine tr.length (skipped tr)).length
        < tr.length →
      isspace (charAt tr.inputLine (skipped tr +
        (runAt (fun c => !isspace c) tr.inputLine tr.length (skipped tr)).length)) = true) := by
  have hlen : tr.length ≤ tr.inputLine.length := by
    rw [h.2]
    exact strlen_le _
  have hsp := not_isspace_at_skipped tr hp
  have hnsp : (fun c => !isspace c) (charAt tr.inputLine (skipped tr)) = true := by
    simp only [hsp, Bool.not_false]
  have hcons := runAt_cons (fun c => !isspace c) tr.inputLine tr.length (skipped tr) hp
    (by omega) hnsp
  have hscan : scanWhile (fun c => !isspace c) tr.inputLine tr.length
      (tr.length - (skipped tr + 1)) (skipped tr + 1) =
      skipped tr + (runAt (fun c => !isspace c) tr.inputLine tr.length (skipped tr)).length := by
    rw [scanWhile_eq (fun c => !isspace c) tr.inputLine tr.length (Or.inl hlen) _ _ (le_refl _),
      hcons, List.length_cons]
    omega
  have hle := runAt_length_le (fun c => !isspace c) tr.inputLine tr.length (skipped tr)
  have hop : ¬ (charAt tr.inputLine (skipped tr) = '+' ∨ charAt tr.inputLine (skipped tr) = '-' ∨
      charAt tr.inputLine (skipped tr) = '*' ∨ charAt tr.inputLine (skipped tr) = '/' ∨
      charAt tr.inputLine (skipped tr) = '(' ∨ charAt tr.inputLine (skipped tr) = ')') := by
    intro hc
    rw [(isOperatorChar_iff _).mpr hc] at ho
    exact Bool.noConfusion ho
  have hnd : ¬ isdigit (charAt tr.inputLine (skipped tr)) = true := by
    rw [hd]
    exact Bool.noConfusion
  refine ⟨?_, rfl, by omega, ?_, runAt_eq_take _ _ _ _, ?_, ?_⟩
  · rw [getNextToken_of_loaded tr w h.1, scanToken_eq, if_neg (by omega),
      if_neg (fun hc => hc.elim hq.1 hq.2.1), if_neg hq.2.2, if_neg hop, if_neg hnd, hscan,
      Nat.add_sub_cancel]
    have hcs := cstringAt_set tr.inputLine (skipped tr) (by rw [← h.2]; omega)
    rw [← h.2] at hcs
    rw [hcs]
  · rw [hcons, List.head?_cons]
  · intro c hc
    have := runAt_all _ _ _ _ c hc
    simpa using this
  · intro hlt
    rw [← hscan] at hlt ⊢
    have := scanWhile_stops (fun c => !isspace c) tr.inputLine tr.length _ _ (le_refl _) hlt
    simpa using this

/-- C10 (witness): on the line `2 ab$ 3` with the scan position behind the
`2` the reader returns the Error token and reports the symbol `ab$`. -/
theorem getNextToken_unrecognized_witness :
    (⟨"2 ab$ 3".toList, false, 1, 7⟩ : TokenReader).getNextToken ⟨[], []⟩ =
      (Token.ofType .ERROR, ⟨"2 ab$".toList ++ [NUL] ++ "3".toList, false, 5, 7⟩,
        ⟨[], [Msg.unrecognizedSymbol "ab$".toList]⟩) :=
  (getNextToken_unrecognized ⟨"2 ab$ 3".toList, false, 1, 7⟩ ⟨[], []⟩ ⟨rfl, by decide⟩
    (by decide) (by decide) (by decide) (by decide)).1

/-! ## Precedence and parentheses -/

theorem lRun_sum_of_product (dbg : Bool) (a b c : Int) :
    lRun dbg [Token.ofValue a, Token.ofOp '+', Token.ofValue b, Token.ofOp '*',
        Token.ofValue c, Token.ofType .EOLN] [] [] =
      ((if dbg then [Msg.logVal a, Msg.logOp '+', Msg.logVal b, Msg.logOp '*', Msg.logVal c]
          else []) ++ [Msg.result (wrapInt (a + wrapInt (b * c)))], .returned) := by
  cases dbg <;>
  simp [lRun, lToken, lOperator, lFoldWhile, lFinish, eval, logOf, Token.ofValue, Token.ofOp,
    Token.ofType, Token.equalsType, Token.getType, Token.getOperator, Token.getValue,
    isLoop1Case, isLoop2Case]

theorem lRun_product_of_sum (dbg : Bool) (a b c : Int) :
    lRun dbg [Token.ofOp '(', Token.ofValue a, Token.ofOp '+', Token.ofValue b, Token.ofOp ')',
        Token.ofOp '*', Token.ofValue c, Token.ofType .EOLN] [] [] =
      ((if dbg then [Msg.logOp '(', Msg.logVal a, Msg.logOp '+', Msg.logVal b, Msg.logOp ')',
          Msg.logOp '*', Msg.logVal c] else []) ++
        [Msg.result (wrapInt (wrapInt (a + b) * c))], .returned) := by
  cases dbg <;>
  simp [lRun, lToken, lOperator, lFoldWhile, lFinish, lCloseParen, eval, logOf, Token.ofValue,
    Token.ofOp, Token.ofType, Token.equalsType, Token.getType, Token.getOperator,
    Token.getValue, isLoop1Case, isLoop2Case, isNotOpen]

set_option maxRecDepth 100000 in
/-- C2: multiplication binds tighter than addition unless parentheses
override it. When the reader supplies the tokens that follow the first one on
the line `a + b * c`, `processExpression` returns after printing (behind the
debugging lines, if any) the result `a + b * c` with the product taken first;
on the line `(a + b) * c` it prints the result `(a + b) * c`; each under the
assumption that the two intermediate values fit in an `int`. The line
`3 + 4 * 2` prints the result 11 and the line `(3 + 4) * 2` the result 14. -/
theorem multiplication_binds_tighter (dbg : Bool) (a b c : Int) (tr : TokenReader)
    (w : World) :
    (Supplies tr w.stdin [Token.ofOp '+', Token.ofValue b, Token.ofOp '*', Token.ofValue c,
        Token.ofType .EOLN] →
      -2 ^ 31 ≤ b * c ∧ b * c < 2 ^ 31 → -2 ^ 31 ≤ a + b * c ∧ a + b * c < 2 ^ 31 →
      (processExpression dbg (Token.ofValue a) tr w).ending = .returned ∧
      (processExpression dbg (Token.ofValue a) tr w).world.stdout =
        w.stdout ++ ((if dbg then
          [Msg.logVal a, Msg.logOp '+', Msg.logVal b, Msg.logOp '*', Msg.logVal c]
          else []) ++ [Msg.result (a + b * c)])) ∧
    (Supplies tr w.stdin [Token.ofValue a, Token.ofOp '+', Token.ofValue b, Token.ofOp ')',
        Token.ofOp '*', Token.ofValue c, Token.ofType .EOLN] →
      -2 ^ 31 ≤ a + b ∧ a + b < 2 ^ 31 → -2 ^ 31 ≤ (a + b) * c ∧ (a + b) * c < 2 ^ 31 →
      (processExpression dbg (Token.ofOp '(') tr w).ending = .returned ∧
      (processExpression dbg (Token.ofOp '(') tr w).world.stdout =
        w.stdout ++ ((if dbg then
          [Msg.logOp '(', Msg.logVal a, Msg.logOp '+', Msg.logVal b, Msg.logOp ')',
            Msg.logOp '*', Msg.logVal c]
          else []) ++ [Msg.result ((a + b) * c)])) ∧
    mainIteration false (typed "3 + 4 * 2") =
      (.continues, { stdin := [], stdout := [Msg.prompt, Msg.result 11] }) ∧
    mainIteration false (typed "(3 + 4) * 2") =
      (.continues, { stdin := [], stdout := [Msg.prompt, Msg.result 14] }) := by
  refine ⟨?_, ?_, ?_, ?_⟩
  · intro hs h1 h2
    have hag := processExpression_agrees dbg (Token.ofValue a) _ tr w hs
      ⟨[Token.ofValue a, Token.ofOp '+', Token.ofValue b, Token.ofOp '*', Token.ofValue c],
        rfl, by simp [Token.ofValue, Token.ofOp]⟩ (by simp)
    rw [lRun_sum_of_product, wrapInt_of_range h1.1 h1.2, wrapInt_of_range h2.1 h2.2] at hag
    exact hag
  · intro hs h1 h2
    have hag := processExpression_agrees dbg (Token.ofOp '(') _ tr w hs
      ⟨[Token.ofOp '(', Token.ofValue a, Token.ofOp '+', Token.ofValue b, Token.ofOp ')',
          Token.ofOp '*', Token.ofValue c],
        rfl, by simp [Token.ofValue, Token.ofOp]⟩ (by simp)
    rw [lRun_product_of_sum, wrapInt_of_range h1.1 h1.2, wrapInt_of_range h2.1 h2.2] at hag
    exact hag
  · with_unfolding_all decide
  · with_unfolding_all decide

set_option maxRecDepth 100000 in
/-- C2 (witness): after the token 3 of the line `3 + 4 * 2` the reader
supplies the other tokens and the result printed is 11; after the token `(`
of the line `(3 + 4) * 2` the result printed is 14. -/
theorem multiplication_binds_tighter_witness :
    (processExpression false (Token.ofValue 3)
        { inputLine := "3 + 4 * 2".toList, needLine := false, pos := 1, length := 9 }
        { stdin := [], stdout := [Msg.prompt] }).world.stdout =
      [Msg.prompt] ++ ((if false then
          [Msg.logVal 3, Msg.logOp '+', Msg.logVal 4, Msg.logOp '*', Msg.logVal 2]
          else []) ++ [Msg.result (3 + 4 * 2)]) ∧
    (processExpression false (Token.ofOp '(')
        { inputLine := "(3 + 4) * 2".toList, needLine := false, pos := 1, length := 11 }
        { stdin := [], stdout := [Msg.prompt] }).world.stdout =
      [Msg.prompt] ++ ((if false then
          [Msg.logOp '(', Msg.logVal 3, Msg.logOp '+', Msg.logVal 4, Msg.logOp ')',
            Msg.logOp '*', Msg.logVal 2]
          else []) ++ [Msg.result ((3 + 4) * 2)]) :=
  ⟨((multiplication_binds_tighter false 3 4 2
      { inputLine := "3 + 4 * 2".toList, needLine := false, pos := 1, length := 9 }
      { stdin := [], stdout := [Msg.prompt] }).1
      (by unfold Supplies Supplies Supplies Supplies Supplies Supplies
          with_unfolding_all decide)
      (by norm_num) (by norm_num)).2,
   ((multiplication_binds_tighter false 3 4 2
      { inputLine := "(3 + 4) * 2".toList, needLine := false, pos := 1, length := 11 }
      { stdin := [], stdout := [Msg.prompt] }).2.1
      (by unfold Supplies Supplies Supplies Supplies Supplies Supplies Supplies Supplies
          with_unfolding_all decide)
      (by norm_num) (by norm_num)).2⟩

/-! ## Expressions on the list machine -/

theorem lSteps_append (ts1 : List Token) :
    ∀ (ts2 : List Token) (vs : List Int) (os : List Char) (vs1 : List Int) (os1 : List Char),
      lSteps ts1 vs os = .go vs1 os1 → lSteps (ts1 ++ ts2) vs os = lSteps ts2 vs1 os1 := by
  induction ts1 with
  | nil =>
    intro ts2 vs os vs1 os1 h
    simp only [lSteps, LFlow.go.injEq] at h
    rw [List.nil_append, h.1, h.2]
  | cons t ts ih =>
    intro ts2 vs os vs1 os1 h
    rw [List.cons_append]
    simp only [lSteps] at h ⊢
    cases hl : lToken t vs os with
    | stop out e => rw [hl] at h; simp at h
    | go a b =>
      rw [hl] at h
      simp only [] at h ⊢
      exact ih ts2 a b vs1 os1 h

/-- The loop on lists folds the operators that are pending above `os` when
all of them are case labels. -/
theorem lFoldWhile_pending (f : Char → Bool) (os : List Char) (pend : List Char) :
    ∀ (vs w : List Int), (∀ c ∈ pend, f c = true) →
      lFoldWhile (fun _ => true) vs pend = .go w [] →
      lFoldWhile f vs (pend ++ os) = lFoldWhile f w os := by
  induction pend with
  | nil =>
    intro vs w _ h
    simp only [lFoldWhile, LFlow.go.injEq, and_true] at h
    rw [List.nil_append, h]
  | cons c pend ih =>
    intro vs w hall h
    have hc := hall c (List.mem_cons_self c pend)
    rw [List.cons_append]
    simp only [lFoldWhile, if_true] at h ⊢
    rw [if_pos hc]
    match vs, h with
    | [], h => simp at h
    | [_], h => simp at h
    | r :: l :: rest, h =>
      simp only [] at h ⊢
      cases he : eval r l c with
      | throw e => rw [he] at h; simp at h
      | undefined => rw [he] at h; simp at h
      | ok x =>
        rw [he] at h
        simp only [] at h ⊢
        exact ih _ w (fun d hd => hall d (List.mem_cons_of_mem c hd)) h

/-- The loop on lists does nothing when the top operator is no case label. -/
theorem lFoldWhile_top (f : Char → Bool) (vs : List Int) (os : List Char)
    (h : ∀ c ∈ os.head?, f c = false) : lFoldWhile f vs os = .go vs os := by
  cases os with
  | nil => rfl
  | cons c os =>
    have hc := h c (by simp)
    simp only [lFoldWhile]
    rw [if_neg (by rw [hc]; simp)]

theorem isBinary_of_additive {c : Char} (h : isAdditive c = true) : isBinary c = true := by
  unfold isAdditive at h
  unfold isBinary
  simp only [Bool.or_eq_true, beq_iff_eq] at h ⊢
  rcases h with h | h
  · exact Or.inl (Or.inl (Or.inl h))
  · exact Or.inl (Or.inl (Or.inr h))

theorem isBinary_of_multiplicative {c : Char} (h : isMultiplicative c = true) :
    isBinary c = true := by
  unfold isMultiplicative at h
  unfold isBinary
  simp only [Bool.or_eq_true, beq_iff_eq] at h ⊢
  rcases h with h | h
  · exact Or.inl (Or.inr h)
  · exact Or.inr h

theorem not_multiplicative_of_additive {c : Char} (h : isAdditive c = true) :
    isMultiplicative c = false := by
  unfold isAdditive at h
  simp only [Bool.or_eq_true, beq_iff_eq] at h
  rcases h with h | h <;> rw [h] <;> decide

theorem not_additive_of_multiplicative {c : Char} (h : isMultiplicative c = true) :
    isAdditive c = false := by
  unfold isMultiplicative at h
  simp only [Bool.or_eq_true, beq_iff_eq] at h
  rcases h with h | h <;> rw [h] <;> decide

theorem Expression.pendable_binary (e : Expression) (c : Char) (h : e.pendable c = true) :
    isBinary c = true := by
  cases e with
  | lit ds => exact Bool.noConfusion h
  | paren e => exact Bool.noConfusion h
  | bin op l r =>
    unfold Expression.pendable at h
    simp only [] at h
    split at h
    · exact h
    · exact isBinary_of_multiplicative h

theorem Expression.pendable_of_term (e : Expression) (c : Char) (ht : e.isTerm = true)
    (h : e.pendable c = true) : isMultiplicative c = true := by
  cases e with
  | lit ds => exact Bool.noConfusion h
  | paren e => exact Bool.noConfusion h
  | bin op l r =>
    unfold Expression.isTerm at ht
    unfold Expression.pendable at h
    simp only [] at h ht
    rw [if_neg (by rw [not_additive_of_multiplicative ht]; simp)] at h
    exact h

theorem Expression.pendable_of_factor (e : Expression) (c : Char) (ht : e.isFactor = true) :
    e.pendable c = false := by
  cases e with
  | lit ds => rfl
  | paren e => rfl
  | bin op l r => exact Bool.noConfusion ht

theorem lSteps_cons (t : Token) (ts : List Token) (vs : List Int) (os : List Char) :
    lSteps (t :: ts) vs os =
      match lToken t vs os with
      | .stop out e => .stop out e
      | .go vs' os' => lSteps ts vs' os' := rfl

theorem lToken_ofValue (x : Int) (vs : List Int) (os : List Char) :
    lToken (Token.ofValue x) vs os = .go (x :: vs) os := rfl

theorem lToken_ofOp (c : Char) (vs : List Int) (os : List Char) :
    lToken (Token.ofOp c) vs os = lOperator c vs os := rfl

theorem lOperator_open (vs : List Int) (os : List Char) :
    lOperator '(' vs os = .go vs ('(' :: os) := rfl

theorem lOperator_additive (op : Char) (h : isAdditive op = true) (vs : List Int)
    (os : List Char) :
    lOperator op vs os =
      match lFoldWhile isLoop1Case vs os with
      | .stop out e => .stop out e
      | .go vs' os' => .go vs' (op :: os') := by
  unfold isAdditive at h
  simp only [Bool.or_eq_true, beq_iff_eq] at h
  unfold lOperator
  rw [if_neg (by rcases h with h | h <;> rw [h] <;> decide), if_pos h]

theorem lOperator_multiplicative (op : Char) (h : isMultiplicative op = true) (vs : List Int)
    (os : List Char) :
    lOperator op vs os =
      match lFoldWhile isLoop2Case vs os with
      | .stop out e => .stop out e
      | .go vs' os' => .go vs' (op :: os') := by
  unfold isMultiplicative at h
  simp only [Bool.or_eq_true, beq_iff_eq] at h
  unfold lOperator
  rw [if_neg (by rcases h with h | h <;> rw [h] <;> decide),
    if_neg (by rcases h with h | h <;> rw [h] <;> decide), if_pos h]

theorem lOperator_close (vs : List Int) (os : List Char) :
    lOperator ')' vs os = lCloseParen vs os := rfl

/-- The token of a binary operator, when the operators pending above `os`
are all case labels of its loop and the top of `os` is none: the pending
operators are folded and the operator is pushed. -/
theorem lOperator_binary (op : Char) (f : Char → Bool)
    (hop : ∀ vs os, lOperator op vs os =
      match lFoldWhile f vs os with
      | .stop out e => .stop out e
      | .go vs' os' => .go vs' (op :: os'))
    (vs w : List Int) (pend os : List Char) (hall : ∀ c ∈ pend, f c = true)
    (htop : ∀ c ∈ os.head?, f c = false)
    (hdrain : lFoldWhile (fun _ => true) vs pend = .go w []) :
    lOperator op vs (pend ++ os) = .go w (op :: os) := by
  rw [hop, lFoldWhile_pending f os pend vs w hall hdrain, lFoldWhile_top f w os htop]

theorem Expression.value_bin (op : Char) (l r : Expression) (v : Int)
    (h : (Expression.bin op l r).value = some v) :
    ∃ a b, l.value = some a ∧ r.value = some b ∧
      (op = '/' → b ≠ 0 ∧ ¬ (a = INT_MIN ∧ b = -1)) ∧ v = applyOp op a b := by
  unfold Expression.value at h
  cases hl : l.value with
  | none => rw [hl] at h; simp at h
  | some a =>
    cases hr : r.value with
    | none => rw [hl, hr] at h; simp at h
    | some b =>
      rw [hl, hr] at h
      simp only [] at h
      by_cases hz : op = '/' ∧ (b = 0 ∨ (a = INT_MIN ∧ b = -1))
      · rw [if_pos hz] at h; simp at h
      · rw [if_neg hz] at h
        refine ⟨a, b, rfl, rfl,
          fun ho => ⟨fun hb => hz ⟨ho, Or.inl hb⟩, fun hb => hz ⟨ho, Or.inr hb⟩⟩, ?_⟩
        simp only [Option.some.injEq] at h
        exact h.symm

theorem Expression.wellFormed_bin (op : Char) (l r : Expression)
    (h : (Expression.bin op l r).WellFormed = true) :
    l.WellFormed = true ∧ r.WellFormed = true ∧
      ((isAdditive op = true ∧ r.isTerm = true) ∨
        (isMultiplicative op = true ∧ l.isTerm = true ∧ r.isFactor = true)) := by
  unfold Expression.WellFormed at h
  simp only [Bool.and_eq_true, Bool.or_eq_true] at h
  exact ⟨h.1.1, h.1.2, h.2.imp id (fun h => ⟨h.1.1, h.1.2, h.2⟩)⟩

theorem lSteps_bin (op : Char) (l r : Expression) (f : Char → Bool)
    (hop : ∀ vs os, lOperator op vs os =
      match lFoldWhile f vs os with
      | .stop out e => .stop out e
      | .go vs' os' => .go vs' (op :: os'))
    (hbin : isBinary op = true) (a b : Int)
    (hdiv : op = '/' → b ≠ 0 ∧ ¬ (a = INT_MIN ∧ b = -1))
    (vs : List Int) (os : List Char) (htop : ∀ c ∈ os.head?, f c = false)
    (vs1 : List Int) (pend1 : List Char)
    (h1 : lSteps l.tokens vs os = .go vs1 (pend1 ++ os))
    (hall1 : ∀ c ∈ pend1, f c = true)
    (hd1 : lFoldWhile (fun _ => true) vs1 pend1 = .go (a :: vs) [])
    (vs2 : List Int) (pend2 : List Char)
    (h2 : lSteps r.tokens (a :: vs) (op :: os) = .go vs2 (pend2 ++ op :: os))
    (hd2 : lFoldWhile (fun _ => true) vs2 pend2 = .go (b :: a :: vs) []) :
    lSteps (Expression.bin op l r).tokens vs os = .go vs2 ((pend2 ++ [op]) ++ os) ∧
    lFoldWhile (fun _ => true) vs2 (pend2 ++ [op]) = .go (applyOp op a b :: vs) [] := by
  constructor
  · unfold Expression.tokens
    rw [lSteps_append _ _ _ _ _ _ h1, lSteps_cons, lToken_ofOp,
      lOperator_binary op f hop vs1 (a :: vs) pend1 os hall1 htop hd1]
    simp only []
    rw [h2, List.append_assoc]
    rfl
  · rw [lFoldWhile_pending (fun _ => true) [op] pend2 vs2 (b :: a :: vs) (fun _ _ => rfl) hd2]
    simp only [lFoldWhile, if_true]
    rw [eval_binary op a b hbin hdiv]

/-- The evaluator on the tokens of an expression: started with an operator
stack `os` whose top may not stay pending below the expression, it goes on
with operators pending above `os` whose folding leaves the value of the
expression on the value stack. -/
theorem lSteps_expression (e : Expression) :
    e.WellFormed = true → ∀ (v : Int), e.value = some v →
    ∀ (vs : List Int) (os : List Char), (∀ c ∈ os.head?, e.pendable c = false) →
      ∃ vs' pend, lSteps e.tokens vs os = .go vs' (pend ++ os) ∧
        (∀ c ∈ pend, e.pendable c = true) ∧
        lFoldWhile (fun _ => true) vs' pend = .go (v :: vs) [] := by
  induction e with
  | lit ds =>
    intro _ v hv vs os _
    refine ⟨v :: vs, [], ?_, fun c hc => by simp at hc, rfl⟩
    unfold Expression.value at hv
    simp only [Option.some.injEq] at hv
    unfold Expression.tokens
    rw [lSteps_cons, lToken_ofValue, hv]
    rfl
  | paren e ih =>
    intro hwf v hv vs os _
    obtain ⟨vs1, pend1, h1, hp1, hd1⟩ := ih hwf v hv vs ('(' :: os) (by
      intro c hc
      simp only [List.head?_cons, Option.mem_def, Option.some.injEq] at hc
      rw [← hc]
      cases hq : e.pendable '(' with
      | false => rfl
      | true => exact absurd (e.pendable_binary _ hq) (by decide))
    refine ⟨v :: vs, [], ?_, fun c hc => by simp at hc, rfl⟩
    unfold Expression.tokens
    rw [lSteps_cons, lToken_ofOp, lOperator_open]
    simp only []
    rw [lSteps_append _ _ _ _ _ _ h1, lSteps_cons, lToken_ofOp, lOperator_close]
    unfold lCloseParen
    have hd2 : lFoldWhile isNotOpen vs1 pend1 = .go (v :: vs) [] := by
      rw [lFoldWhile_congr isNotOpen (fun _ => true) pend1 vs1 (fun c hc => by
        have := e.pendable_binary c (hp1 c hc)
        rw [isBinary_iff] at this
        rcases this with h | h | h | h <;> rw [h] <;> rfl)]
      exact hd1
    rw [lFoldWhile_append isNotOpen pend1 '(' os (by decide) vs1 (v :: vs) hd2]
    rfl
  | bin op l r ihl ihr =>
    intro hwf v hv vs os hctx
    obtain ⟨hwl, hwr, hcase⟩ := Expression.wellFormed_bin op l r hwf
    obtain ⟨a, b, hla, hrb, hdiv, hvab⟩ := Expression.value_bin op l r v hv
    rcases hcase with ⟨hadd, hrt⟩ | ⟨hmul, hlt, hrf⟩
    · have hpe : ∀ c, (Expression.bin op l r).pendable c = isBinary c := by
        intro c
        unfold Expression.pendable
        simp only []
        rw [if_pos hadd]
      obtain ⟨vs1, pend1, h1, hp1, hd1⟩ := ihl hwl a hla vs os (by
        intro c hc
        cases hq : l.pendable c with
        | false => rfl
        | true =>
          have := hctx c hc
          rw [hpe, l.pendable_binary c hq] at this
          exact Bool.noConfusion this)
      obtain ⟨vs2, pend2, h2, hp2, hd2⟩ := ihr hwr b hrb (a :: vs) (op :: os) (by
        intro c hc
        simp only [List.head?_cons, Option.mem_def, Option.some.injEq] at hc
        rw [← hc]
        cases hq : r.pendable op with
        | false => rfl
        | true =>
          have := r.pendable_of_term op hrt hq
          rw [not_multiplicative_of_additive hadd] at this
          exact Bool.noConfusion this)
      have hb := lSteps_bin op l r isLoop1Case (lOperator_additive op hadd)
        (isBinary_of_additive hadd) a b hdiv vs os
        (fun c hc => by have := hctx c hc; rw [hpe] at this; exact this)
        vs1 pend1 h1 (fun c hc => l.pendable_binary c (hp1 c hc)) hd1 vs2 pend2 h2 hd2
      refine ⟨vs2, pend2 ++ [op], hb.1, ?_, by rw [hvab]; exact hb.2⟩
      intro c hc
      rw [hpe]
      rw [List.mem_append, List.mem_singleton] at hc
      rcases hc with hc | hc
      · exact r.pendable_binary c (hp2 c hc)
      · rw [hc]; exact isBinary_of_additive hadd
    · have hpe : ∀ c, (Expression.bin op l r).pendable c = isMultiplicative c := by
        intro c
        unfold Expression.pendable
        simp only []
        rw [if_neg (by rw [not_additive_of_multiplicative hmul]; simp)]
      obtain ⟨vs1, pend1, h1, hp1, hd1⟩ := ihl hwl a hla vs os (by
        intro c hc
        cases hq : l.pendable c with
        | false => rfl
        | true =>
          have := hctx c hc
          rw [hpe, l.pendable_of_term c hlt hq] at this
          exact Bool.noConfusion this)
      obtain ⟨vs2, pend2, h2, hp2, hd2⟩ := ihr hwr b hrb (a :: vs) (op :: os)
        (fun c _ => r.pendable_of_factor c hrf)
      have hb := lSteps_bin op l r isLoop2Case (lOperator_multiplicative op hmul)
        (isBinary_of_multiplicative hmul) a b hdiv vs os
        (fun c hc => by have := hctx c hc; rw [hpe] at this; exact this)
        vs1 pend1 h1 (fun c hc => l.pendable_of_term c hlt (hp1 c hc)) hd1 vs2 pend2 h2 hd2
      refine ⟨vs2, pend2 ++ [op], hb.1, ?_, by rw [hvab]; exact hb.2⟩
      intro c hc
      rw [hpe]
      rw [List.mem_append, List.mem_singleton] at hc
      rcases hc with hc | hc
      · have := hp2 c hc
        rw [r.pendable_of_factor c hrf] at this
        exact Bool.noConfusion this
      · rw [hc]; exact hmul

theorem Expression.tokens_types (e : Expression) :
    ∀ t ∈ e.tokens, t.type = .VALUE ∨ t.type = .OPERATOR := by
  induction e with
  | lit ds =>
    intro t ht
    unfold Expression.tokens at ht
    rw [List.mem_singleton] at ht
    rw [ht]
    exact Or.inl rfl
  | paren e ih =>
    intro t ht
    unfold Expression.tokens at ht
    rw [List.mem_cons, List.mem_append, List.mem_singleton] at ht
    rcases ht with ht | ht | ht
    · rw [ht]; exact Or.inr rfl
    · exact ih t ht
    · rw [ht]; exact Or.inr rfl
  | bin op l r ihl ihr =>
    intro t ht
    unfold Expression.tokens at ht
    rw [List.mem_append, List.mem_cons] at ht
    rcases ht with ht | ht | ht
    · exact ihl t ht
    · rw [ht]; exact Or.inr rfl
    · exact ihr t ht

/-- The run on lists over tokens that the main loop handles and goes on
from. -/
theorem lRun_of_steps (dbg : Bool) (ts : List Token) :
    ∀ (vs : List Int) (os : List Char) (vs' : List Int) (os' : List Char) (rest : List Token),
      (∀ t ∈ ts, t.type = .VALUE ∨ t.type = .OPERATOR) →
      lSteps ts vs os = .go vs' os' →
      lRun dbg (ts ++ rest) vs os =
        (logsOf dbg ts ++ (lRun dbg rest vs' os').1, (lRun dbg rest vs' os').2) := by
  induction ts with
  | nil =>
    intro vs os vs' os' rest _ h
    simp only [lSteps, LFlow.go.injEq] at h
    rw [h.1, h.2]
    rfl
  | cons t ts ih =>
    intro vs os vs' os' rest hall h
    have ht : t.equalsType .EOLN = false := by
      unfold Token.equalsType
      rcases hall t (List.mem_cons_self t ts) with h | h <;> rw [h] <;> rfl
    rw [List.cons_append, lRun_cons, if_neg (by rw [ht]; simp)]
    rw [lSteps_cons] at h
    cases hl : lToken t vs os with
    | stop out e => rw [hl] at h; simp at h
    | go a b =>
      rw [hl] at h
      simp only [] at h ⊢
      rw [ih a b vs' os' rest (fun u hu => hall u (List.mem_cons_of_mem t hu)) h]
      simp only [logsOf, List.append_assoc]

/-- The run on lists over the tokens of an expression line prints the value
of the expression. -/
theorem lRun_expression (dbg : Bool) (e : Expression) (hwf : e.WellFormed = true) (v : Int)
    (hv : e.value = some v) :
    lRun dbg (e.tokens ++ [Token.ofType .EOLN]) [] [] =
      (logsOf dbg e.tokens ++ [Msg.result v], .returned) := by
  obtain ⟨vs', pend, h1, _, hd⟩ := lSteps_expression e hwf v hv [] [] (fun c hc => by
    simp at hc)
  have he : (Token.ofType .EOLN).equalsType .EOLN = true := rfl
  have hf : lFinish vs' pend = ([Msg.result v], .returned) := by
    unfold lFinish
    rw [hd]
  rw [lRun_of_steps dbg e.tokens [] [] vs' (pend ++ []) _ e.tokens_types h1, lRun_cons,
    if_pos he, List.append_nil, hf]

/-! ## The tokens of an expression line -/

theorem takeWhile_append_stop {α : Type} (p : α → Bool) (pre rest : List α)
    (hpre : ∀ c ∈ pre, p c = true) (hrest : ∀ c ∈ rest.head?, p c = false) :
    (pre ++ rest).takeWhile p = pre := by
  induction pre with
  | nil =>
    cases rest with
    | nil => rfl
    | cons c rest =>
      have hc := hrest c (by simp)
      rw [List.nil_append, List.takeWhile_cons_of_neg (by rw [hc]; simp)]
  | cons a pre ih =>
    rw [List.cons_append, List.takeWhile_cons_of_pos (hpre a (List.mem_cons_self a pre)),
      ih (fun c hc => hpre c (List.mem_cons_of_mem a hc))]

theorem drop_add_of_append (line : List Char) (p : Nat) (pre rest : List Char)
    (h : line.drop p = pre ++ rest) : line.drop (p + pre.length) = rest := by
  rw [← List.drop_drop, h, List.drop_left]

theorem lt_length_of_drop (line : List Char) (q : Nat) (c : Char) (rest : List Char)
    (h : line.drop q = c :: rest) : q < line.length := by
  by_contra hq
  rw [List.drop_of_length_le (by omega)] at h
  exact List.noConfusion h

/-- The reader that stands before white space followed by the character
`c`: the scan position after the white space, and the character there. -/
theorem standing_facts (line : List Char) (p : Nat) (sp : List Char) (c : Char)
    (rest : List Char) (h : line.drop p = sp ++ c :: rest)
    (hsp : ∀ x ∈ sp, isspace x = true) (hc : isspace c = false) :
    skipped (standing line p) = p + sp.length ∧ p + sp.length < line.length ∧
      charAt line (p + sp.length) = c ∧ line.drop (p + sp.length) = c :: rest := by
  have hd := drop_add_of_append line p sp (c :: rest) h
  refine ⟨?_, lt_length_of_drop line _ c rest hd, ?_, hd⟩
  · unfold skipped runAt standing
    simp only []
    rw [List.take_length, h, takeWhile_append_stop isspace sp (c :: rest) hsp (fun x hx => by
      simp only [List.head?_cons, Option.mem_def, Option.some.injEq] at hx
      rw [← hx]; exact hc)]
  · rw [charAt_eq_headD, hd]
    rfl

theorem isspace_of_operator {c : Char} (h : isOperatorChar c = true) : isspace c = false := by
  rw [isOperatorChar_iff] at h
  rcases h with h | h | h | h | h | h <;> rw [h] <;> decide

theorem isdigit_of_operator {c : Char} (h : isOperatorChar c = true) : isdigit c = false := by
  rw [isOperatorChar_iff] at h
  rcases h with h | h | h | h | h | h <;> rw [h] <;> decide

theorem isspace_of_digit {c : Char} (h : isdigit c = true) : isspace c = false := by
  have h1 := digit_toNat h
  unfold isspace
  simp only [Bool.or_eq_false_iff, beq_eq_false_iff_ne, ne_eq, Bool.and_eq_false_iff,
    decide_eq_false_iff_not]
  constructor
  · omega
  · right; omega

/-- The token of an operator character that follows white space. -/
theorem standing_operator (line : List Char) (p : Nat) (sp : List Char) (c : Char)
    (rest : List Char) (w : World) (h : line.drop p = sp ++ c :: rest)
    (hsp : ∀ x ∈ sp, isspace x = true) (hc : isOperatorChar c = true) :
    (standing line p).getNextToken w = (Token.ofOp c, standing line (p + sp.length + 1), w) := by
  obtain ⟨h1, h2, h3, _⟩ := standing_facts line p sp c rest h hsp (isspace_of_operator hc)
  have hc' := (isOperatorChar_iff c).mp hc
  have hq : ¬ (c = 'q' ∨ c = 'Q') := by
    rcases hc' with e | e | e | e | e | e <;> rw [e] <;> decide
  have hh : ¬ c = '?' := by
    rcases hc' with e | e | e | e | e | e <;> rw [e] <;> decide
  have hl : (standing line p).length = line.length := rfl
  have hi : (standing line p).inputLine = line := rfl
  rw [getNextToken_of_loaded _ w rfl, scanToken_eq, h1, hl, hi, h3, if_neg (by omega),
    if_neg hq, if_neg hh, if_pos hc']
  rfl

/-- The token of a run of digits that follows white space and is followed by
no digit. -/
theorem standing_number (line : List Char) (p : Nat) (sp : List Char) (d : Char)
    (ds rest : List Char) (w : World) (h : line.drop p = sp ++ ((d :: ds) ++ rest))
    (hsp : ∀ x ∈ sp, isspace x = true) (hds : ∀ x ∈ d :: ds, isdigit x = true)
    (hrest : ∀ x ∈ rest.head?, isdigit x = false) :
    (standing line p).getNextToken w =
      (Token.ofValue (wrapInt (decimal (d :: ds))),
        standing line (p + sp.length + (d :: ds).length), w) := by
  have hd := hds d (List.mem_cons_self d ds)
  obtain ⟨h1, h2, h3, h4⟩ := standing_facts line p sp d (ds ++ rest) h hsp (isspace_of_digit hd)
  have hn := isdigit_not_other d hd
  have hl : (standing line p).length = line.length := rfl
  have hi : (standing line p).inputLine = line := rfl
  have hrun : digitsAt line (p + sp.length) = d :: ds := by
    unfold digitsAt
    rw [h4, ← List.cons_append, takeWhile_append_stop isdigit (d :: ds) rest hds hrest]
  have hd' : isdigit (charAt line (p + sp.length)) = true := by rw [h3]; exact hd
  have hloop := digitLoop_number line (p + sp.length) hd'
  rw [h3, hrun] at hloop
  rw [getNextToken_of_loaded _ w rfl, scanToken_eq, h1, hl, hi, h3, if_neg (by omega),
    if_neg hn.1, if_neg hn.2.1, if_neg hn.2.2, if_pos hd, hloop, Nat.add_sub_cancel]
  rfl

/-- The end-of-line token, when only white space is left. -/
theorem standing_eoln (line : List Char) (p : Nat) (sp : List Char) (w : World)
    (h : line.drop p = sp) (hsp : ∀ x ∈ sp, isspace x = true) :
    ((standing line p).getNextToken w).1 = Token.ofType .EOLN ∧
    ((standing line p).getNextToken w).2.2 = w := by
  have h1 : skipped (standing line p) = p + sp.length := by
    unfold skipped runAt standing
    simp only []
    rw [List.take_length, h]
    have := takeWhile_append_stop isspace sp [] hsp (fun x hx => by simp at hx)
    rw [List.append_nil] at this
    rw [this]
  have h2 : line.length ≤ p + sp.length := by
    have := congrArg List.length h
    rw [List.length_drop] at this
    omega
  have hl : (standing line p).length = line.length := rfl
  rw [getNextToken_of_loaded _ w rfl, scanToken_eq, h1, hl, if_pos h2]
  exact ⟨rfl, rfl⟩

theorem supplies_cons (tr tr2 : TokenReader) (stdin : List Char) (t : Token)
    (ts : List Token)
    (h : tr.getNextToken { stdin := stdin, stdout := [] } =
      (t, tr2, { stdin := stdin, stdout := [] }))
    (hs : Supplies tr2 stdin ts) : Supplies tr stdin (t :: ts) := by
  unfold Supplies
  rw [h]
  exact ⟨rfl, rfl, hs⟩

theorem isOperatorChar_of_additive {c : Char} (h : isAdditive c = true) :
    isOperatorChar c = true := by
  unfold isAdditive at h
  simp only [Bool.or_eq_true, beq_iff_eq] at h
  rcases h with h | h <;> rw [h] <;> decide

theorem isOperatorChar_of_multiplicative {c : Char} (h : isMultiplicative c = true) :
    isOperatorChar c = true := by
  unfold isMultiplicative at h
  simp only [Bool.or_eq_true, beq_iff_eq] at h
  rcases h with h | h <;> rw [h] <;> decide

theorem Expression.operator_of_wellFormed (op : Char) (l r : Expression)
    (h : (Expression.bin op l r).WellFormed = true) : isOperatorChar op = true := by
  obtain ⟨_, _, hc⟩ := Expression.wellFormed_bin op l r h
  rcases hc with ⟨h, _⟩ | ⟨h, _⟩
  · exact isOperatorChar_of_additive h
  · exact isOperatorChar_of_multiplicative h

theorem Expression.wellFormed_lit (ds : List Char) (h : (Expression.lit ds).WellFormed = true) :
    ∃ d ds', ds = d :: ds' ∧ ∀ x ∈ d :: ds', isdigit x = true := by
  unfold Expression.WellFormed at h
  simp only [Bool.and_eq_true, Bool.not_eq_true', List.all_eq_true] at h
  cases ds with
  | nil => exact absurd h.1 (by simp)
  | cons d ds' => exact ⟨d, ds', rfl, h.2⟩

theorem isspace_blank : ∀ x ∈ [' '], isspace x = true := by
  intro x hx
  rw [List.mem_singleton] at hx
  rw [hx]
  decide

/-- The reader that stands, on a line, before white space followed by the
text of an expression returns the tokens of the expression and then stands
behind the text. -/
theorem supplies_expression (line stdin : List Char) (e : Expression) :
    e.WellFormed = true → ∀ (p : Nat) (sp suffix : List Char) (rest : List Token),
      line.drop p = sp ++ (e.render ++ suffix) → (∀ x ∈ sp, isspace x = true) →
      (∀ x ∈ suffix.head?, isdigit x = false) →
      Supplies (standing line (p + sp.length + e.render.length)) stdin rest →
      Supplies (standing line p) stdin (e.tokens ++ rest) := by
  induction e with
  | lit ds =>
    intro hwf p sp suffix rest h hsp hsuf hs
    obtain ⟨d, ds', hds, hall⟩ := Expression.wellFormed_lit ds hwf
    subst hds
    unfold Expression.render at h hs
    unfold Expression.tokens
    exact supplies_cons _ _ stdin _ _
      (standing_number line p sp d ds' suffix _ h hsp hall hsuf) hs
  | paren e ih =>
    intro hwf p sp suffix rest h hsp hsuf hs
    unfold Expression.render at h hs
    unfold Expression.tokens
    have h0 : line.drop p = sp ++ '(' :: ([' '] ++ (e.render ++ (' ' :: ')' :: suffix))) := by
      rw [h]; simp
    have h1 := drop_add_of_append line (p + sp.length) ['('] _
      (drop_add_of_append line p sp _ h0)
    have h2 := drop_add_of_append line (p + sp.length + 1 + 1) e.render _
      (drop_add_of_append line (p + sp.length + 1) [' '] _ h1)
    have h2' : line.drop (p + sp.length + 1 + 1 + e.render.length) =
        [' '] ++ ')' :: suffix := h2
    have e1 : p + sp.length + 1 + 1 + e.render.length + [' '].length + 1 =
        p + sp.length + ('(' :: ' ' :: (e.render ++ [' ', ')'])).length := by
      simp only [List.length_cons, List.length_append, List.length_nil]
      omega
    have hs2 : Supplies (standing line (p + sp.length + 1 + 1 + e.render.length)) stdin
        (Token.ofOp ')' :: rest) := by
      refine supplies_cons _ _ stdin _ _
        (standing_operator line _ [' '] ')' suffix _ h2' isspace_blank (by decide)) ?_
      rw [e1]
      exact hs
    have hs1 := ih hwf (p + sp.length + 1) [' '] (' ' :: ')' :: suffix) (Token.ofOp ')' :: rest)
      h1 isspace_blank (fun x hx => by
        simp only [List.head?_cons, Option.mem_def, Option.some.injEq] at hx
        rw [← hx]; decide) hs2
    rw [List.cons_append, List.append_assoc]
    exact supplies_cons _ _ stdin _ _
      (standing_operator line p sp '(' _ _ h0 hsp (by decide)) hs1
  | bin op l r ihl ihr =>
    intro hwf p sp suffix rest h hsp hsuf hs
    obtain ⟨hwl, hwr, _⟩ := Expression.wellFormed_bin op l r hwf
    have hop := Expression.operator_of_wellFormed op l r hwf
    unfold Expression.render at h hs
    unfold Expression.tokens
    have h0 : line.drop p = sp ++ (l.render ++ ([' '] ++ op :: ([' '] ++ (r.render ++ suffix)))) := by
      rw [h]; simp
    have h1 := drop_add_of_append line (p + sp.length) l.render _
      (drop_add_of_append line p sp _ h0)
    have h2 := drop_add_of_append line (p + sp.length + l.render.length + 1) [op] _
      (drop_add_of_append line (p + sp.length + l.render.length) [' '] _ h1)
    have h2' : line.drop (p + sp.length + l.render.length + 1 + 1) =
        [' '] ++ (r.render ++ suffix) := h2
    have e1 : p + sp.length + l.render.length + 1 + 1 + [' '].length + r.render.length =
        p + sp.length + (l.render ++ ' ' :: op :: ' ' :: r.render).length := by
      simp only [List.length_cons, List.length_append, List.length_nil]
      omega
    have hs3 := ihr hwr (p + sp.length + l.render.length + 1 + 1) [' '] suffix rest h2'
      isspace_blank hsuf (by rw [e1]; exact hs)
    have hs2 : Supplies (standing line (p + sp.length + l.render.length)) stdin
        (Token.ofOp op :: (r.tokens ++ rest)) :=
      supplies_cons _ _ stdin _ _
        (standing_operator line _ [' '] op _ _ h1 isspace_blank hop) hs3
    have hs1 := ihl hwl p sp _ _ h0 hsp (fun x hx => by
        simp only [List.append_eq, List.cons_append, List.nil_append, List.head?_cons,
          Option.mem_def, Option.some.injEq] at hx
        rw [← hx]; decide) hs2
    rw [List.append_assoc]
    exact hs1

/-- The characters of the text of an expression: digits, blanks and operator
characters. -/
theorem Expression.render_chars (e : Expression) :
    e.WellFormed = true →
      ∀ c ∈ e.render, isdigit c = true ∨ c = ' ' ∨ isOperatorChar c = true := by
  induction e with
  | lit ds =>
    intro hwf c hc
    obtain ⟨d, ds', hds, hall⟩ := Expression.wellFormed_lit ds hwf
    unfold Expression.render at hc
    rw [hds] at hc
    exact Or.inl (hall c hc)
  | paren e ih =>
    intro hwf c hc
    unfold Expression.render at hc
    simp only [List.mem_cons, List.mem_append, List.mem_singleton, List.not_mem_nil,
      or_false] at hc
    rcases hc with hc | hc | hc | hc | hc
    · rw [hc]; exact Or.inr (Or.inr (by decide))
    · exact Or.inr (Or.inl hc)
    · exact ih hwf c hc
    · exact Or.inr (Or.inl hc)
    · rw [hc]; exact Or.inr (Or.inr (by decide))
  | bin op l r ihl ihr =>
    intro hwf c hc
    obtain ⟨hwl, hwr, _⟩ := Expression.wellFormed_bin op l r hwf
    have hop := Expression.operator_of_wellFormed op l r hwf
    unfold Expression.render at hc
    simp only [List.mem_cons, List.mem_append] at hc
    rcases hc with hc | hc | hc | hc | hc
    · exact ihl hwl c hc
    · exact Or.inr (Or.inl hc)
    · rw [hc]; exact Or.inr (Or.inr hop)
    · exact Or.inr (Or.inl hc)
    · exact ihr hwr c hc

theorem Expression.render_plain (e : Expression) (hwf : e.WellFormed = true) :
    ∀ c ∈ e.render, c ≠ Char.ofNat 10 ∧ c ≠ NUL := by
  intro c hc
  rcases e.render_chars hwf c hc with h | h | h
  · constructor <;> intro hx <;> rw [hx] at h <;> exact absurd h (by decide)
  · rw [h]; constructor <;> decide
  · constructor <;> intro hx <;> rw [hx] at h <;> exact absurd h (by decide)

theorem Expression.render_ne_nil (e : Expression) (hwf : e.WellFormed = true) :
    e.render ≠ [] := by
  induction e with
  | lit ds =>
    obtain ⟨d, ds', hds, _⟩ := Expression.wellFormed_lit ds hwf
    unfold Expression.render
    rw [hds]
    exact List.cons_ne_nil _ _
  | paren e _ =>
    unfold Expression.render
    exact List.cons_ne_nil _ _
  | bin op l r ihl _ =>
    obtain ⟨hwl, _, _⟩ := Expression.wellFormed_bin op l r hwf
    unfold Expression.render
    intro h
    exact ihl hwl (List.append_eq_nil.mp h).1

theorem Expression.tokens_ne_nil (e : Expression) : e.tokens ≠ [] := by
  induction e with
  | lit ds => unfold Expression.tokens; exact List.cons_ne_nil _ _
  | paren e _ => unfold Expression.tokens; exact List.cons_ne_nil _ _
  | bin op l r ihl _ =>
    unfold Expression.tokens
    intro h
    exact ihl (List.append_eq_nil.mp h).1

theorem Expression.tokens_length (e : Expression) (hwf : e.WellFormed = true) :
    e.tokens.length ≤ e.render.length := by
  induction e with
  | lit ds =>
    obtain ⟨d, ds', hds, _⟩ := Expression.wellFormed_lit ds hwf
    unfold Expression.render Expression.tokens
    rw [hds]
    simp only [List.length_cons, List.length_nil]
    omega
  | paren e ih =>
    have := ih hwf
    unfold Expression.render Expression.tokens
    simp only [List.length_cons, List.length_append, List.length_nil]
    omega
  | bin op l r ihl ihr =>
    obtain ⟨hwl, hwr, _⟩ := Expression.wellFormed_bin op l r hwf
    have := ihl hwl
    have := ihr hwr
    unfold Expression.render Expression.tokens
    simp only [List.length_cons, List.length_append]
    omega

/-- The library function `fgets` on a line that fits the buffer: it stores
the line with its newline and leaves what follows. -/
theorem fgetsChars_line (s rest : List Char) (hs : ∀ c ∈ s, c ≠ Char.ofNat 10) :
    ∀ n, s.length < n →
      fgetsChars n (s ++ Char.ofNat 10 :: rest) = (s ++ [Char.ofNat 10], rest) := by
  induction s with
  | nil =>
    intro n hn
    cases n with
    | zero => exact absurd hn (by simp)
    | succ n =>
      rw [List.nil_append]
      unfold fgetsChars
      rw [if_pos rfl]
      rfl
  | cons c s ih =>
    intro n hn
    cases n with
    | zero => exact absurd hn (by simp)
    | succ n =>
      rw [List.cons_append]
      unfold fgetsChars
      rw [if_neg (hs c (List.mem_cons_self c s)),
        ih (fun d hd => hs d (List.mem_cons_of_mem c hd)) n (by
          simp only [List.length_cons] at hn; omega)]
      rfl

theorem strlen_of_plain (s : List Char) (hs : ∀ c ∈ s, c ≠ NUL) : strlen s = s.length := by
  unfold strlen
  induction s with
  | nil => rfl
  | cons c s ih =>
    have hc : (fun c => c != NUL) c = true := by
      have := hs c (List.mem_cons_self c s)
      simpa using this
    rw [@List.takeWhile_cons_of_pos _ (fun c => c != NUL) c _ hc, List.length_cons,
      List.length_cons, ih (fun d hd => hs d (List.mem_cons_of_mem c hd))]

/-- A new reader reads a line that fits the buffer and then is the reader
standing at the start of it. -/
theorem getNextToken_new (s rest : List Char) (out : List Msg)
    (hs : ∀ c ∈ s, c ≠ Char.ofNat 10 ∧ c ≠ NUL) (hlen : s.length + 1 < MAX_LINE) :
    TokenReader.new.getNextToken { stdin := s ++ Char.ofNat 10 :: rest, stdout := out } =
      (standing (s ++ [Char.ofNat 10]) 0).getNextToken { stdin := rest, stdout := out } := by
  have hne : s ++ Char.ofNat 10 :: rest ≠ [] := by
    intro h
    exact List.cons_ne_nil _ _ (List.append_eq_nil.mp h).2
  have hstr : strlen (s ++ [Char.ofNat 10]) = (s ++ [Char.ofNat 10]).length := by
    apply strlen_of_plain
    intro c hc
    rw [List.mem_append, List.mem_singleton] at hc
    rcases hc with hc | hc
    · exact (hs c hc).2
    · rw [hc]; decide
  rw [getNextToken_eq, getNextToken_of_loaded (standing (s ++ [Char.ofNat 10]) 0) _ rfl]
  unfold readLine TokenReader.new fgets
  simp only [if_true]
  rw [if_neg hne, fgetsChars_line s rest (fun c hc => (hs c hc).1) (MAX_LINE - 1)
    (by unfold MAX_LINE at hlen ⊢; omega)]
  simp only []
  rw [hstr]
  rfl

/-- An iteration of `main` on an expression line whose run on lists returns:
the loop goes on, and what the run prints follows the prompt. -/
theorem mainIteration_expression (dbg : Bool) (w : World) (tok : Token) (toks : List Token)
    (hs : Supplies TokenReader.new w.stdin (tok :: toks))
    (hline : IsExpressionLine (tok :: toks)) (hlen : toks.length < 2 ^ 63)
    (htok : tok.type = .VALUE ∨ tok.type = .OPERATOR)
    (hret : (lRun dbg (tok :: toks) [] []).2 = .returned) :
    (mainIteration dbg w).1 = .continues ∧
    (mainIteration dbg w).2.stdout =
      w.stdout ++ Msg.prompt :: (lRun dbg (tok :: toks) [] []).1 := by
  unfold Supplies at hs
  obtain ⟨h1, h2, h3⟩ := hs
  have hr := getNextToken_print TokenReader.new w [Msg.prompt]
  have hag := processExpression_agrees dbg tok toks
    (TokenReader.new.getNextToken { stdin := w.stdin, stdout := [] }).2.1
    { stdin := (TokenReader.new.getNextToken { stdin := w.stdin, stdout := [] }).2.2.stdin,
      stdout := w.stdout ++ [Msg.prompt] ++
        (TokenReader.new.getNextToken { stdin := w.stdin, stdout := [] }).2.2.stdout }
    h3 hline hlen
  rw [hret] at hag
  unfold mainIteration
  simp only []
  rw [hr]
  simp only []
  rw [h1]
  have hg : tok.getType = .VALUE ∨ tok.getType = .OPERATOR := htok
  rcases hg with hg | hg
  · rw [hg]
    simp only []
    rw [hag.1]
    simp only []
    rw [hag.2, h2]
    simp only [List.append_nil, List.append_assoc, List.singleton_append, and_self]
  · rw [hg]
    simp only []
    rw [hag.1]
    simp only []
    rw [hag.2, h2]
    simp only [List.append_nil, List.append_assoc, List.singleton_append, and_self]

/-- The library function `fgets` on a line that fills the buffer: it stores
the characters for which the buffer has room and leaves the rest. -/
theorem fgetsChars_full (s rest : List Char) (hs : ∀ c ∈ s, c ≠ Char.ofNat 10) :
    fgetsChars s.length (s ++ rest) = (s, rest) := by
  induction s with
  | nil => rfl
  | cons c s ih =>
    rw [List.cons_append, List.length_cons]
    unfold fgetsChars
    rw [if_neg (hs c (List.mem_cons_self c s)),
      ih (fun d hd => hs d (List.mem_cons_of_mem c hd))]

/-- A new reader reads the first `MAX_LINE - 1` characters of a longer line
and then is the reader standing at the start of them. -/
theorem getNextToken_new_full (s rest : List Char) (out : List Msg)
    (hs : ∀ c ∈ s, c ≠ Char.ofNat 10 ∧ c ≠ NUL) (hlen : s.length + 1 = MAX_LINE) :
    TokenReader.new.getNextToken { stdin := s ++ rest, stdout := out } =
      (standing s 0).getNextToken { stdin := rest, stdout := out } := by
  have hne : s ++ rest ≠ [] := by
    intro h
    have h1 := congrArg List.length (List.append_eq_nil.mp h).1
    unfold MAX_LINE at hlen
    rw [List.length_nil] at h1
    omega
  have hstr : strlen s = s.length := strlen_of_plain s (fun c hc => (hs c hc).2)
  have hm : MAX_LINE - 1 = s.length := by omega
  rw [getNextToken_eq, getNextToken_of_loaded (standing s 0) _ rfl]
  unfold readLine TokenReader.new fgets
  simp only [if_true]
  rw [if_neg hne, hm, fgetsChars_full s rest (fun c hc => (hs c hc).1)]
  simp only []
  rw [hstr]
  rfl

theorem supplies_of_first (tr tr2 : TokenReader) (stdin stdin2 : List Char) (t : Token)
    (ts : List Token)
    (heq : tr.getNextToken { stdin := stdin, stdout := [] } =
      tr2.getNextToken { stdin := stdin2, stdout := [] })
    (h : Supplies tr2 stdin2 (t :: ts)) : Supplies tr stdin (t :: ts) := by
  unfold Supplies at h ⊢
  rw [heq]
  exact h

theorem isdigit_of_space {c : Char} (h : isspace c = true) : isdigit c = false := by
  cases hd : isdigit c with
  | false => rfl
  | true =>
    rw [isspace_of_digit hd] at h
    exact Bool.noConfusion h

/-- The reader standing at the start of an expression followed only by white
space supplies the tokens of the expression and then the end-of-line
token. -/
theorem supplies_expression_line (e : Expression) (nl rest : List Char)
    (hwf : e.WellFormed = true) (hnl : ∀ x ∈ nl, isspace x = true) :
    Supplies (standing (e.render ++ nl) 0) rest (e.tokens ++ [Token.ofType .EOLN]) := by
  have hd : (e.render ++ nl).drop (0 + ([] : List Char).length + e.render.length) = nl := by
    rw [List.length_nil, Nat.add_zero, Nat.zero_add, List.drop_left]
  have he := standing_eoln (e.render ++ nl) _ nl { stdin := rest, stdout := [] } hd hnl
  refine supplies_expression (e.render ++ nl) rest e hwf 0 [] nl
    [Token.ofType .EOLN] rfl (fun x hx => by simp at hx) (fun x hx => ?_) ?_
  · apply isdigit_of_space
    apply hnl
    cases nl with
    | nil => simp at hx
    | cons c nl' =>
      simp only [List.head?_cons, Option.mem_def, Option.some.injEq] at hx
      rw [← hx]
      exact List.mem_cons_self c nl'
  · unfold Supplies
    rw [he.1, he.2]
    exact ⟨rfl, rfl, trivial⟩

/-- An iteration of `main` whose new reader supplies the tokens of an
expression and the end-of-line token prints the value of the expression. -/
theorem mainIteration_value (dbg : Bool) (e : Expression) (v : Int) (w : World)
    (hwf : e.WellFormed = true) (hv : e.value = some v)
    (hlen : e.render.length < MAX_LINE)
    (hsup : Supplies TokenReader.new w.stdin (e.tokens ++ [Token.ofType .EOLN])) :
    (mainIteration dbg w).1 = .continues ∧
    (mainIteration dbg w).2.stdout =
      w.stdout ++ Msg.prompt :: (logsOf dbg e.tokens ++ [Msg.result v]) := by
  have hrun := lRun_expression dbg e hwf v hv
  have htypes := e.tokens_types
  have htl := e.tokens_length hwf
  cases ht : e.tokens with
  | nil => exact absurd ht e.tokens_ne_nil
  | cons t ts =>
    rw [ht] at hsup hrun htypes htl
    rw [List.cons_append] at hsup hrun
    have hb : (300 : Nat) < 2 ^ 63 := by norm_num
    have h := mainIteration_expression dbg w t (ts ++ [Token.ofType .EOLN]) hsup
      ⟨t :: ts, rfl, htypes⟩
      (by
        unfold MAX_LINE at hlen
        simp only [List.length_cons, List.length_append, List.length_nil] at htl ⊢
        omega)
      (htypes t (List.mem_cons_self t ts))
      (by rw [hrun])
    rw [hrun] at h
    exact h

/-- C1 (amended): for every expression of the grammar
`expr ::= term | expr (+|-) term`, `term ::= factor | term (*|/) factor`,
`factor ::= digits | ( expr )`, written with single spaces between the tokens
on a line of fewer than `MAX_LINE` characters (the newline not counted), and
whose value in `int` arithmetic (with the division truncating toward zero) is
defined, that is no divisor is zero and no quotient is `INT_MIN / -1`: the
iteration of `main` that reads the line with `getNextToken` and evaluates it
with `processExpression` goes on to the next prompt after printing, behind
the prompt (and the debugging lines, if any), the result equal to the value
of the expression. -/
theorem expression_line_prints_value (dbg : Bool) (e : Expression) (v : Int)
    (rest : List Char) (out : List Msg)
    (hwf : e.WellFormed = true) (hv : e.value = some v)
    (hlen : e.render.length < MAX_LINE) :
    (mainIteration dbg { stdin := e.render ++ Char.ofNat 10 :: rest, stdout := out }).1 =
      .continues ∧
    (mainIteration dbg { stdin := e.render ++ Char.ofNat 10 :: rest, stdout := out }).2.stdout =
      out ++ Msg.prompt :: (logsOf dbg e.tokens ++ [Msg.result v]) := by
  apply mainIteration_value dbg e v _ hwf hv hlen
  have hnl : ∀ x ∈ [Char.ofNat 10], isspace x = true := by
    intro x hx
    rw [List.mem_singleton] at hx
    rw [hx]
    decide
  cases hts : e.tokens ++ [Token.ofType .EOLN] with
  | nil => exact absurd (List.append_eq_nil.mp hts).1 e.tokens_ne_nil
  | cons t ts =>
    by_cases h1 : e.render.length + 1 < MAX_LINE
    · have hsup := supplies_expression_line e [Char.ofNat 10] rest hwf hnl
      rw [hts] at hsup
      exact supplies_of_first _ _ _ _ t ts
        (getNextToken_new e.render rest [] (e.render_plain hwf) h1) hsup
    · have hsup := supplies_expression_line e [] (Char.ofNat 10 :: rest) hwf
        (fun x hx => by simp at hx)
      rw [hts, List.append_nil] at hsup
      exact supplies_of_first _ _ _ _ t ts
        (getNextToken_new_full e.render (Char.ofNat 10 :: rest) [] (e.render_plain hwf)
          (by omega)) hsup

set_option maxRecDepth 100000 in
/-- C1 (witness): the line `( 3 + 4 ) * 2 - 10 / 3` prints the result 11. -/
theorem expression_line_prints_value_witness :
    sampleExpression.render = "( 3 + 4 ) * 2 - 10 / 3".toList ∧
    (mainIteration false
      { stdin := sampleExpression.render ++ Char.ofNat 10 :: [], stdout := [] }).2.stdout =
      [] ++ Msg.prompt :: (logsOf false sampleExpression.tokens ++ [Msg.result 11]) :=
  ⟨by decide,
   (expression_line_prints_value false sampleExpression 11 [] [] (by decide)
      (by with_unfolding_all decide) (by decide)).2⟩

set_option maxRecDepth 1000000 in
/-- C1 (counterexample): the expression `1 + 1 + ... + 1` with 76 literals is
in the grammar and has the value 76, but its line has 301 characters: the
reader stores the first 299 of them, the evaluator finds the line ending
with `+` and prints `Error: Too many operators.`, and the next iteration
reads what is left of the line and prints the result 1. -/
theorem long_line_is_cut :
    (onesSum 75).WellFormed = true ∧ (onesSum 75).value = some 76 ∧
    (onesSum 75).render.length = 301 ∧
    mainIteration false { stdin := (onesSum 75).render ++ [Char.ofNat 10], stdout := [] } =
      (.continues, ⟨[' ', '1', Char.ofNat 10], [Msg.prompt, Msg.tooManyOperators]⟩) ∧
    mainIteration false ⟨[' ', '1', Char.ofNat 10], [Msg.prompt, Msg.tooManyOperators]⟩ =
      (.continues, ⟨[], [Msg.prompt, Msg.tooManyOperators, Msg.prompt, Msg.result 1]⟩) := by
  refine ⟨?_, ?_, ?_, ?_, ?_⟩
  · decide
  · with_unfolding_all decide
  · decide
  · with_unfolding_all decide
  · with_unfolding_all decide

end Calc
